import Mathlib

set_option maxRecDepth 100000
set_option maxHeartbeats 2000000

/-!
Verification of the RFSN-LEARNER control plane against its specification.

Shallow embedding of the core components:
* `rfsn/crypto.py` — canonical JSON encoding and sha256 hashing;
* `rfsn/ledger.py` / `rfsn/replay.py` — append-only hash-chained ledger and
  chain verification;
* `rfsn/gate.py` — the pure policy gate;
* `controller/tool_registry.py` / `controller/tool_router.py` — capability
  registry, schema validation, path scoping, routing;
* `controller/budget_enforcer.py` — per-turn budgets;
* `controller/test_delta.py` — test-delta reward;
* `controller/planner/types.py` / `controller/planner/executor.py` — plan
  execution;
* `upstream_learner/bandit.py` — Thompson selection.

Python strings are modelled as `List Char` (`Str`), Python byte strings as
`List Nat` with every element below 256, and Python structured values as the
inductive `PyVal`.
-/

namespace RFSN

/-- Python strings, modelled as lists of unicode scalar values. -/
abbrev Str := List Char

/-- Coerce a Lean string literal to the `Str` model. -/
def str (s : String) : Str := s.data

/-! ## Structured values (`rfsn/crypto.py` input domain)

`canonical_json` serializes mappings, sequences, sets and primitives.  The
repository only ever serializes sets and frozensets of strings (for example
`WorldSnapshot.permissions : frozenset[str]`), so set elements are modelled as
strings; `sorted(list(o))` on such a set is the lexicographic sort modelled
below. -/

inductive PyVal where
  | pnone : PyVal
  | pbool : Bool → PyVal
  | pint : Int → PyVal
  | pstr : Str → PyVal
  | plist : List PyVal → PyVal
  | ptuple : List PyVal → PyVal
  | pdict : List (Str × PyVal) → PyVal
  | pset : List Str → PyVal
  | pfrozenset : List Str → PyVal

instance : Inhabited PyVal := ⟨PyVal.pnone⟩

/-- JSON values as produced by `json.loads`: the image of Python values after
the `SafeEncoder` hooks (tuples and sets have been collapsed to arrays). -/
inductive J where
  | jnull : J
  | jbool : Bool → J
  | jint : Int → J
  | jstr : Str → J
  | jarr : List J → J
  | jobj : List (Str × J) → J

/-! ### Lexicographic string order and insertion sort

Python `sorted` on strings and `json.dumps(sort_keys=True)` order strings by
unicode code point, lexicographically. -/

/-- Strict lexicographic order on strings by code point, as Python `<`. -/
def lexLt : Str → Str → Bool
  | [], [] => false
  | [], _ :: _ => true
  | _ :: _, [] => false
  | a :: as', b :: bs' =>
    if a.toNat < b.toNat then true
    else if b.toNat < a.toNat then false
    else lexLt as' bs'

/-- Insert into a list sorted by `lexLt` on the first component (stable). -/
def insortKey {α : Type} (p : Str × α) : List (Str × α) → List (Str × α)
  | [] => [p]
  | q :: qs => if lexLt p.1 q.1 then p :: q :: qs else q :: insortKey p qs

/-- Stable insertion sort of keyed entries by key, modelling
`json.dumps(..., sort_keys=True)`. -/
def sortKvs {α : Type} : List (Str × α) → List (Str × α)
  | [] => []
  | p :: ps => insortKey p (sortKvs ps)

/-- Insert a string into a lexicographically sorted list (stable). -/
def insortStr (s : Str) : List Str → List Str
  | [] => [s]
  | t :: ts => if lexLt s t then s :: t :: ts else t :: insortStr s ts

/-- Python `sorted` on a list of strings. -/
def sortStrs : List Str → List Str
  | [] => []
  | s :: ss => insortStr s (sortStrs ss)

/-! ### Serialization: `json.dumps(obj, cls=SafeEncoder, sort_keys=True,
separators=(",", ":"), ensure_ascii=False)` -/

/-- Hex digit character (lowercase), as printed by Python `\uXXXX` escapes. -/
def hexDigit (n : Nat) : Char :=
  if n < 10 then Char.ofNat (48 + n) else Char.ofNat (87 + n)

/-- Decimal digit character. -/
def decDigit (n : Nat) : Char := Char.ofNat (48 + n)

/-- Decimal digits of a natural number, most significant first.  The fuel is
the recursion bound; `natToChars` supplies a sufficient amount. -/
def natToCharsAux : Nat → Nat → Str
  | 0, _ => []
  | fuel + 1, n =>
    if n < 10 then [decDigit n]
    else natToCharsAux fuel (n / 10) ++ [decDigit (n % 10)]

/-- Decimal rendering of a natural number, as Python `str`. -/
def natToChars (n : Nat) : Str := natToCharsAux (n + 1) n

/-- Decimal rendering of an integer, as Python `str` / `json.dumps`. -/
def intToChars : Int → Str
  | Int.ofNat n => natToChars n
  | Int.negSucc n => '-' :: natToChars (n + 1)

/-- JSON string escaping with `ensure_ascii=False`: only the quote, the
backslash and control characters below `0x20` are escaped; of the control
characters, `\b \t \n \f \r` use their two-character escapes and the rest use
`\u00XX`. -/
def escChar (c : Char) : Str :=
  if c = Char.ofNat 34 then ['\\', Char.ofNat 34]
  else if c = '\\' then ['\\', '\\']
  else if c = Char.ofNat 8 then ['\\', 'b']
  else if c = Char.ofNat 9 then ['\\', 't']
  else if c = Char.ofNat 10 then ['\\', 'n']
  else if c = Char.ofNat 12 then ['\\', 'f']
  else if c = Char.ofNat 13 then ['\\', 'r']
  else if c.toNat < 32 then
    ['\\', 'u', '0', '0', hexDigit (c.toNat / 16), hexDigit (c.toNat % 16)]
  else [c]

/-- Serialized JSON string literal: quote, escaped characters, quote. -/
def serStr (s : Str) : Str :=
  Char.ofNat 34 :: (s.flatMap escChar) ++ [Char.ofNat 34]

/-- Join already-serialized object entries: `"key":value` separated by
commas. -/
def joinObj : List (Str × Str) → Str
  | [] => []
  | [(k, sv)] => serStr k ++ ':' :: sv
  | (k, sv) :: q :: kvs => serStr k ++ ':' :: sv ++ ',' :: joinObj (q :: kvs)

mutual
/-- Serialize a JSON value with minimal separators and sorted object keys,
exactly as `canonical_json` configures `json.dumps`.  Python sorts the entries
by key and then serializes each value; since the sort compares keys only and
dict keys are unique, sorting the pairs of key and serialized value produces
the identical text. -/
def serJ : J → Str
  | J.jnull => str "null"
  | J.jbool true => str "true"
  | J.jbool false => str "false"
  | J.jint n => intToChars n
  | J.jstr s => serStr s
  | J.jarr xs => '[' :: serArr xs ++ [']']
  | J.jobj kvs => Char.ofNat 123 :: joinObj (sortKvs (serPairs kvs)) ++ [Char.ofNat 125]
termination_by structural j => j

/-- Comma-separated serialization of array elements. -/
def serArr : List J → Str
  | [] => []
  | [x] => serJ x
  | x :: y :: xs => serJ x ++ ',' :: serArr (y :: xs)
termination_by structural l => l

/-- Serialize the value of each object entry, keeping keys. -/
def serPairs : List (Str × J) → List (Str × Str)
  | [] => []
  | (k, v) :: kvs => (k, serJ v) :: serPairs kvs
termination_by structural l => l
end

mutual
/-- The `SafeEncoder` hooks of `canonical_json`: frozensets and sets become
sorted lists, tuples become lists; everything else is serialized natively. -/
def pyToJ : PyVal → J
  | PyVal.pnone => J.jnull
  | PyVal.pbool b => J.jbool b
  | PyVal.pint n => J.jint n
  | PyVal.pstr s => J.jstr s
  | PyVal.plist xs => J.jarr (pyListToJ xs)
  | PyVal.ptuple xs => J.jarr (pyListToJ xs)
  | PyVal.pdict kvs => J.jobj (pyKvsToJ kvs)
  | PyVal.pset es => J.jarr ((sortStrs es).map J.jstr)
  | PyVal.pfrozenset es => J.jarr ((sortStrs es).map J.jstr)
termination_by structural v => v

/-- Elementwise conversion of a Python list. -/
def pyListToJ : List PyVal → List J
  | [] => []
  | x :: xs => pyToJ x :: pyListToJ xs
termination_by structural l => l

/-- Entrywise conversion of a Python dict. -/
def pyKvsToJ : List (Str × PyVal) → List (Str × J)
  | [] => []
  | (k, v) :: kvs => (k, pyToJ v) :: pyKvsToJ kvs
termination_by structural l => l
end

/-- The text produced by `canonical_json` before UTF-8 encoding. -/
def canonicalChars (v : PyVal) : Str := serJ (pyToJ v)

/-- UTF-8 encoding of one unicode scalar value. -/
def utf8Char (c : Char) : List Nat :=
  let n := c.toNat
  if n < 0x80 then [n]
  else if n < 0x800 then [0xC0 + n / 64, 0x80 + n % 64]
  else if n < 0x10000 then
    [0xE0 + n / 4096, 0x80 + n / 64 % 64, 0x80 + n % 64]
  else
    [0xF0 + n / 262144, 0x80 + n / 4096 % 64, 0x80 + n / 64 % 64, 0x80 + n % 64]

/-- UTF-8 encoding of a string, modelling `.encode("utf-8")`. -/
def utf8 (s : Str) : List Nat := s.flatMap utf8Char

/-- `canonical_json(obj)`: deterministic serialization to bytes
(`rfsn/crypto.py`). -/
def canonical_json (v : PyVal) : List Nat := utf8 (canonicalChars v)

/-! ## SHA-256 (`hashlib.sha256(...).hexdigest()`)

Words are naturals reduced modulo `2^32` explicitly. -/

/-- Truncation to a 32-bit word. -/
def w32 (n : Nat) : Nat := n % 4294967296

/-- Right rotation of a 32-bit word.  The two shifted parts are disjoint, so
plain addition assembles them. -/
def rotr (k x : Nat) : Nat := x / 2 ^ k + x % 2 ^ k * 2 ^ (32 - k)

/-- Bitwise choice function. -/
def shaCh (x y z : Nat) : Nat := Nat.xor (Nat.land x y) (Nat.land (Nat.xor x 4294967295) z)

/-- Bitwise majority function. -/
def shaMaj (x y z : Nat) : Nat :=
  Nat.xor (Nat.xor (Nat.land x y) (Nat.land x z)) (Nat.land y z)

/-- Large sigma 0. -/
def bsig0 (x : Nat) : Nat := Nat.xor (Nat.xor (rotr 2 x) (rotr 13 x)) (rotr 22 x)

/-- Large sigma 1. -/
def bsig1 (x : Nat) : Nat := Nat.xor (Nat.xor (rotr 6 x) (rotr 11 x)) (rotr 25 x)

/-- Small sigma 0. -/
def ssig0 (x : Nat) : Nat := Nat.xor (Nat.xor (rotr 7 x) (rotr 18 x)) (x / 2 ^ 3)

/-- Small sigma 1. -/
def ssig1 (x : Nat) : Nat := Nat.xor (Nat.xor (rotr 17 x) (rotr 19 x)) (x / 2 ^ 10)

/-- The 64 SHA-256 round constants. -/
def shaK : List Nat :=
  [1116352408, 1899447441, 3049323471, 3921009573, 961987163, 1508970993,
   2453635748, 2870763221, 3624381080, 310598401, 607225278, 1426881987,
   1925078388, 2162078206, 2614888103, 3248222580, 3835390401, 4022224774,
   264347078, 604807628, 770255983, 1249150122, 1555081692, 1996064986,
   2554220882, 2821834349, 2952996808, 3210313671, 3336571891, 3584528711,
   113926993, 338241895, 666307205, 773529912, 1294757372, 1396182291,
   1695183700, 1986661051, 2177026350, 2456956037, 2730485921, 2820302411,
   3259730800, 3345764771, 3516065817, 3600352804, 4094571909, 275423344,
   430227734, 506948616, 659060556, 883997877, 958139571, 1322822218,
   1537002063, 1747873779, 1955562222, 2024104815, 2227730452, 2361852424,
   2428436474, 2756734187, 3204031479, 3329325298]

/-- The eight-word SHA-256 working state. -/
structure Sha8 where
  a : Nat
  b : Nat
  c : Nat
  d : Nat
  e : Nat
  f : Nat
  g : Nat
  h : Nat
deriving DecidableEq

/-- Initial SHA-256 state. -/
def shaInit : Sha8 :=
  ⟨1779033703, 3144134277, 1013904242, 2773480762, 1359893119, 2600822924,
   528734635, 1541459225⟩

/-- Big-endian byte rendering of a natural, `k` bytes wide. -/
def beBytes : Nat → Nat → List Nat
  | 0, _ => []
  | k + 1, n => beBytes k (n / 256) ++ [n % 256]

/-- SHA-256 padding: a `0x80` byte, zeros to 56 mod 64, the bit length as
eight big-endian bytes. -/
def shaPad (msg : List Nat) : List Nat :=
  let l := msg.length
  msg ++ 0x80 :: List.replicate ((120 - (l + 1) % 64) % 64) 0 ++
    beBytes 8 (l * 8)

/-- Split a byte list into chunks of 64. -/
def chunks64 : Nat → List Nat → List (List Nat)
  | 0, _ => []
  | _ + 1, [] => []
  | fuel + 1, bs => bs.take 64 :: chunks64 fuel (bs.drop 64)

/-- Big-endian 32-bit words from bytes. -/
def bytesToWords : List Nat → List Nat
  | b0 :: b1 :: b2 :: b3 :: rest =>
    (((b0 * 256 + b1) * 256 + b2) * 256 + b3) :: bytesToWords rest
  | _ => []

/-- Extend the 16-word message schedule to 64 words. -/
def extendW : Nat → List Nat → List Nat
  | 0, w => w
  | fuel + 1, w =>
    let n := w.length
    extendW fuel (w ++ [w32 (ssig1 (w.getD (n - 2) 0) + w.getD (n - 7) 0 +
      ssig0 (w.getD (n - 15) 0) + w.getD (n - 16) 0)])

/-- One SHA-256 round. -/
def shaRound (s : Sha8) (kw : Nat × Nat) : Sha8 :=
  let t1 := w32 (s.h + bsig1 s.e + shaCh s.e s.f s.g + kw.1 + kw.2)
  let t2 := w32 (bsig0 s.a + shaMaj s.a s.b s.c)
  ⟨w32 (t1 + t2), s.a, s.b, s.c, w32 (s.d + t1), s.e, s.f, s.g⟩

/-- Compress one 64-byte chunk into the running state. -/
def shaChunk (s : Sha8) (chunk : List Nat) : Sha8 :=
  let w := extendW 48 (bytesToWords chunk)
  let t := (shaK.zip w).foldl shaRound s
  ⟨w32 (s.a + t.a), w32 (s.b + t.b), w32 (s.c + t.c), w32 (s.d + t.d),
   w32 (s.e + t.e), w32 (s.f + t.f), w32 (s.g + t.g), w32 (s.h + t.h)⟩

/-- Lowercase hex rendering of one 32-bit word, eight digits. -/
def wordHex (x : Nat) : Str :=
  [hexDigit (x / 16 ^ 7 % 16), hexDigit (x / 16 ^ 6 % 16),
   hexDigit (x / 16 ^ 5 % 16), hexDigit (x / 16 ^ 4 % 16),
   hexDigit (x / 16 ^ 3 % 16), hexDigit (x / 16 ^ 2 % 16),
   hexDigit (x / 16 % 16), hexDigit (x % 16)]

/-- `sha256_bytes(data)`: lowercase hex digest of the SHA-256 of a byte
string (`rfsn/crypto.py`). -/
def sha256_bytes (msg : List Nat) : Str :=
  let padded := shaPad msg
  let s := (chunks64 (padded.length / 64) padded).foldl shaChunk shaInit
  wordHex s.a ++ wordHex s.b ++ wordHex s.c ++ wordHex s.d ++
    wordHex s.e ++ wordHex s.f ++ wordHex s.g ++ wordHex s.h

/-- `sha256_json(obj) = sha256_bytes(canonical_json(obj))`
(`rfsn/crypto.py`). -/
def sha256_json (v : PyVal) : Str := sha256_bytes (canonical_json v)

/-- Every SHA-256 digest is 64 hex characters. -/
theorem sha256_bytes_length (msg : List Nat) : (sha256_bytes msg).length = 64 := by
  simp [sha256_bytes, wordHex]

/-! ## Append-only ledger (`rfsn/ledger.py`, `rfsn/replay.py`)

A ledger file is one canonical JSON object per line; the model keeps the
parsed form, a list of entries.  `AppendOnlyLedger.append` reads the previous
last line's `entry_hash` (or the 64-zero genesis hash), counts the existing
lines for `idx`, assembles the entry core, and appends core plus
`entry_hash = sha256_json(core)`.  `verify_hash_chain` re-parses each line;
by the canonical round-trip property (section on C6 below) hashing the
re-parsed core equals hashing the original core, so verification is modelled
directly on the structured entries. -/

/-- The genesis hash: 64 zero hex characters. -/
def zeros64 : Str := List.replicate 64 '0'

/-- The ledger entry without its `entry_hash` field (`entry_core` in
`AppendOnlyLedger.append`). -/
structure LCore where
  idx : Nat
  ts_utc : Str
  state_hash : Str
  action_hash : Str
  decision : Str
  prev_entry_hash : Str
  payload : PyVal

/-- A full ledger entry: the core plus its hash, as written to the file. -/
structure LEntry where
  core : LCore
  entry_hash : Str

/-- Placeholder entry used only as the default of positional lookups. -/
def dummyEntry : LEntry :=
  ⟨⟨0, [], [], [], [], [], PyVal.pnone⟩, []⟩

instance : Inhabited LEntry := ⟨dummyEntry⟩

/-- The entry core as the Python dict built in `append` (insertion order as
in the source; `canonical_json` sorts keys anyway). -/
def coreVal (c : LCore) : PyVal :=
  PyVal.pdict
    [(str "idx", PyVal.pint c.idx),
     (str "ts_utc", PyVal.pstr c.ts_utc),
     (str "state_hash", PyVal.pstr c.state_hash),
     (str "action_hash", PyVal.pstr c.action_hash),
     (str "decision", PyVal.pstr c.decision),
     (str "prev_entry_hash", PyVal.pstr c.prev_entry_hash),
     (str "payload", c.payload)]

/-- One call to `append`: the timestamp (read from the clock), the `asdict`
images of the state and the action, the decision string, and the optional
extra payload. -/
structure AppendInput where
  ts : Str
  state : PyVal
  action : PyVal
  decision : Str
  extra : Option (List (Str × PyVal))

/-- The `payload` dict assembled by `append`. -/
def mkPayload (a : AppendInput) : PyVal :=
  PyVal.pdict
    ([(str "state", a.state), (str "action", a.action),
      (str "decision", PyVal.pstr a.decision)] ++
      (match a.extra with
       | none => []
       | some ex => [(str "extra", PyVal.pdict ex)]))

/-- `AppendOnlyLedger.append`: previous hash from the last line (genesis hash
for an empty or absent file), `idx` from the line count, entry hash over the
canonical encoding of the core. -/
def appendLedger (led : List LEntry) (a : AppendInput) : List LEntry :=
  let prev := match led.getLast? with
    | none => zeros64
    | some e => e.entry_hash
  let core : LCore :=
    ⟨led.length, a.ts, sha256_json a.state, sha256_json a.action,
     a.decision, prev, mkPayload a⟩
  led ++ [⟨core, sha256_json (coreVal core)⟩]

/-- A ledger produced by a sequence of `append` calls on an initially empty
or absent file. -/
def buildLedger (as' : List AppendInput) : List LEntry :=
  as'.foldl appendLedger []

/-- Failure message of `verify_hash_chain` for a broken prev link. -/
def brokenChainMsg (i : Nat) : Str :=
  str "Broken chain at line " ++ natToChars i ++ str ": prev mismatch"

/-- Failure message of `verify_hash_chain` for a hash mismatch. -/
def brokenHashMsg (i : Nat) : Str :=
  str "Broken hash at line " ++ natToChars i ++ str ": entry hash mismatch"

/-- The verification loop of `verify_hash_chain`, carrying the expected
previous hash and the current line index. -/
def verifyFrom (prev : Str) (i : Nat) : List LEntry → Bool × Str
  | [] => (true, str "OK")
  | e :: rest =>
    if e.core.prev_entry_hash ≠ prev then (false, brokenChainMsg i)
    else if sha256_json (coreVal e.core) ≠ e.entry_hash then (false, brokenHashMsg i)
    else verifyFrom e.entry_hash (i + 1) rest

/-- `verify_hash_chain(path)` over the parsed entries (`rfsn/replay.py`). -/
def verify_hash_chain (led : List LEntry) : Bool × Str :=
  verifyFrom zeros64 0 led

/-- A correctly hash-chained ledger segment starting from expected previous
hash `prev`. -/
def chainOk : Str → List LEntry → Prop
  | _, [] => True
  | prev, e :: rest =>
    e.core.prev_entry_hash = prev ∧
    sha256_json (coreVal e.core) = e.entry_hash ∧
    chainOk e.entry_hash rest

/-- The hash a correctly chained ledger expects at position `i`: the starting
hash at the head, the stored hash of the predecessor after that. -/
def chainPrevAt (prev : Str) (led : List LEntry) : Nat → Str
  | 0 => prev
  | i + 1 => (led.getD i dummyEntry).entry_hash

theorem chainOk_append (led : List LEntry) (e : LEntry) (prev : Str)
    (hled : chainOk prev led)
    (hprev : e.core.prev_entry_hash =
      (match led.getLast? with | none => prev | some x => x.entry_hash))
    (hhash : sha256_json (coreVal e.core) = e.entry_hash) :
    chainOk prev (led ++ [e]) := by
  induction led generalizing prev with
  | nil => exact ⟨hprev, hhash, trivial⟩
  | cons x xs ih =>
    obtain ⟨h1, h2, h3⟩ := hled
    refine ⟨h1, h2, ih x.entry_hash h3 ?_⟩
    cases xs with
    | nil => simpa using hprev
    | cons y ys => simpa [List.getLast?_cons_cons] using hprev

theorem chainOk_build (as' : List AppendInput) : chainOk zeros64 (buildLedger as') := by
  induction as' using List.reverseRecOn with
  | nil => trivial
  | append_singleton bs b ih =>
    have hfold : buildLedger (bs ++ [b]) = appendLedger (buildLedger bs) b := by
      simp [buildLedger]
    rw [hfold]
    exact chainOk_append _ _ _ ih rfl rfl

theorem verifyFrom_ok (led : List LEntry) (prev : Str) (i : Nat)
    (h : chainOk prev led) : verifyFrom prev i led = (true, str "OK") := by
  induction led generalizing prev i with
  | nil => rfl
  | cons e rest ih =>
    obtain ⟨h1, h2, h3⟩ := h
    simp [verifyFrom, h1, h2, ih _ _ h3]

/-- A correctly chained ledger stays correctly chained after dropping its
last entry. -/
theorem chainOk_dropLast (led : List LEntry) (prev : Str) (h : chainOk prev led) :
    chainOk prev led.dropLast := by
  induction led generalizing prev with
  | nil => trivial
  | cons e rest ih =>
    obtain ⟨h1, h2, h3⟩ := h
    cases rest with
    | nil => trivial
    | cons f fs => exact ⟨h1, h2, ih _ h3⟩

theorem chainOk_get_hash (led : List LEntry) (prev : Str) (h : chainOk prev led) :
    ∀ i (hi : i < led.length),
      sha256_json (coreVal (led.get ⟨i, hi⟩).core) = (led.get ⟨i, hi⟩).entry_hash := by
  induction led generalizing prev with
  | nil => intro i hi; exact absurd hi (by simp)
  | cons e rest ih =>
    obtain ⟨h1, h2, h3⟩ := h
    intro i hi
    cases i with
    | zero => exact h2
    | succ j => exact ih _ h3 j (Nat.lt_of_succ_lt_succ hi)

theorem chainPrevAt_cons (e : LEntry) (rest : List LEntry) (prev : Str) (j : Nat) :
    chainPrevAt prev (e :: rest) (j + 1) = chainPrevAt e.entry_hash rest j := by
  cases j <;> simp [chainPrevAt]

theorem chainOk_get_prev (led : List LEntry) (prev : Str) (h : chainOk prev led) :
    ∀ i (hi : i < led.length),
      (led.get ⟨i, hi⟩).core.prev_entry_hash = chainPrevAt prev led i := by
  induction led generalizing prev with
  | nil => intro i hi; exact absurd hi (by simp)
  | cons e rest ih =>
    obtain ⟨h1, h2, h3⟩ := h
    intro i hi
    cases i with
    | zero => exact h1
    | succ j =>
      have hthis := ih _ h3 j (Nat.lt_of_succ_lt_succ hi)
      rw [chainPrevAt_cons]
      simpa using hthis

/-- Replacing entry `i` of a correctly chained segment: a wrong stored
previous hash is reported as a broken chain at line `k + i`; a stored hash
that no longer matches the recomputed hash of the core is reported as a
broken hash at line `k + i`. -/
theorem verifyFrom_set (led : List LEntry) (prev : Str) (k i : Nat)
    (hi : i < led.length) (e' : LEntry) (h : chainOk prev led) :
    (e'.core.prev_entry_hash ≠ chainPrevAt prev led i →
      verifyFrom prev k (led.set i e') = (false, brokenChainMsg (k + i))) ∧
    (e'.core.prev_entry_hash = chainPrevAt prev led i →
      sha256_json (coreVal e'.core) ≠ e'.entry_hash →
      verifyFrom prev k (led.set i e') = (false, brokenHashMsg (k + i))) := by
  induction led generalizing prev k i with
  | nil => simp at hi
  | cons e rest ih =>
    obtain ⟨h1, h2, h3⟩ := h
    cases i with
    | zero =>
      constructor
      · intro hne
        simp only [List.set]
        simp [verifyFrom, chainPrevAt] at hne ⊢
        exact fun h => absurd h hne
      · intro heq hne
        simp only [List.set]
        simp only [chainPrevAt] at heq
        simp [verifyFrom, heq, hne]
    | succ j =>
      have hj : j < rest.length := Nat.lt_of_succ_lt_succ hi
      have := ih e.entry_hash (k + 1) j hj h3
      rw [chainPrevAt_cons]
      rw [show k + (j + 1) = k + 1 + j by omega]
      constructor
      · intro hne
        have hres := this.1 hne
        simp only [List.set]
        simp [verifyFrom, h1, h2, hres]
      · intro heq hne
        have hres := this.2 heq hne
        simp only [List.set]
        simp [verifyFrom, h1, h2, hres]

/-- Removing entry `i` of a correctly chained segment is reported as a broken
chain at line `k + i` whenever the successor's stored previous hash differs
from the hash expected at position `i`. -/
theorem verifyFrom_erase (led : List LEntry) (prev : Str) (k i : Nat)
    (hi : i + 1 < led.length) (h : chainOk prev led)
    (hne : (led.get ⟨i + 1, hi⟩).core.prev_entry_hash ≠ chainPrevAt prev led i) :
    verifyFrom prev k (led.eraseIdx i) = (false, brokenChainMsg (k + i)) := by
  induction led generalizing prev k i with
  | nil => simp at hi
  | cons e rest ih =>
    obtain ⟨h1, h2, h3⟩ := h
    cases i with
    | zero =>
      cases rest with
      | nil => simp at hi
      | cons f fs =>
        simp only [chainPrevAt] at hne
        have : f.core.prev_entry_hash ≠ prev := by
          simpa using hne
        simp [List.eraseIdx, verifyFrom, this]
    | succ j =>
      have hj : j + 1 < rest.length := Nat.lt_of_succ_lt_succ hi
      have hne2 : (rest.get ⟨j + 1, hj⟩).core.prev_entry_hash ≠
          chainPrevAt e.entry_hash rest j := by
        rw [← chainPrevAt_cons]
        simpa using hne
      have hres := ih e.entry_hash (k + 1) j hj h3 hne2
      rw [show k + (j + 1) = k + 1 + j by omega]
      simp [List.eraseIdx, verifyFrom, h1, h2, hres]

theorem buildLedger_length (as' : List AppendInput) :
    (buildLedger as').length = as'.length := by
  induction as' using List.reverseRecOn with
  | nil => rfl
  | append_singleton bs b ih =>
    have hfold : buildLedger (bs ++ [b]) = appendLedger (buildLedger bs) b := by
      simp [buildLedger]
    simp [hfold, appendLedger, ih]

/-- C1: starting from an empty or absent file, a ledger produced by a
sequence of `append` calls has the 64-zero genesis hash as entry 0's
`prev_entry_hash`; each later entry's `prev_entry_hash` equals its
predecessor's `entry_hash`; every `entry_hash` is the sha256 of the canonical
encoding of the entry without its `entry_hash` field; `verify_hash_chain`
returns OK on it.  Amended tamper clause: replacing entry `i` is reported at
index `i` when the replacement's stored previous hash breaks the chain or its
stored hash no longer matches its recomputed hash; removing entry `i` is
reported at index `i` when the successor's stored previous hash differs from
the hash expected there; but removing the final entry leaves a chain on which
verification still returns OK (tail truncation is not detected). -/
theorem C1_ledger_hash_chain (as' : List AppendInput) :
    (∀ h0 : 0 < (buildLedger as').length,
      ((buildLedger as').get ⟨0, h0⟩).core.prev_entry_hash = zeros64) ∧
    (∀ i (hi : i + 1 < (buildLedger as').length),
      ((buildLedger as').get ⟨i + 1, hi⟩).core.prev_entry_hash =
        ((buildLedger as').get ⟨i, Nat.lt_of_succ_lt hi⟩).entry_hash) ∧
    (∀ i (hi : i < (buildLedger as').length),
      sha256_json (coreVal ((buildLedger as').get ⟨i, hi⟩).core) =
        ((buildLedger as').get ⟨i, hi⟩).entry_hash) ∧
    verify_hash_chain (buildLedger as') = (true, str "OK") ∧
    (∀ i, i < (buildLedger as').length → ∀ e' : LEntry,
      e'.core.prev_entry_hash ≠ chainPrevAt zeros64 (buildLedger as') i →
      verify_hash_chain ((buildLedger as').set i e') = (false, brokenChainMsg i)) ∧
    (∀ i, i < (buildLedger as').length → ∀ e' : LEntry,
      e'.core.prev_entry_hash = chainPrevAt zeros64 (buildLedger as') i →
      sha256_json (coreVal e'.core) ≠ e'.entry_hash →
      verify_hash_chain ((buildLedger as').set i e') = (false, brokenHashMsg i)) ∧
    (∀ i (hi : i + 1 < (buildLedger as').length),
      ((buildLedger as').get ⟨i + 1, hi⟩).core.prev_entry_hash ≠
        chainPrevAt zeros64 (buildLedger as') i →
      verify_hash_chain ((buildLedger as').eraseIdx i) = (false, brokenChainMsg i)) ∧
    verify_hash_chain (buildLedger as').dropLast = (true, str "OK") := by
  have hchain := chainOk_build as'
  refine ⟨?_, ?_, ?_, ?_, ?_, ?_, ?_, ?_⟩
  · intro h0
    have := chainOk_get_prev _ _ hchain 0 h0
    simpa [chainPrevAt] using this
  · intro i hi
    have hp := chainOk_get_prev _ _ hchain (i + 1) hi
    rw [hp]
    simp only [chainPrevAt]
    rw [List.getD_eq_getElem _ dummyEntry (Nat.lt_of_succ_lt hi)]
    simp
  · exact chainOk_get_hash _ _ hchain
  · exact verifyFrom_ok _ _ _ hchain
  · intro i hi e' hne
    simpa [verify_hash_chain] using (verifyFrom_set _ _ 0 i hi e' hchain).1 hne
  · intro i hi e' heq hne
    simpa [verify_hash_chain] using (verifyFrom_set _ _ 0 i hi e' hchain).2 heq hne
  · intro i hi hne
    simpa [verify_hash_chain] using verifyFrom_erase _ _ 0 i hi hchain hne
  · exact verifyFrom_ok _ _ _ (chainOk_dropLast _ _ hchain)

/-- First concrete append of the C1 instance. -/
def cexAppend1 : AppendInput :=
  ⟨str "t1", PyVal.pdict [], PyVal.pdict [], str "allow", none⟩

/-- Second concrete append of the C1 instance. -/
def cexAppend2 : AppendInput :=
  ⟨str "t2", PyVal.pdict [], PyVal.pdict [], str "deny", none⟩

/-- C1 counterexample: a two-entry ledger built by two appends from which the
last entry is removed still verifies OK — removing that entry does not make
verification report a broken index, contrary to the claim. -/
theorem C1_counterexample :
    (buildLedger [cexAppend1, cexAppend2]).length = 2 ∧
    verify_hash_chain ((buildLedger [cexAppend1, cexAppend2]).dropLast) =
      (true, str "OK") := by
  refine ⟨by simp [buildLedger_length], ?_⟩
  exact verifyFrom_ok _ _ _
    (chainOk_dropLast _ _ (chainOk_build [cexAppend1, cexAppend2]))

/-- A replacement entry whose stored previous hash breaks the chain. -/
def cexBadPrev : LEntry := ⟨⟨0, [], [], [], [], str "X", PyVal.pnone⟩, []⟩

/-- A replacement entry with intact previous hash but a stored entry hash
that cannot match the recomputed hash. -/
def cexBadHash : LEntry := ⟨⟨0, [], [], [], [], zeros64, PyVal.pnone⟩, []⟩

/-- C1 witness: the chain invariants, successful verification, and the tamper
clauses instantiated on a concrete two-append ledger. -/
theorem C1_ledger_hash_chain_witness :
    (0 < (buildLedger [cexAppend1, cexAppend2]).length ∧
      ((buildLedger [cexAppend1, cexAppend2]).get
        ⟨0, by simp [buildLedger_length]⟩).core.prev_entry_hash = zeros64) ∧
    verify_hash_chain (buildLedger [cexAppend1, cexAppend2]) = (true, str "OK") ∧
    (cexBadPrev.core.prev_entry_hash ≠
        chainPrevAt zeros64 (buildLedger [cexAppend1, cexAppend2]) 0 ∧
      verify_hash_chain ((buildLedger [cexAppend1, cexAppend2]).set 0 cexBadPrev) =
        (false, brokenChainMsg 0)) ∧
    (sha256_json (coreVal cexBadHash.core) ≠ cexBadHash.entry_hash ∧
      verify_hash_chain ((buildLedger [cexAppend1, cexAppend2]).set 0 cexBadHash) =
        (false, brokenHashMsg 0)) ∧
    (((buildLedger [cexAppend1, cexAppend2]).get
          ⟨1, by simp [buildLedger_length]⟩).core.prev_entry_hash ≠
        chainPrevAt zeros64 (buildLedger [cexAppend1, cexAppend2]) 0 ∧
      verify_hash_chain ((buildLedger [cexAppend1, cexAppend2]).eraseIdx 0) =
        (false, brokenChainMsg 0)) := by
  have h := C1_ledger_hash_chain [cexAppend1, cexAppend2]
  obtain ⟨hgen, hlink, hhash, hok, hsetp, hseth, herase, hdrop⟩ := h
  have hlen : 0 < (buildLedger [cexAppend1, cexAppend2]).length := by
    simp [buildLedger_length]
  have hshne : sha256_json (coreVal cexBadHash.core) ≠ cexBadHash.entry_hash := by
    intro hcontra
    have hl := sha256_bytes_length (canonical_json (coreVal cexBadHash.core))
    rw [show sha256_json (coreVal cexBadHash.core) =
      sha256_bytes (canonical_json (coreVal cexBadHash.core)) from rfl] at hcontra
    rw [hcontra] at hl
    simp [cexBadHash] at hl
  have hprevne : cexBadPrev.core.prev_entry_hash ≠
      chainPrevAt zeros64 (buildLedger [cexAppend1, cexAppend2]) 0 := by decide
  have hent1 : ((buildLedger [cexAppend1, cexAppend2]).get
      ⟨1, by simp [buildLedger_length]⟩).core.prev_entry_hash ≠
      chainPrevAt zeros64 (buildLedger [cexAppend1, cexAppend2]) 0 := by decide
  exact ⟨⟨hlen, hgen hlen⟩, hok, ⟨hprevne, hsetp 0 hlen _ hprevne⟩,
    ⟨hshne, hseth 0 hlen _ (by decide) hshne⟩,
    ⟨hent1, herase 0 (by simp [buildLedger_length]) hent1⟩⟩

/-! ## Python dicts of counters and arguments

Association lists with Python dict semantics: lookup finds the unique
binding, assignment updates in place or appends, insertion order is
preserved. -/

/-- `d.get(k, default)` for an integer-valued dict. -/
def lookupD : List (Str × Int) → Str → Int → Int
  | [], _, d => d
  | (k0, v0) :: rest, k, d => if k0 = k then v0 else lookupD rest k d

/-- `d[k] = v`: update in place, else append (Python dict assignment). -/
def dictSet : List (Str × Int) → Str → Int → List (Str × Int)
  | [], k, v => [(k, v)]
  | (k0, v0) :: rest, k, v =>
    if k0 = k then (k, v) :: rest else (k0, v0) :: dictSet rest k v

theorem lookupD_dictSet_self (d : List (Str × Int)) (k : Str) (v : Int) :
    lookupD (dictSet d k v) k 0 = v := by
  induction d with
  | nil => simp [dictSet, lookupD]
  | cons p rest ih =>
    by_cases h : p.1 = k
    · simp [dictSet, h, lookupD]
    · simp [dictSet, h, lookupD, ih]

/-! ## Per-turn budgets (`controller/budget_enforcer.py`) -/

/-- `Budget` from `controller/tool_registry.py`. -/
structure Budget where
  calls_per_turn : Int
  max_bytes : Option Int := none
  max_results : Option Int := none
deriving DecidableEq

/-- `TurnBudgetState`: per-tool call and byte counters for the current
turn. -/
structure TurnBudgetState where
  calls : List (Str × Int)
  bytes : List (Str × Int)
deriving DecidableEq

/-- The fresh state installed by `BudgetEnforcer.__init__` and
`reset_turn`. -/
def freshTurn : TurnBudgetState := ⟨[], []⟩

/-- `BudgetEnforcer.check_and_charge(tool, budget, estimated_bytes)`:
returns `(ok, error_message)` and the successor counter state. -/
def check_and_charge (st : TurnBudgetState) (tool : Str) (budget : Budget)
    (estimated_bytes : Int) : (Bool × Str) × TurnBudgetState :=
  let c := lookupD st.calls tool 0 + 1
  if c > budget.calls_per_turn then
    ((false, str "budget exceeded: calls_per_turn " ++ intToChars c ++
      str "/" ++ intToChars budget.calls_per_turn), st)
  else
    let st1 : TurnBudgetState := ⟨dictSet st.calls tool c, st.bytes⟩
    match budget.max_bytes with
    | none => ((true, []), st1)
    | some mb =>
      let b := lookupD st1.bytes tool 0 + max 0 estimated_bytes
      if b > mb then
        ((false, str "budget exceeded: max_bytes " ++ intToChars b ++
          str "/" ++ intToChars mb), st1)
      else ((true, []), ⟨st1.calls, dictSet st1.bytes tool b⟩)

/-- C3 (amended): `check_and_charge` charges and succeeds, or rejects; a
rejection for `calls_per_turn` leaves the state untouched, but a rejection
for `max_bytes` has already incremented the calls counter — only the bytes
counter is left unchanged, so the operation is not atomic. -/
theorem C3_check_and_charge (st : TurnBudgetState) (tool : Str)
    (budget : Budget) (est : Int) :
    (lookupD st.calls tool 0 + 1 > budget.calls_per_turn →
      check_and_charge st tool budget est =
        ((false, str "budget exceeded: calls_per_turn " ++
          intToChars (lookupD st.calls tool 0 + 1) ++ str "/" ++
          intToChars budget.calls_per_turn), st)) ∧
    (¬ lookupD st.calls tool 0 + 1 > budget.calls_per_turn →
      lookupD (check_and_charge st tool budget est).2.calls tool 0 =
        lookupD st.calls tool 0 + 1) ∧
    (¬ lookupD st.calls tool 0 + 1 > budget.calls_per_turn →
      ∀ mb, budget.max_bytes = some mb →
      lookupD st.bytes tool 0 + max 0 est > mb →
      (check_and_charge st tool budget est).1 =
        (false, str "budget exceeded: max_bytes " ++
          intToChars (lookupD st.bytes tool 0 + max 0 est) ++ str "/" ++
          intToChars mb) ∧
      (check_and_charge st tool budget est).2.bytes = st.bytes) ∧
    ((check_and_charge st tool budget est).1.1 = true →
      (check_and_charge st tool budget est).1.2 = []) := by
  refine ⟨?_, ?_, ?_, ?_⟩
  · intro h
    simp [check_and_charge, h]
  · intro h
    cases hmb : budget.max_bytes with
    | none => simp [check_and_charge, h, hmb, lookupD_dictSet_self]
    | some mb =>
      by_cases hb : lookupD st.bytes tool 0 + max 0 est > mb
      · simp [check_and_charge, h, hmb, hb, lookupD_dictSet_self]
      · simp [check_and_charge, h, hmb, hb, lookupD_dictSet_self]
  · intro h mb hmb hb
    simp [check_and_charge, h, hmb, hb]
  · intro h
    by_cases hc : lookupD st.calls tool 0 + 1 > budget.calls_per_turn
    · simp [check_and_charge, hc] at h
    · cases hmb : budget.max_bytes with
      | none => simp [check_and_charge, hc, hmb]
      | some mb =>
        by_cases hb : lookupD st.bytes tool 0 + max 0 est > mb
        · simp [check_and_charge, hc, hmb, hb] at h
        · simp [check_and_charge, hc, hmb, hb]

/-- C3 witness: the three branches of `check_and_charge` on concrete
inputs. -/
theorem C3_check_and_charge_witness :
    (check_and_charge freshTurn (str "t") ⟨0, none, none⟩ 0).1.1 = false ∧
    lookupD (check_and_charge freshTurn (str "t") ⟨5, some 10, none⟩ 20).2.calls
      (str "t") 0 = 1 ∧
    (check_and_charge freshTurn (str "t") ⟨5, some 10, none⟩ 20).1 =
      (false, str "budget exceeded: max_bytes 20/10") ∧
    (check_and_charge freshTurn (str "t") ⟨5, some 10, none⟩ 20).2.bytes = [] ∧
    (check_and_charge freshTurn (str "t") ⟨5, some 10, none⟩ 5).1.2 = [] := by
  have h1 := (C3_check_and_charge freshTurn (str "t") ⟨0, none, none⟩ 0).1
    (by decide)
  have h2 := (C3_check_and_charge freshTurn (str "t") ⟨5, some 10, none⟩ 20).2.1
    (by decide)
  have h3 := ((C3_check_and_charge freshTurn (str "t") ⟨5, some 10, none⟩ 20).2.2.1
    (by decide)) 10 rfl (by decide)
  have h4 := (C3_check_and_charge freshTurn (str "t") ⟨5, some 10, none⟩ 5).2.2.2
    (by decide)
  exact ⟨by rw [h1], by rw [h2]; decide, by rw [h3.1]; decide,
    by rw [h3.2]; rfl, h4⟩

/-- C3 counterexample: a byte-budget rejection returns `(False, reason)` but
the calls counter for the tool has been incremented from 0 to 1, so the
usage state is not what it was before the call. -/
theorem C3_counterexample :
    (check_and_charge freshTurn (str "t") ⟨5, some 10, none⟩ 20).1.1 = false ∧
    lookupD (check_and_charge freshTurn (str "t") ⟨5, some 10, none⟩ 20).2.calls
      (str "t") 0 = 1 ∧
    lookupD freshTurn.calls (str "t") 0 = 0 := by decide

/-! ## Capability registry (`controller/tool_registry.py`) -/

/-- A schema field: name, required flag, kind. -/
structure SField where
  name : Str
  required : Bool
  kind : Str
deriving DecidableEq

/-- `PermissionRule` flags. -/
structure PermissionRule where
  restrict_paths_to_workdir : Bool := false
  require_explicit_grant : Bool := false
  deny_in_replay : Bool := false
  mutates : Bool := false
deriving DecidableEq

/-- `ToolSpec` without the handler: the handler is supplied to the router as
an oracle, so that handler non-invocation can be stated as independence from
it. -/
structure ToolSpec where
  name : Str
  schema : List SField
  risk : Str
  budget : Budget
  permission : PermissionRule
deriving DecidableEq

/-- `_is_kind(v, kind)`.  Note `isinstance(True, int)` holds in Python — a
bool passes the `int` kind — while `isinstance(5, bool)` does not. -/
def isKind (v : PyVal) (kind : Str) : Bool :=
  if kind = str "any" then true
  else if kind = str "str" then
    match v with | PyVal.pstr _ => true | _ => false
  else if kind = str "int" then
    match v with | PyVal.pint _ => true | PyVal.pbool _ => true | _ => false
  else if kind = str "bool" then
    match v with | PyVal.pbool _ => true | _ => false
  else if kind = str "dict" then
    match v with | PyVal.pdict _ => true | _ => false
  else if kind = str "list" then
    match v with | PyVal.plist _ => true | _ => false
  else false

/-- Tool-call arguments: a Python dict of argument name to value. -/
abbrev Args := List (Str × PyVal)

/-- Key membership in an argument dict. -/
def keyMem (args : Args) (k : Str) : Bool := args.any (fun p => p.1 = k)

/-- `args.get(k)` as an option. -/
def lookupV : Args → Str → Option PyVal
  | [], _ => none
  | (k0, v0) :: rest, k => if k0 = k then some v0 else lookupV rest k

/-- `args.get(k, default)`. -/
def lookupVD (args : Args) (k : Str) (d : PyVal) : PyVal :=
  (lookupV args k).getD d

/-- Python dict assignment on argument dicts. -/
def dictSetV : Args → Str → PyVal → Args
  | [], k, v => [(k, v)]
  | (k0, v0) :: rest, k, v =>
    if k0 = k then (k, v) :: rest else (k0, v0) :: dictSetV rest k v

/-- The single-quote character, for Python `repr` of strings. -/
def sq : Char := Char.ofNat 39

/-- Python `repr` of a string (as it appears in f-string renderings of
lists); the strings involved never contain quotes or escapes. -/
def quoted (s : Str) : Str := sq :: s ++ [sq]

/-- Python `str` of a list of strings: `['a', 'b']`. -/
def pyListRepr (xs : List Str) : Str :=
  '[' :: (List.intercalate (str ", ") (xs.map quoted)) ++ [']']

/-- First required schema field missing from the arguments
(`validate_arguments`, first loop). -/
def findMissing : List SField → Args → Option Str
  | [], _ => none
  | f :: fs, args =>
    if f.required ∧ ¬ keyMem args f.name then some f.name
    else findMissing fs args

/-- First schema field present with the wrong kind (`validate_arguments`,
second loop). -/
def findWrongType : List SField → Args → Option SField
  | [], _ => none
  | f :: fs, args =>
    if keyMem args f.name ∧ ¬ isKind (lookupVD args f.name PyVal.pnone) f.kind
    then some f
    else findWrongType fs args

/-- Argument keys not declared in the schema, in argument order
(`validate_arguments`, third check). -/
def extraKeys (args : Args) (schema : List SField) : List Str :=
  (args.map Prod.fst).filter (fun k => ¬ (schema.any (fun f => f.name = k)))

/-- `validate_arguments(spec, args)`: missing required fields, then wrong
kinds, then unexpected fields. -/
def validate_arguments (spec : ToolSpec) (args : Args) : Bool × Str :=
  match findMissing spec.schema args with
  | some n => (false, str "missing required arg " ++ quoted n)
  | none =>
  match findWrongType spec.schema args with
  | some f =>
    (false, str "arg " ++ quoted f.name ++ str " wrong type (expected " ++
      f.kind ++ str ")")
  | none =>
  match extraKeys args spec.schema with
  | [] => (true, [])
  | es => (false, str "unexpected args: " ++ pyListRepr es)

/-- The registry dict of `build_tool_registry(
)`, in insertion order; the
host-exec tools are appended only when `ALLOW_HOST_EXEC` (dev mode). -/
def build_tool_registry (allowHostExec : Bool) : List (Str × ToolSpec) :=
  [(str "read_file",
    ⟨str "read_file",
     [⟨str "path", true, str "str"⟩, ⟨str "max_bytes", false, str "int"⟩],
     str "low", ⟨20, some 200000, none⟩, ⟨true, false, false, false⟩⟩),
   (str "write_file",
    ⟨str "write_file",
     [⟨str "path", true, str "str"⟩, ⟨str "content", true, str "str"⟩,
      ⟨str "max_bytes", false, str "int"⟩],
     str "high", ⟨10, some 200000, none⟩, ⟨true, true, true, true⟩⟩),
   (str "list_dir",
    ⟨str "list_dir",
     [⟨str "path", true, str "str"⟩, ⟨str "max_items", false, str "int"⟩],
     str "low", ⟨20, none, some 2000⟩, ⟨true, false, false, false⟩⟩),
   (str "search_files",
    ⟨str "search_files",
     [⟨str "directory", true, str "str"⟩, ⟨str "pattern", true, str "str"⟩,
      ⟨str "max_results", false, str "int"⟩],
     str "low", ⟨10, none, some 500⟩, ⟨true, false, false, false⟩⟩),
   (str "memory_store",
    ⟨str "memory_store",
     [⟨str "key", true, str "str"⟩, ⟨str "value", true, str "str"⟩,
      ⟨str "tags", false, str "list"⟩, ⟨str "db_path", false, str "str"⟩],
     str "medium", ⟨30, none, none⟩, ⟨false, false, false, true⟩⟩),
   (str "memory_retrieve",
    ⟨str "memory_retrieve",
     [⟨str "key", true, str "str"⟩, ⟨str "db_path", false, str "str"⟩],
     str "low", ⟨40, none, none⟩, ⟨false, false, false, false⟩⟩),
   (str "memory_search",
    ⟨str "memory_search",
     [⟨str "query", true, str "str"⟩, ⟨str "max_results", false, str "int"⟩,
      ⟨str "db_path", false, str "str"⟩],
     str "low", ⟨40, none, some 50⟩, ⟨false, false, false, false⟩⟩),
   (str "memory_delete",
    ⟨str "memory_delete",
     [⟨str "key", true, str "str"⟩, ⟨str "db_path", false, str "str"⟩],
     str "high", ⟨10, none, none⟩, ⟨false, true, true, true⟩⟩),
   (str "fetch_url",
    ⟨str "fetch_url",
     [⟨str "url", true, str "str"⟩, ⟨str "max_bytes", false, str "int"⟩,
      ⟨str "timeout", false, str "int"⟩],
     str "medium", ⟨10, some 200000, none⟩, ⟨false, false, false, false⟩⟩),
   (str "search_web",
    ⟨str "search_web",
     [⟨str "query", true, str "str"⟩, ⟨str "max_results", false, str "int"⟩],
     str "low", ⟨10, none, some 10⟩, ⟨false, false, false, false⟩⟩),
   (str "sandbox_exec",
    ⟨str "sandbox_exec",
     [⟨str "command", true, str "str"⟩, ⟨str "workdir", false, str "str"⟩,
      ⟨str "timeout_seconds", false, str "int"⟩, ⟨str "image", false, str "str"⟩,
      ⟨str "memory_limit", false, str "str"⟩, ⟨str "cpu_limit", false, str "int"⟩,
      ⟨str "network_disabled", false, str "bool"⟩, ⟨str "env", false, str "dict"⟩,
      ⟨str "max_output", false, str "int"⟩],
     str "high", ⟨8, some 200000, none⟩, ⟨true, true, true, true⟩⟩),
   (str "grep_files",
    ⟨str "grep_files",
     [⟨str "pattern", true, str "str"⟩, ⟨str "directory", true, str "str"⟩,
      ⟨str "file_pattern", false, str "str"⟩, ⟨str "max_results", false, str "int"⟩,
      ⟨str "context_lines", false, str "int"⟩],
     str "low", ⟨20, none, some 100⟩, ⟨true, false, false, false⟩⟩),
   (str "apply_diff",
    ⟨str "apply_diff",
     [⟨str "file_path", true, str "str"⟩, ⟨str "diff", true, str "str"⟩,
      ⟨str "dry_run", false, str "bool"⟩],
     str "high", ⟨10, none, none⟩, ⟨true, true, true, true⟩⟩),
   (str "get_symbols",
    ⟨str "get_symbols",
     [⟨str "file_path", true, str "str"⟩, ⟨str "max_symbols", false, str "int"⟩],
     str "low", ⟨20, none, some 100⟩, ⟨true, false, false, false⟩⟩),
   (str "think",
    ⟨str "think",
     [⟨str "thought", true, str "str"⟩, ⟨str "category", false, str "str"⟩],
     str "low", ⟨50, none, none⟩, ⟨false, false, false, false⟩⟩),
   (str "plan",
    ⟨str "plan",
     [⟨str "goal", true, str "str"⟩, ⟨str "steps", true, str "list"⟩,
      ⟨str "current_step", false, str "int"⟩],
     str "low", ⟨10, none, none⟩, ⟨false, false, false, false⟩⟩),
   (str "ask_user",
    ⟨str "ask_user",
     [⟨str "question", true, str "str"⟩, ⟨str "options", false, str "list"⟩,
      ⟨str "context", false, str "str"⟩],
     str "low", ⟨5, none, none⟩, ⟨false, false, false, false⟩⟩)] ++
  (if allowHostExec then
    [(str "run_command",
      ⟨str "run_command",
       [⟨str "command", true, str "str"⟩, ⟨str "cwd", false, str "str"⟩,
        ⟨str "timeout", false, str "int"⟩, ⟨str "max_output", false, str "int"⟩],
       str "high", ⟨12, some 100000, none⟩, ⟨true, true, true, true⟩⟩),
     (str "run_python",
      ⟨str "run_python",
       [⟨str "code", true, str "str"⟩, ⟨str "cwd", false, str "str"⟩,
        ⟨str "timeout", false, str "int"⟩, ⟨str "max_output", false, str "int"⟩],
       str "high", ⟨6, some 100000, none⟩, ⟨true, true, true, true⟩⟩)]
  else [])

/-- Registry lookup (`TOOL_REGISTRY[tool_name]`). -/
def regLookup : List (Str × ToolSpec) → Str → Option ToolSpec
  | [], _ => none
  | (k0, s0) :: rest, k => if k0 = k then some s0 else regLookup rest k

/-! ## Path scoping (`enforce_path_scope`)

`Path(workdir).resolve()` and `Path(path).expanduser().resolve()` resolve
relative paths against the ambient process working directory and expand `~`
against the ambient home directory; both are carried in `PathEnv`.  The model
is the lexical resolution of `pathlib` (symbolic links are taken to be
absent; `~user` expansion is not used by the repository). -/

/-- Ambient process state consulted by `pathlib`. -/
structure PathEnv where
  cwd : List Str
  home : Str

/-- Split a path string at slashes. -/
def splitSlash (p : Str) : List Str :=
  List.splitOn '/' p

/-- Apply path components to a base: empty and `.` are skipped, `..` pops,
anything else descends. -/
def resolveComps (base : List Str) : List Str → List Str
  | [] => base
  | c :: cs =>
    if c = [] ∨ c = str "." then resolveComps base cs
    else if c = str ".." then resolveComps base.dropLast cs
    else resolveComps (base ++ [c]) cs

/-- `os.path.expanduser` on `~` and `~/...` prefixes. -/
def expanduser (home : Str) (p : Str) : Str :=
  match p with
  | '~' :: rest =>
    match rest with
    | [] => home
    | '/' :: _ => home ++ rest
    | _ => p
  | _ => p

/-- `Path(p).resolve()` as absolute components. -/
def resolvePath (env : PathEnv) (p : Str) : List Str :=
  match p with
  | '/' :: _ => resolveComps [] (splitSlash p)
  | _ => resolveComps env.cwd (splitSlash p)

/-- `str(Path)` for an absolute component list. -/
def renderPath : List Str → Str
  | [] => ['/']
  | cs => cs.flatMap (fun c => '/' :: c)

/-- `enforce_path_scope(workdir=..., path=...)`: resolve both, test
`p.is_relative_to(wd)` (component-prefix containment, so the working
directory itself passes). -/
def enforce_path_scope (env : PathEnv) (workdir path : Str) : Bool × Str :=
  let wd := resolvePath env workdir
  let p := resolvePath env (expanduser env.home path)
  if wd.isPrefixOf p then (true, [])
  else
    (false, str "path escapes working_directory: " ++ renderPath p ++
      str " (wd=" ++ renderPath wd ++ str ")")

/-! ## Tool router (`controller/tool_router.py`) -/

/-- The normalized result of a tool call. -/
structure ToolResult where
  success : Bool
  output : Option PyVal
  error : Option Str

/-- `ExecutionContext`: session identity, working directory, per-turn budget
state, granted permissions, replay mode. -/
structure ExecutionContext where
  session_id : Str
  user_id : Str
  working_directory : Str
  memory_db_path : Str
  budgets : TurnBudgetState
  permissions : List Str
  replay_mode : Str
deriving DecidableEq

/-- Python truthiness, for `arguments.get("command") or ...`. -/
def pyTruthy : PyVal → Bool
  | PyVal.pnone => false
  | PyVal.pbool b => b
  | PyVal.pint n => n ≠ 0
  | PyVal.pstr s => ¬ s.isEmpty
  | PyVal.plist xs => ¬ xs.isEmpty
  | PyVal.ptuple xs => ¬ xs.isEmpty
  | PyVal.pdict kvs => ¬ kvs.isEmpty
  | PyVal.pset es => ¬ es.isEmpty
  | PyVal.pfrozenset es => ¬ es.isEmpty

/-- Python `str()` of an argument value.  The router only applies it to
values that schema validation has already constrained to strings (or to
string defaults), so the container branches — rendered canonically here —
are unreachable in validated calls. -/
def pyStrOf : PyVal → Str
  | PyVal.pstr s => s
  | PyVal.pnone => str "None"
  | PyVal.pbool true => str "True"
  | PyVal.pbool false => str "False"
  | PyVal.pint n => intToChars n
  | v => canonicalChars v

/-- `int(v)` for values that passed an `isinstance(v, int)` check: plain
integers stay, booleans collapse to 0 or 1. -/
def pyIntOf : PyVal → Int
  | PyVal.pint n => n
  | PyVal.pbool true => 1
  | PyVal.pbool false => 0
  | _ => 0

/-- Is the value an `int` in Python's sense (`isinstance(v, int)`)? -/
def isPyInt : PyVal → Bool
  | PyVal.pint _ => true
  | PyVal.pbool _ => true
  | _ => false

/-- `_estimate_bytes(tool, arguments)`. -/
def estimateBytes (tool : Str) (args : Args) : Int :=
  if tool = str "read_file" ∨ tool = str "fetch_url" then
    match lookupV args (str "max_bytes") with
    | some v => if isPyInt v then pyIntOf v else 0
    | none => 0
  else if tool = str "write_file" then
    match lookupV args (str "content") with
    | some (PyVal.pstr s) => (utf8 s).length
    | _ => 0
  else if tool = str "run_command" ∨ tool = str "run_python" then
    match lookupV args (str "max_output") with
    | some v => if isPyInt v then pyIntOf v else 0
    | none => 0
  else 0

/-- The argument dict of the sandbox rewrite in `route_tool_call`:
`{"command": arguments.get("command") or arguments.get("code", ""),
"cwd": arguments.get("cwd", context.working_directory),
"timeout": arguments.get("timeout", 60)}`. -/
def sandboxRewriteArgs (args : Args) (ctx : ExecutionContext) : Args :=
  [(str "command",
    match lookupV args (str "command") with
    | some v => if pyTruthy v then v else lookupVD args (str "code") (PyVal.pstr [])
    | none => lookupVD args (str "code") (PyVal.pstr [])),
   (str "cwd", lookupVD args (str "cwd") (PyVal.pstr ctx.working_directory)),
   (str "timeout", lookupVD args (str "timeout") (PyVal.pint 60))]

/-- Does the router's path-scope block check this tool, and over which
argument?  Mirrors the three tool families of step 4 of `route_tool_call`. -/
def relevantPathArg (tool : Str) (args : Args) (ctx : ExecutionContext) :
    Option Str :=
  if tool = str "read_file" ∨ tool = str "write_file" ∨ tool = str "list_dir" ∨
      tool = str "get_symbols" ∨ tool = str "apply_diff" then
    some (pyStrOf (lookupVD args (str "path")
      (lookupVD args (str "file_path") (PyVal.pstr []))))
  else if tool = str "search_files" ∨ tool = str "grep_files" then
    some (pyStrOf (lookupVD args (str "directory") (PyVal.pstr [])))
  else if tool = str "run_command" ∨ tool = str "run_python" then
    some (pyStrOf (lookupVD args (str "cwd") (PyVal.pstr ctx.working_directory)))
  else none

/-- A handler oracle: the normalized outcome of invoking a tool's handler
with the prepared keyword arguments.  Logging and timing are unmodelled. -/
abbrev Handler := Str → Args → ToolResult

/-- One pass of `route_tool_call(tool_name, arguments, context)` over a
registry and a handler oracle, the sandbox-fallback recursion abstracted into
the continuation `recurse`. -/
def routeStep (reg : List (Str × ToolSpec)) (H : Handler) (env : PathEnv)
    (recurse : Str → Args → ExecutionContext → ToolResult × ExecutionContext)
    (tool : Str) (args : Args) (ctx : ExecutionContext) :
    ToolResult × ExecutionContext :=
  match regLookup reg tool with
  | none =>
    (⟨false, none, some (str "Unknown tool: " ++ tool ++ str ". Available: " ++
      pyListRepr (sortStrs (reg.map Prod.fst)))⟩, ctx)
  | some spec =>
    match validate_arguments spec args with
    | (false, err) =>
      (⟨false, none, some (str "Invalid arguments for " ++ tool ++
        str ": " ++ err)⟩, ctx)
    | (true, _) =>
    if spec.permission.require_explicit_grant ∧
        ¬ ctx.permissions.contains tool then
      if (tool = str "run_command" ∨ tool = str "run_python") ∧
          (regLookup reg (str "sandbox_exec")).isSome then
        recurse (str "sandbox_exec") (sandboxRewriteArgs args ctx) ctx
      else
        (⟨false, none, some (str "Permission required for tool: " ++ tool)⟩,
          ctx)
    else if ctx.replay_mode = str "replay" ∧ spec.permission.deny_in_replay then
      (⟨false, none, some (str "Tool denied in replay mode: " ++ tool)⟩, ctx)
    else
      match
        (if spec.permission.restrict_paths_to_workdir then
          match relevantPathArg tool args ctx with
          | some p => enforce_path_scope env ctx.working_directory p
          | none => (true, [])
        else (true, [])) with
      | (false, err2) => (⟨false, none, some err2⟩, ctx)
      | (true, _) =>
      match check_and_charge ctx.budgets tool spec.budget
        (estimateBytes tool args) with
      | ((false, err3), budgets1) =>
        (⟨false, none, some (str "Budget denied for " ++ tool ++ str ": " ++
          err3)⟩, { ctx with budgets := budgets1 })
      | ((true, _), budgets1) =>
        let ctx1 : ExecutionContext := { ctx with budgets := budgets1 }
        let callArgs1 :=
          if (str "memory_").isPrefixOf tool ∧ ¬ keyMem args (str "db_path")
          then args ++ [(str "db_path", PyVal.pstr ctx.memory_db_path)]
          else args
        let callArgs2 :=
          if tool = str "run_command" ∨ tool = str "run_python" then
            dictSetV callArgs1 (str "cwd") (PyVal.pstr ctx.working_directory)
          else callArgs1
        (H tool callArgs2, ctx1)

/-- `route_tool_call` with a fuel bound on the sandbox-fallback recursion.
The source recurses at most once, because `sandbox_exec` is not itself a
host-exec tool, so fuel 1 below is exact and the fuel-0 continuation is
unreachable. -/
def routeAux (reg : List (Str × ToolSpec)) (H : Handler) (env : PathEnv) :
    Nat → Str → Args → ExecutionContext → ToolResult × ExecutionContext
  | 0 => routeStep reg H env (fun t _ c =>
      (⟨false, none, some (str "Permission required for tool: " ++ t)⟩, c))
  | fuel + 1 => routeStep reg H env (routeAux reg H env fuel)

/-- `route_tool_call` at the source's recursion budget. -/
def route_tool_call (reg : List (Str × ToolSpec)) (H : Handler) (env : PathEnv)
    (tool : Str) (args : Args) (ctx : ExecutionContext) :
    ToolResult × ExecutionContext :=
  routeAux reg H env 1 tool args ctx

/-- C2 (amended): a call that is dispatched under a path-restricted
capability and reaches the path-scope stage either has its relevant path
argument resolve under (or equal to) the resolved working directory, or is
refused with the error message `path escapes working_directory: <p>
(wd=<wd>)` — not with a `deny:path_escape` code — identically for every
handler, with the execution context unchanged. -/
theorem C2_router_path_scope (reg : List (Str × ToolSpec)) (env : PathEnv)
    (tool : Str) (args : Args) (ctx : ExecutionContext) (spec : ToolSpec)
    (p : Str)
    (hspec : regLookup reg tool = some spec)
    (hrestrict : spec.permission.restrict_paths_to_workdir = true)
    (hval : validate_arguments spec args = (true, []))
    (hperm : ¬ (spec.permission.require_explicit_grant = true ∧
      ¬ ctx.permissions.contains tool = true))
    (hreplay : ¬ (ctx.replay_mode = str "replay" ∧
      spec.permission.deny_in_replay = true))
    (hrel : relevantPathArg tool args ctx = some p) :
    ((resolvePath env ctx.working_directory).isPrefixOf
        (resolvePath env (expanduser env.home p)) = true →
      enforce_path_scope env ctx.working_directory p = (true, [])) ∧
    (¬ (resolvePath env ctx.working_directory).isPrefixOf
        (resolvePath env (expanduser env.home p)) = true →
      ∀ H : Handler,
        route_tool_call reg H env tool args ctx =
          (⟨false, none, some (str "path escapes working_directory: " ++
            renderPath (resolvePath env (expanduser env.home p)) ++
            str " (wd=" ++
            renderPath (resolvePath env ctx.working_directory) ++ str ")")⟩,
           ctx)) := by
  constructor
  · intro hpre
    simp [enforce_path_scope, hpre]
  · intro hpre H
    have hesc : enforce_path_scope env ctx.working_directory p =
        (false, str "path escapes working_directory: " ++
          renderPath (resolvePath env (expanduser env.home p)) ++
          str " (wd=" ++ renderPath (resolvePath env ctx.working_directory) ++
          str ")") := by
      simp [enforce_path_scope, hpre]
    show routeStep reg H env (routeAux reg H env 0) tool args ctx = _
    unfold routeStep
    simp only [hspec, hval, hrestrict, hrel, hesc, if_neg hperm, if_neg hreplay,
      if_true]

/-- Concrete ambient process state for the router instances. -/
def env0 : PathEnv := ⟨[str "home", str "user"], str "/home/user"⟩

/-- Concrete execution context: working directory `/tmp/work`, no grants,
replay off, fresh budgets. -/
def ctx0 : ExecutionContext :=
  ⟨str "s", str "default", str "/tmp/work", str "agent_memory.db", freshTurn,
   [], str "off"⟩

/-- A handler oracle that visibly succeeds, to witness non-invocation. -/
def H0 : Handler := fun _ _ => ⟨true, some (PyVal.pstr (str "HANDLER")), none⟩

/-- The registry entry for a tool, with a vacuous fallback spec. -/
def specOf (reg : List (Str × ToolSpec)) (tool : Str) : ToolSpec :=
  (regLookup reg tool).getD ⟨[], [], [], ⟨0, none, none⟩, ⟨false, false, false, false⟩⟩

/-- C2 witness: `read_file` with `path=/etc/passwd` under workdir
`/tmp/work` is refused with the escape message and an unchanged context;
`path=/tmp/work/a.txt` passes the path check. -/
theorem C2_router_path_scope_witness :
    (enforce_path_scope env0 (str "/tmp/work") (str "/tmp/work/a.txt") =
      (true, [])) ∧
    route_tool_call (build_tool_registry false) H0 env0 (str "read_file")
        [(str "path", PyVal.pstr (str "/etc/passwd"))] ctx0 =
      (⟨false, none, some (str "path escapes working_directory: " ++
        renderPath (resolvePath env0 (expanduser env0.home (str "/etc/passwd"))) ++
        str " (wd=" ++ renderPath (resolvePath env0 ctx0.working_directory) ++
        str ")")⟩, ctx0) := by
  have h := C2_router_path_scope (build_tool_registry false) env0
    (str "read_file") [(str "path", PyVal.pstr (str "/etc/passwd"))] ctx0
    (specOf (build_tool_registry false) (str "read_file")) (str "/etc/passwd")
    (by decide) (by decide) (by decide) (by decide) (by decide) (by decide)
  have h2 := C2_router_path_scope (build_tool_registry false) env0
    (str "read_file") [(str "path", PyVal.pstr (str "/tmp/work/a.txt"))] ctx0
    (specOf (build_tool_registry false) (str "read_file")) (str "/tmp/work/a.txt")
    (by decide) (by decide) (by decide) (by decide) (by decide) (by decide)
  exact ⟨h2.1 (by decide), h.2 (by decide) H0⟩

/-- C2 counterexample: the path-escape refusal carries the message `path
escapes working_directory: /etc/passwd (wd=/tmp/work)`; the exact code
`deny:path_escape` required by the claim appears nowhere in it. -/
theorem C2_counterexample :
    (route_tool_call (build_tool_registry false) H0 env0 (str "read_file")
        [(str "path", PyVal.pstr (str "/etc/passwd"))] ctx0).1.success = false ∧
    (route_tool_call (build_tool_registry false) H0 env0 (str "read_file")
        [(str "path", PyVal.pstr (str "/etc/passwd"))] ctx0).1.output.isNone ∧
    (route_tool_call (build_tool_registry false) H0 env0 (str "read_file")
        [(str "path", PyVal.pstr (str "/etc/passwd"))] ctx0).1.error =
      some (str "path escapes working_directory: /etc/passwd (wd=/tmp/work)") ∧
    (route_tool_call (build_tool_registry false) H0 env0 (str "read_file")
        [(str "path", PyVal.pstr (str "/etc/passwd"))] ctx0).2 = ctx0 ∧
    (str "path escapes working_directory: /etc/passwd (wd=/tmp/work)" ≠
      str "deny:path_escape") ∧
    ¬ (str "deny:path_escape" <:+:
      str "path escapes working_directory: /etc/passwd (wd=/tmp/work)") := by
  decide

/-- C4: with host-exec tools registered and no grant for `run_command`, the
router rewrites the call to `sandbox_exec` with keys `command`, `cwd` and
`timeout`; `sandbox_exec`'s schema declares `workdir` and `timeout_seconds`
instead, so the rewritten call is rejected by schema validation — for every
handler, so no handler runs — contradicting the claim that the rewritten
call is well-formed. -/
theorem C4_sandbox_rewrite_schema_rejected :
    (∀ H : Handler,
      route_tool_call (build_tool_registry true) H env0 (str "run_command")
          [(str "command", PyVal.pstr (str "echo hi"))] ctx0 =
        (⟨false, none, some (str "Invalid arguments for sandbox_exec: " ++
          str "unexpected args: [" ++ quoted (str "cwd") ++ str ", " ++
          quoted (str "timeout") ++ str "]")⟩, ctx0)) ∧
    (∀ f ∈ (match regLookup (build_tool_registry true) (str "sandbox_exec") with
            | some spec => spec.schema
            | none => []),
      f.name ≠ str "cwd" ∧ f.name ≠ str "timeout") := by
  exact ⟨fun H => rfl, by decide⟩

/-! ## Bool-for-int schema acceptance (C10) -/

theorem keys_dictSetV (args : Args) (k : Str) (v : PyVal)
    (hmem : keyMem args k = true) :
    (dictSetV args k v).map Prod.fst = args.map Prod.fst := by
  induction args with
  | nil => simp [keyMem] at hmem
  | cons p rest ih =>
    by_cases h : p.1 = k
    · simp [dictSetV, h]
    · have hmem2 : keyMem rest k = true := by
        simp [keyMem] at hmem ⊢
        rcases hmem with h1 | h1
        · exact absurd h1 h
        · exact h1
      simp [dictSetV, h, ih hmem2]

theorem keyMem_eq_keysAny (args : Args) (k : Str) :
    keyMem args k = (args.map Prod.fst).any (fun n => n = k) := by
  induction args with
  | nil => rfl
  | cons p rest ih =>
    simp only [keyMem, List.any_cons, List.map_cons]
    rw [show (rest.any fun q => decide (q.1 = k)) = keyMem rest k from rfl, ih]

theorem keyMem_eq_of_keys (args1 args2 : Args)
    (h : args1.map Prod.fst = args2.map Prod.fst) (k : Str) :
    keyMem args1 k = keyMem args2 k := by
  rw [keyMem_eq_keysAny, keyMem_eq_keysAny, h]

theorem lookupV_dictSetV_self (args : Args) (k : Str) (v : PyVal) :
    lookupV (dictSetV args k v) k = some v := by
  induction args with
  | nil => simp [dictSetV, lookupV]
  | cons p rest ih =>
    by_cases h : p.1 = k
    · simp [dictSetV, h, lookupV]
    · simp [dictSetV, h, lookupV, ih]

theorem lookupV_dictSetV_ne (args : Args) (k k2 : Str) (v : PyVal)
    (h : k2 ≠ k) : lookupV (dictSetV args k v) k2 = lookupV args k2 := by
  have hne : ¬ k = k2 := fun he => h he.symm
  induction args with
  | nil => simp [dictSetV, lookupV, hne]
  | cons p rest ih =>
    by_cases hp : p.1 = k
    · simp [dictSetV, hp, lookupV, hne]
    · simp only [dictSetV, if_neg hp]
      by_cases hp2 : p.1 = k2
      · simp [lookupV, hp2]
      · simp [lookupV, hp2, ih]

theorem findMissing_eq_of_keys (schema : List SField) (args1 args2 : Args)
    (h : args1.map Prod.fst = args2.map Prod.fst) :
    findMissing schema args1 = findMissing schema args2 := by
  induction schema with
  | nil => rfl
  | cons f fs ih =>
    simp only [findMissing, keyMem_eq_of_keys args1 args2 h, ih]

theorem findWrongType_none_cons (f : SField) (fs : List SField) (args : Args)
    (h : findWrongType (f :: fs) args = none) :
    ¬ (keyMem args f.name = true ∧
      ¬ isKind (lookupVD args f.name PyVal.pnone) f.kind = true) ∧
    findWrongType fs args = none := by
  by_cases hc : keyMem args f.name = true ∧
      ¬ isKind (lookupVD args f.name PyVal.pnone) f.kind = true
  · exfalso
    simp only [findWrongType, if_pos hc] at h
    exact Option.noConfusion h
  · exact ⟨hc, by simpa only [findWrongType, if_neg hc] using h⟩

/-- C10: `validate_arguments` accepts a Python bool wherever the schema
declares kind `int` (bool is a subclass of int): rebinding any argument all
of whose schema declarations have kind `int` to `True` or `False` preserves
schema validity, and `_is_kind` accepts bools as ints. -/
theorem C10_bool_passes_int (spec : ToolSpec) (args : Args) (k : Str) (b : Bool)
    (hval : validate_arguments spec args = (true, []))
    (hkind : ∀ f ∈ spec.schema, f.name = k → f.kind = str "int")
    (hmem : keyMem args k = true) :
    validate_arguments spec (dictSetV args k (PyVal.pbool b)) = (true, []) ∧
    isKind (PyVal.pbool b) (str "int") = true := by
  refine ⟨?_, by cases b <;> decide⟩
  have hkeys : (dictSetV args k (PyVal.pbool b)).map Prod.fst =
      args.map Prod.fst := keys_dictSetV args k _ hmem
  have hmiss : findMissing spec.schema args = none := by
    by_contra hc
    cases hm : findMissing spec.schema args with
    | none => exact hc hm
    | some n => simp [validate_arguments, hm] at hval
  have hwrong : findWrongType spec.schema args = none := by
    by_contra hc
    cases hm : findWrongType spec.schema args with
    | none => exact hc hm
    | some f => simp [validate_arguments, hmiss, hm] at hval
  have hextra : extraKeys args spec.schema = [] := by
    cases hm : extraKeys args spec.schema with
    | nil => rfl
    | cons e es => simp [validate_arguments, hmiss, hwrong, hm] at hval
  have hwrong2 : ∀ fs, (∀ f ∈ fs, f.name = k → f.kind = str "int") →
      findWrongType fs args = none →
      findWrongType fs (dictSetV args k (PyVal.pbool b)) = none := by
    intro fs
    induction fs with
    | nil => intro _ _; rfl
    | cons f fs2 ih =>
      intro hk hnone
      obtain ⟨hfcond, hrest⟩ := findWrongType_none_cons f fs2 args hnone
      by_cases hfk : f.name = k
      · have hint : f.kind = str "int" := hk f (by simp) hfk
        have hlook : lookupVD (dictSetV args k (PyVal.pbool b)) f.name
            PyVal.pnone = PyVal.pbool b := by
          rw [hfk]
          simp [lookupVD, lookupV_dictSetV_self]
        have : isKind (lookupVD (dictSetV args k (PyVal.pbool b)) f.name
            PyVal.pnone) f.kind = true := by
          rw [hlook, hint]; cases b <;> decide
        simp only [findWrongType, this]
        simp only [not_true, and_false, if_false]
        exact ih (fun g hg => hk g (by simp [hg])) hrest
      · have hlook : lookupVD (dictSetV args k (PyVal.pbool b)) f.name
            PyVal.pnone = lookupVD args f.name PyVal.pnone := by
          simp [lookupVD, lookupV_dictSetV_ne args k f.name _ hfk]
        have hkm : keyMem (dictSetV args k (PyVal.pbool b)) f.name =
            keyMem args f.name := keyMem_eq_of_keys _ _ hkeys f.name
        simp only [findWrongType, hlook, hkm]
        by_cases hc : keyMem args f.name = true ∧
            ¬ isKind (lookupVD args f.name PyVal.pnone) f.kind = true
        · exact absurd hc hfcond
        · simp only [if_neg hc]
          exact ih (fun g hg => hk g (by simp [hg])) hrest
  have hmiss2 : findMissing spec.schema (dictSetV args k (PyVal.pbool b)) =
      none := by
    rw [findMissing_eq_of_keys spec.schema _ args hkeys]
    exact hmiss
  have hextra2 : extraKeys (dictSetV args k (PyVal.pbool b)) spec.schema = [] := by
    simp only [extraKeys, hkeys]
    simpa [extraKeys] using hextra
  simp [validate_arguments, hmiss2, hwrong2 spec.schema hkind hwrong, hextra2]

/-- C10 witness: a `read_file` call with `max_bytes=True` passes schema
validation in the built registry. -/
theorem C10_bool_passes_int_witness :
    validate_arguments (specOf (build_tool_registry false) (str "read_file"))
      [(str "path", PyVal.pstr (str "x")), (str "max_bytes", PyVal.pbool true)] =
      (true, []) := by
  have h := C10_bool_passes_int
    (specOf (build_tool_registry false) (str "read_file"))
    [(str "path", PyVal.pstr (str "x")), (str "max_bytes", PyVal.pint 5)]
    (str "max_bytes") true (by decide) (by decide) (by decide)
  have heq : dictSetV
      [(str "path", PyVal.pstr (str "x")), (str "max_bytes", PyVal.pint 5)]
      (str "max_bytes") (PyVal.pbool true) =
      [(str "path", PyVal.pstr (str "x")), (str "max_bytes", PyVal.pbool true)] := by
    rfl
  rw [← heq]
  exact h.1

/-! ## The policy gate (`rfsn/gate.py`) -/

/-- `StateSnapshot` (`rfsn/types.py`). -/
structure StateSnapshot where
  repo_id : Str
  fs_tree_hash : Str
  toolchain : Str
  tests_passed : Bool
  metadata : PyVal

/-- `ProposedAction` (`rfsn/types.py`). -/
structure ProposedAction where
  kind : Str
  payload : PyVal
  justification : Str
  risk_tags : List Str := []

/-- `GateDecision` (`rfsn/types.py`). -/
structure GateDecision where
  allow : Bool
  reason : Str
  normalized_action : Option ProposedAction := none
  suggested_alternative : Option Str := none

/-- Python `str.isspace` characters (the whitespace set used by `strip` and
`rstrip`). -/
def pyIsSpace (c : Char) : Bool :=
  c.toNat ∈ [0x09, 0x0a, 0x0b, 0x0c, 0x0d, 0x1c, 0x1d, 0x1e, 0x1f, 0x20,
    0x85, 0xa0, 0x1680, 0x2000, 0x2001, 0x2002, 0x2003, 0x2004, 0x2005,
    0x2006, 0x2007, 0x2008, 0x2009, 0x200a, 0x2028, 0x2029, 0x202f, 0x205f,
    0x3000]

/-- Python `str.rstrip()`. -/
def pyRstrip (s : Str) : Str := (s.reverse.dropWhile pyIsSpace).reverse

/-- Python `str.strip()`. -/
def pyStrip (s : Str) : Str := (s.dropWhile pyIsSpace).reverse.dropWhile pyIsSpace |>.reverse

/-- Python `str.lower()` (the blocked prefixes are ASCII, for which
`Char.toLower` agrees with Python). -/
def pyLower (s : Str) : Str := s.map Char.toLower

/-- The line boundaries of Python `str.splitlines`. -/
def isLineBoundary (c : Char) : Bool :=
  c.toNat ∈ [0x0a, 0x0b, 0x0c, 0x0d, 0x1c, 0x1d, 0x1e, 0x85, 0x2028, 0x2029]

/-- One `splitlines` step: the first line and the remainder after its
boundary (`none` when the string ends without a boundary); `\r\n` counts as
one boundary. -/
def takeLine : Str → Str × Option Str
  | [] => ([], none)
  | c :: cs =>
    if c = Char.ofNat 13 then
      match cs with
      | d :: cs2 => if d = '\n' then ([], some cs2) else ([], some cs)
      | [] => ([], some [])
    else if isLineBoundary c then ([], some cs)
    else
      let r := takeLine cs
      (c :: r.1, r.2)

/-- `str.splitlines()` with explicit fuel (the remainder shrinks, so the
length of the string is enough fuel). -/
def pySplitlinesF : Nat → Str → List Str
  | _, [] => []
  | 0, _ => []
  | fuel + 1, s =>
    match takeLine s with
    | (line, none) => [line]
    | (line, some rest) => line :: pySplitlinesF fuel rest

/-- Python `str.splitlines()`. -/
def pySplitlines (s : Str) : List Str := pySplitlinesF s.length s

/-- The patch normalization of the gate:
`"\n".join(line.rstrip() for line in payload.splitlines()) + "\n"`. -/
def normalizePatch (s : Str) : Str :=
  List.intercalate ['\n'] ((pySplitlines s).map pyRstrip) ++ ['\n']

/-- `DEFAULT_BLOCKED_COMMAND_PREFIXES`. -/
def DEFAULT_BLOCKED_COMMAND_PREFIXES : List Str :=
  [str "rm ", str "sudo ", str "curl ", str "wget ", str "powershell",
   str "invoke-"]

/-- `_contains_blocked_command(cmd, blocked_prefixes)`. -/
def containsBlockedCommand (cmd : Str) (blocked : List Str) : Bool :=
  blocked.any (fun p => p.isPrefixOf (pyLower (pyStrip cmd)))

/-- `gate(state, action, ...)`: the pure policy gate of `rfsn/gate.py`. -/
def gate (state : StateSnapshot) (action : ProposedAction)
    (allow_commands : Bool) (blocked_command_prefixes : List Str)
    (require_clean_tests_for_patch : Bool) (max_patch_bytes : Int) :
    GateDecision :=
  if action.justification.length < 8 then
    ⟨false, str "Missing/weak justification", none, none⟩
  else if action.kind = str "command" then
    if ¬ allow_commands then
      ⟨false, str "Commands forbidden by policy", none, none⟩
    else
      match action.payload with
      | PyVal.pstr cmd =>
        if containsBlockedCommand cmd blocked_command_prefixes then
          ⟨false, str "Command blocked by prefix policy", none, none⟩
        else ⟨true, str "Command allowed", some action, none⟩
      | _ => ⟨false, str "Command payload must be a string", none, none⟩
  else if action.kind = str "patch" then
    if require_clean_tests_for_patch ∧ ¬ state.tests_passed then
      ⟨false, str "Refusing patch: state not clean (tests failing)", none, none⟩
    else
      match action.payload with
      | PyVal.pstr p =>
        if ((utf8 p).length : Int) > max_patch_bytes then
          ⟨false, str "Patch too large", none, none⟩
        else
          ⟨true, str "Patch allowed",
            some { action with payload := PyVal.pstr (normalizePatch p) }, none⟩
      | _ => ⟨false, str "Patch payload must be unified diff string", none, none⟩
  else if action.kind = str "patch_plan" then
    ⟨true, str "Plan allowed", some action, none⟩
  else
    ⟨false, str "Unknown action kind: " ++ action.kind, none, none⟩

/-! ### The claim-side normalizer

The claim describes the normalized payload as the original with trailing
whitespace stripped from every line and a single trailing newline appended.
Formalized from those words: lines are the maximal newline-free segments, a
terminating newline closing the last line. -/

/-- Claim-side line splitting at `\n` only, same fuel pattern as
`pySplitlinesF`. -/
def specSplitNl : Nat → Str → List Str
  | _, [] => []
  | 0, _ => []
  | fuel + 1, s =>
    let line := s.takeWhile (fun c => ¬ c = '\n')
    match s.dropWhile (fun c => ¬ c = '\n') with
    | [] => [line]
    | _ :: rest2 => line :: specSplitNl fuel rest2

/-- Claim-side lines of a payload. -/
def specLines (s : Str) : List Str := specSplitNl s.length s

/-- Claim-side normalization: strip trailing whitespace from every line,
join with newlines, append a single trailing newline. -/
def specNormalize (s : Str) : Str :=
  List.intercalate ['\n'] ((specLines s).map pyRstrip) ++ ['\n']

/-- A payload whose only line boundaries are plain newlines: on these,
`splitlines` and claim-side `\n`-splitting coincide. -/
def onlyNlBoundaries (s : Str) : Prop :=
  ∀ c ∈ s, isLineBoundary c = true → c = '\n'

instance (s : Str) : Decidable (onlyNlBoundaries s) := by
  unfold onlyNlBoundaries
  infer_instance

theorem takeLine_only_nl (s : Str) (hs : onlyNlBoundaries s) :
    takeLine s = (s.takeWhile (fun c => ¬ c = '\n'),
      match s.dropWhile (fun c => ¬ c = '\n') with
      | [] => none
      | _ :: rest => some rest) := by
  induction s with
  | nil => rfl
  | cons c cs ih =>
    by_cases hn : c = '\n'
    · subst hn
      simp [takeLine, List.takeWhile_cons, List.dropWhile_cons]
      decide
    · have hb : isLineBoundary c = false := by
        cases hbc : isLineBoundary c
        · rfl
        · exact absurd (hs c (by simp) hbc) hn
      have hcr : ¬ c = Char.ofNat 13 := by
        intro he
        rw [he] at hb
        exact absurd hb (by decide)
      have ihr := ih (fun d hd hbd => hs d (by simp [hd]) hbd)
      simp only [takeLine, if_neg hcr, hb, if_false, Bool.false_eq_true, ihr,
        List.takeWhile_cons, List.dropWhile_cons, hn, decide_not,
        decide_eq_true_eq, if_neg hn]
      simp [hn]

theorem mem_of_mem_dropWhileP {p : Char → Bool} {d : Char} :
    ∀ {l : Str}, d ∈ l.dropWhile p → d ∈ l := by
  intro l
  induction l with
  | nil => simp [List.dropWhile]
  | cons x xs ih =>
    intro h
    by_cases hp : p x
    · rw [List.dropWhile_cons_of_pos hp] at h
      exact List.mem_cons_of_mem _ (ih h)
    · rw [List.dropWhile_cons_of_neg hp] at h
      exact h

theorem onlyNl_rest (s : Str) (hs : onlyNlBoundaries s) (rest : Str)
    (h : (s.dropWhile (fun c => ¬ c = '\n')).tail = rest) :
    onlyNlBoundaries rest := by
  intro d hd
  apply hs d
  have h1 : d ∈ s.dropWhile (fun c => ¬ c = '\n') := by
    rw [← h] at hd
    exact List.mem_of_mem_tail hd
  exact mem_of_mem_dropWhileP h1

theorem pySplitlinesF_only_nl (fuel : Nat) (s : Str) (hs : onlyNlBoundaries s) :
    pySplitlinesF fuel s = specSplitNl fuel s := by
  induction fuel generalizing s with
  | zero => cases s <;> rfl
  | succ fuel ih =>
    cases s with
    | nil => rfl
    | cons c cs =>
      rw [show pySplitlinesF (fuel + 1) (c :: cs) =
        (match takeLine (c :: cs) with
         | (line, none) => [line]
         | (line, some rest) => line :: pySplitlinesF fuel rest) from rfl]
      rw [takeLine_only_nl (c :: cs) hs]
      cases hdrop : (c :: cs).dropWhile (fun c => ¬ c = '\n') with
      | nil =>
        simp only [specSplitNl, hdrop]
      | cons d rest =>
        have hrest : onlyNlBoundaries rest :=
          onlyNl_rest (c :: cs) hs rest (by rw [hdrop]; rfl)
        simp only [specSplitNl, hdrop, ih rest hrest]

/-- On payloads whose only line boundaries are newlines, the gate's
normalization equals the claim-side normalization. -/
theorem normalizePatch_eq_spec (s : Str) (hs : onlyNlBoundaries s) :
    normalizePatch s = specNormalize s := by
  unfold normalizePatch specNormalize pySplitlines specLines
  rw [pySplitlinesF_only_nl s.length s hs]

/-- C5 (amended): for an action of kind `patch` whose justification has at
least 8 characters (shorter justifications are denied before the patch rules
apply), the gate denies when clean tests are required and `tests_passed` is
false; denies when the payload is not a string; denies when the UTF-8 byte
length exceeds `max_patch_bytes`; and otherwise allows with the normalized
payload, which — for payloads whose only line-boundary characters are plain
newlines — is the original with trailing whitespace stripped from every line
and a single trailing newline appended. -/
theorem C5_gate_patch (state : StateSnapshot) (action : ProposedAction)
    (allow_commands : Bool) (bl : List Str) (rc : Bool) (mpb : Int)
    (hkind : action.kind = str "patch")
    (hjust : ¬ action.justification.length < 8) :
    (rc = true → state.tests_passed = false →
      gate state action allow_commands bl rc mpb =
        ⟨false, str "Refusing patch: state not clean (tests failing)",
          none, none⟩) ∧
    ((∀ s, action.payload ≠ PyVal.pstr s) →
      ¬ (rc = true ∧ ¬ state.tests_passed = true) →
      gate state action allow_commands bl rc mpb =
        ⟨false, str "Patch payload must be unified diff string", none, none⟩) ∧
    (∀ p, action.payload = PyVal.pstr p →
      ¬ (rc = true ∧ ¬ state.tests_passed = true) →
      ((utf8 p).length : Int) > mpb →
      gate state action allow_commands bl rc mpb =
        ⟨false, str "Patch too large", none, none⟩) ∧
    (∀ p, action.payload = PyVal.pstr p →
      ¬ (rc = true ∧ ¬ state.tests_passed = true) →
      ¬ ((utf8 p).length : Int) > mpb →
      onlyNlBoundaries p →
      gate state action allow_commands bl rc mpb =
        ⟨true, str "Patch allowed",
          some { action with payload := PyVal.pstr (specNormalize p) },
          none⟩) := by
  have hnc : ¬ (str "patch" = str "command") := by decide
  refine ⟨?_, ?_, ?_, ?_⟩
  · intro hrc htests
    have hcl : rc = true ∧ ¬ state.tests_passed = true := by
      exact ⟨hrc, by rw [htests]; simp⟩
    simp only [gate, if_neg hjust, hkind, if_neg hnc, if_pos rfl, if_pos hcl]
    simp
  · intro hnp hcl
    simp only [gate, if_neg hjust, hkind, if_neg hnc, if_pos rfl, if_neg hcl]
    cases hp : action.payload with
    | pstr s => exact absurd hp (hnp s)
    | pnone => rfl
    | pbool b => rfl
    | pint n => rfl
    | plist xs => rfl
    | ptuple xs => rfl
    | pdict kvs => rfl
    | pset es => rfl
    | pfrozenset es => rfl
  · intro p hp hcl hsize
    simp only [gate, if_neg hjust, hkind, if_neg hnc, if_pos rfl, if_neg hcl,
      hp, if_pos hsize]
    simp
  · intro p hp hcl hsize hnl
    simp only [gate, if_neg hjust, hkind, if_neg hnc, if_pos rfl, if_neg hcl,
      hp, if_neg hsize]
    simp [normalizePatch_eq_spec p hnl]

/-- A clean concrete state for the gate instances. -/
def cleanState : StateSnapshot := ⟨str "r", str "h", str "py", true, PyVal.pnone⟩

/-- A failing-tests concrete state. -/
def dirtyState : StateSnapshot := ⟨str "r", str "h", str "py", false, PyVal.pnone⟩

/-- A patch action with an adequate justification. -/
def patchAction (payload : PyVal) : ProposedAction :=
  ⟨str "patch", payload, str "because reasons", []⟩

/-- C5 witness: the four patch branches on concrete inputs, including the
normalization of `"a  \nb\t\n\nc"` to `"a\nb\n\nc\n"`. -/
theorem C5_gate_patch_witness :
    gate dirtyState (patchAction (PyVal.pstr (str "x"))) false
        DEFAULT_BLOCKED_COMMAND_PREFIXES true 500000 =
      ⟨false, str "Refusing patch: state not clean (tests failing)",
        none, none⟩ ∧
    gate cleanState (patchAction (PyVal.pint 1)) false
        DEFAULT_BLOCKED_COMMAND_PREFIXES true 500000 =
      ⟨false, str "Patch payload must be unified diff string", none, none⟩ ∧
    gate cleanState (patchAction (PyVal.pstr (str "abc"))) false
        DEFAULT_BLOCKED_COMMAND_PREFIXES true 1 =
      ⟨false, str "Patch too large", none, none⟩ ∧
    gate cleanState (patchAction (PyVal.pstr (str "a  \nb\t\n\nc"))) false
        DEFAULT_BLOCKED_COMMAND_PREFIXES true 500000 =
      ⟨true, str "Patch allowed",
        some { patchAction (PyVal.pstr (str "a  \nb\t\n\nc")) with
          payload := PyVal.pstr (specNormalize (str "a  \nb\t\n\nc")) },
        none⟩ ∧
    specNormalize (str "a  \nb\t\n\nc") = str "a\nb\n\nc\n" := by
  refine ⟨?_, ?_, ?_, ?_, by decide⟩
  · exact (C5_gate_patch dirtyState _ false _ true 500000 rfl (by decide)).1
      rfl rfl
  · exact (C5_gate_patch cleanState _ false _ true 500000 rfl (by decide)).2.1
      (fun s h => PyVal.noConfusion h) (by simp [cleanState])
  · exact ((C5_gate_patch cleanState _ false _ true 1 rfl (by decide)).2.2.1
      (str "abc") rfl (by simp [cleanState]) (by decide))
  · exact ((C5_gate_patch cleanState _ false _ true 500000 rfl
      (by decide)).2.2.2 (str "a  \nb\t\n\nc") rfl (by simp [cleanState])
      (by decide) (by decide))

/-- C5 counterexample: a patch action that satisfies none of the claim's
denial conditions (tests pass, string payload, size within bounds) is still
denied, because the gate rejects justifications shorter than 8 characters
before the patch rules apply. -/
theorem C5_counterexample :
    (gate cleanState ⟨str "patch", PyVal.pstr (str "x"), str "short", []⟩
        false DEFAULT_BLOCKED_COMMAND_PREFIXES true 500000).allow = false ∧
    (gate cleanState ⟨str "patch", PyVal.pstr (str "x"), str "short", []⟩
        false DEFAULT_BLOCKED_COMMAND_PREFIXES true 500000).reason =
      str "Missing/weak justification" ∧
    cleanState.tests_passed = true ∧
    ((utf8 (str "x")).length : Int) ≤ 500000 := by decide

/-! ## Test delta reward (`controller/test_delta.py`)

Counts come from parsing test-runner output (`\d+` matches), so they are
naturals; the reward arithmetic — IEEE floats in Python — is carried out
exactly in `ℚ`, which agrees with the float computation on the branch
structure and the bounds at issue. -/

/-- `TestResult` (`controller/test_runner.py`). -/
structure TestResult where
  passed : Bool
  total_tests : Nat
  passed_tests : Nat
  failed_tests : Nat
  error_tests : Nat
  output : Str
  timed_out : Bool

namespace TestDelta

variable (b p : TestResult)

/-- `TestDelta.tests_fixed`: `max(0, patched.passed_tests -
baseline.passed_tests)` (truncated subtraction on naturals coincides). -/
def tests_fixed : Nat := p.passed_tests - b.passed_tests

/-- `TestDelta.tests_broken`. -/
def tests_broken : Nat := b.passed_tests - p.passed_tests

/-- `TestDelta.net_change`. -/
def net_change : Int := (p.passed_tests : Int) - b.passed_tests

/-- `TestDelta.improved`. -/
def improved : Prop := net_change b p > 0 ∧ ¬ p.timed_out = true

instance : Decidable (improved b p) := by unfold improved; infer_instance

/-- `TestDelta.regression`. -/
def regression : Prop :=
  net_change b p < 0 ∨ (b.passed = true ∧ ¬ p.passed = true)

instance : Decidable (regression b p) := by unfold regression; infer_instance

/-- `TestDelta.reward`. -/
def reward : ℚ :=
  if b.total_tests = 0 then 0
  else if p.passed = true ∧ ¬ b.passed = true then 1
  else if regression b p then
    -(1 / 2) - 1 / 2 * ((tests_broken b p : ℚ) / (max 1 b.total_tests : Nat))
  else if improved b p then
    1 / 2 * ((tests_fixed b p : ℚ) / (max 1 (b.failed_tests + b.error_tests) : Nat))
  else 0

end TestDelta

/-- A test result is consistent when its pass flag reflects the absence of
failures and errors and its counts sum to the total (as produced by
`run_tests` when the exit code agrees with the parsed counts). -/
def TRConsistent (r : TestResult) : Prop :=
  (r.passed = true ↔ r.failed_tests + r.error_tests = 0) ∧
  r.passed_tests + r.failed_tests + r.error_tests = r.total_tests

instance (r : TestResult) : Decidable (TRConsistent r) := by
  unfold TRConsistent; infer_instance

/-- C8 (amended): with a non-empty consistent baseline, a consistent patched
result, and a patched passed count not exceeding the baseline total, the
reward is 1 when all tests pass after the patch and at least one failed or
errored before; `-0.5 - 0.5*(broken/total)` on regression; `0.5 *
(fixed/(baseline failed + errored))` on improvement; 0 otherwise; and it lies
in `[-1, 1]`.  (Without the patched-count bound the improvement branch can
exceed 1, and the denominator counts baseline errors along with failures.) -/
theorem C8_test_delta_reward (b p : TestResult)
    (hb : TRConsistent b) (hp : TRConsistent p)
    (htot : 0 < b.total_tests)
    (hbound : p.passed_tests ≤ b.total_tests) :
    (p.failed_tests + p.error_tests = 0 → 0 < b.failed_tests + b.error_tests →
      TestDelta.reward b p = 1) ∧
    (¬ (p.failed_tests + p.error_tests = 0 ∧ 0 < b.failed_tests + b.error_tests) →
      TestDelta.regression b p →
      TestDelta.reward b p =
        -(1 / 2) - 1 / 2 * ((TestDelta.tests_broken b p : ℚ) / b.total_tests)) ∧
    (¬ (p.failed_tests + p.error_tests = 0 ∧ 0 < b.failed_tests + b.error_tests) →
      ¬ TestDelta.regression b p → TestDelta.improved b p →
      TestDelta.reward b p =
        1 / 2 * ((TestDelta.tests_fixed b p : ℚ) /
          (b.failed_tests + b.error_tests))) ∧
    (¬ (p.failed_tests + p.error_tests = 0 ∧ 0 < b.failed_tests + b.error_tests) →
      ¬ TestDelta.regression b p → ¬ TestDelta.improved b p →
      TestDelta.reward b p = 0) ∧
    (-1 ≤ TestDelta.reward b p ∧ TestDelta.reward b p ≤ 1) := by
  obtain ⟨hbf, hbs⟩ := hb
  obtain ⟨hpf, hps⟩ := hp
  have htot0 : ¬ b.total_tests = 0 := Nat.pos_iff_ne_zero.mp htot
  have hflag : (p.passed = true ∧ ¬ b.passed = true) ↔
      (p.failed_tests + p.error_tests = 0 ∧ 0 < b.failed_tests + b.error_tests) := by
    rw [hpf, hbf]
    omega
  have hbp_le : b.passed_tests ≤ b.total_tests := by omega
  refine ⟨?_, ?_, ?_, ?_, ?_⟩
  · intro h1 h2
    have : p.passed = true ∧ ¬ b.passed = true := hflag.mpr ⟨h1, h2⟩
    simp only [TestDelta.reward, if_neg htot0, if_pos this]
  · intro hno hreg
    have hnfl : ¬ (p.passed = true ∧ ¬ b.passed = true) := fun h => hno (hflag.mp h)
    simp only [TestDelta.reward, if_neg htot0, if_neg hnfl, if_pos hreg]
    congr 1
    rw [show max 1 b.total_tests = b.total_tests by omega]
  · intro hno hreg himp
    have hnfl : ¬ (p.passed = true ∧ ¬ b.passed = true) := fun h => hno (hflag.mp h)
    simp only [TestDelta.reward, if_neg htot0, if_neg hnfl, if_neg hreg,
      if_pos himp]
    have hfe : 0 < b.failed_tests + b.error_tests := by
      by_contra hc
      have hfe0 : b.failed_tests + b.error_tests = 0 := by omega
      have : b.passed_tests = b.total_tests := by omega
      obtain ⟨hnet, -⟩ := himp
      simp only [TestDelta.net_change] at hnet
      omega
    rw [show max 1 (b.failed_tests + b.error_tests) =
      b.failed_tests + b.error_tests by omega]
    push_cast
    ring
  · intro hno hreg himp
    have hnfl : ¬ (p.passed = true ∧ ¬ b.passed = true) := fun h => hno (hflag.mp h)
    simp only [TestDelta.reward, if_neg htot0, if_neg hnfl, if_neg hreg,
      if_neg himp]
  · have hq_tot : (0 : ℚ) < ((max 1 b.total_tests : Nat) : ℚ) := by
      have : 0 < max 1 b.total_tests := by omega
      exact_mod_cast this
    constructor
    · simp only [TestDelta.reward]
      split
      · norm_num
      · split
        · norm_num
        · split
          · have hbr : (TestDelta.tests_broken b p : ℚ) /
                ((max 1 b.total_tests : Nat) : ℚ) ≤ 1 := by
              rw [div_le_one hq_tot]
              have : TestDelta.tests_broken b p ≤ max 1 b.total_tests := by
                simp only [TestDelta.tests_broken]
                omega
              exact_mod_cast this
            nlinarith [hbr]
          · split
            · have hfx : (0 : ℚ) ≤ (TestDelta.tests_fixed b p : ℚ) /
                  ((max 1 (b.failed_tests + b.error_tests) : Nat) : ℚ) := by
                apply div_nonneg
                · exact_mod_cast Nat.zero_le _
                · exact_mod_cast Nat.zero_le _
              nlinarith [hfx]
            · norm_num
    · simp only [TestDelta.reward]
      split
      · norm_num
      · split
        · norm_num
        · split
          · have hbr : (0 : ℚ) ≤ (TestDelta.tests_broken b p : ℚ) /
                ((max 1 b.total_tests : Nat) : ℚ) := by
              apply div_nonneg
              · exact_mod_cast Nat.zero_le _
              · exact_mod_cast Nat.zero_le _
            nlinarith [hbr]
          · split
            · rename_i hnz hnfl2 hnreg himp2
              have hq_fe : (0 : ℚ) <
                  ((max 1 (b.failed_tests + b.error_tests) : Nat) : ℚ) := by
                have : 0 < max 1 (b.failed_tests + b.error_tests) := by omega
                exact_mod_cast this
              have hfx : (TestDelta.tests_fixed b p : ℚ) /
                  ((max 1 (b.failed_tests + b.error_tests) : Nat) : ℚ) ≤ 2 := by
                rw [div_le_iff₀ hq_fe]
                have hfe : 0 < b.failed_tests + b.error_tests := by
                  by_contra hc
                  obtain ⟨hnet, -⟩ := himp2
                  simp only [TestDelta.net_change] at hnet
                  omega
                have h1 : TestDelta.tests_fixed b p ≤
                    b.failed_tests + b.error_tests := by
                  simp only [TestDelta.tests_fixed]
                  omega
                have h2 : (TestDelta.tests_fixed b p : ℚ) ≤
                    ((max 1 (b.failed_tests + b.error_tests) : Nat) : ℚ) := by
                  have : TestDelta.tests_fixed b p ≤
                      max 1 (b.failed_tests + b.error_tests) := by omega
                  exact_mod_cast this
                nlinarith [h2, hq_fe]
              nlinarith [hfx]
            · norm_num

/-- C8 witness: branch instances, including a regression at `-3/4` and an
improvement at `1/4`, both within the bounds. -/
theorem C8_test_delta_reward_witness :
    TestDelta.reward ⟨false, 10, 5, 5, 0, [], false⟩
      ⟨true, 10, 10, 0, 0, [], false⟩ = 1 ∧
    TestDelta.reward ⟨true, 10, 10, 0, 0, [], false⟩
      ⟨false, 10, 5, 5, 0, [], false⟩ = -(1 / 2) - 1 / 2 * (5 / 10 : ℚ) ∧
    TestDelta.reward ⟨false, 10, 4, 6, 0, [], false⟩
      ⟨false, 10, 7, 3, 0, [], false⟩ = 1 / 2 * (3 / 6 : ℚ) ∧
    TestDelta.reward ⟨false, 10, 5, 5, 0, [], false⟩
      ⟨false, 10, 5, 5, 0, [], false⟩ = 0 ∧
    (-1 : ℚ) ≤ TestDelta.reward ⟨true, 10, 10, 0, 0, [], false⟩
      ⟨false, 10, 5, 5, 0, [], false⟩ := by
  have h1 := C8_test_delta_reward ⟨false, 10, 5, 5, 0, [], false⟩
    ⟨true, 10, 10, 0, 0, [], false⟩ (by decide) (by decide) (by decide) (by decide)
  have h2 := C8_test_delta_reward ⟨true, 10, 10, 0, 0, [], false⟩
    ⟨false, 10, 5, 5, 0, [], false⟩ (by decide) (by decide) (by decide) (by decide)
  have h3 := C8_test_delta_reward ⟨false, 10, 4, 6, 0, [], false⟩
    ⟨false, 10, 7, 3, 0, [], false⟩ (by decide) (by decide) (by decide) (by decide)
  have h4 := C8_test_delta_reward ⟨false, 10, 5, 5, 0, [], false⟩
    ⟨false, 10, 5, 5, 0, [], false⟩ (by decide) (by decide) (by decide) (by decide)
  refine ⟨h1.1 (by decide) (by decide), ?_, ?_, ?_, h2.2.2.2.2.1⟩
  · have := h2.2.1 (by decide) (by decide)
    rw [this]
    norm_num [TestDelta.tests_broken]
  · have := h3.2.2.1 (by decide) (by decide) (by decide)
    rw [this]
    norm_num [TestDelta.tests_fixed]
  · exact h4.2.2.2.1 (by decide) (by decide) (by decide)

/-- C8 counterexample: a consistent pair where the patched run reports more
passing tests than the whole baseline (the patch added tests) yields reward
`3/2`, outside the claimed range `[-1, 1]`. -/
theorem C8_counterexample :
    TestDelta.reward ⟨true, 1, 1, 0, 0, [], false⟩
      ⟨true, 4, 4, 0, 0, [], false⟩ = 3 / 2 ∧
    ¬ TestDelta.reward ⟨true, 1, 1, 0, 0, [], false⟩
      ⟨true, 4, 4, 0, 0, [], false⟩ ≤ 1 ∧
    TRConsistent ⟨true, 1, 1, 0, 0, [], false⟩ ∧
    TRConsistent ⟨true, 4, 4, 0, 0, [], false⟩ ∧
    0 < (1 : Nat) := by
  have hr : TestDelta.reward ⟨true, 1, 1, 0, 0, [], false⟩
      ⟨true, 4, 4, 0, 0, [], false⟩ = 3 / 2 := by
    simp only [TestDelta.reward, TestDelta.regression, TestDelta.improved,
      TestDelta.net_change, TestDelta.tests_fixed]
    norm_num
  exact ⟨hr, by rw [hr]; norm_num, by decide, by decide, by decide⟩

/-! ## Plan execution (`controller/planner/types.py`,
`controller/planner/executor.py`)

A plan step carries an id, its dependency list and its status; the proposed
action influences the loop only through the step executor, abstracted as the
oracle `exec` mapping a step id to the success of `execute_step` (gate,
router and handler combined), and through the checkpoint instrumentation,
which never alters step statuses.  Python sets a step to `in_progress`
immediately before executing it and to `completed`/`failed` immediately
after; no intervening code observes the state, so the two writes collapse to
one. -/

/-- A plan step (`PlanStep`): id, dependencies, status. -/
structure PStep where
  step_id : Str
  depends_on : List Str
  status : Str
deriving DecidableEq

/-- `Plan.pending_steps`: steps that are pending with every dependency
completed, in plan order. -/
def pendingSteps (ss : List PStep) : List PStep :=
  let completed := (ss.filter (fun s => s.status = str "completed")).map
    PStep.step_id
  ss.filter (fun s => s.status = str "pending" ∧
    s.depends_on.all (fun d => completed.contains d))

/-- Set the status of the step(s) with the given id. -/
def setStatus (ss : List PStep) (id : Str) (st : Str) : List PStep :=
  ss.map (fun s => if s.step_id = id then { s with status := st } else s)

/-- The stop-on-failure sweep: every pending step becomes skipped. -/
def skipPending (ss : List PStep) : List PStep :=
  ss.map (fun s => if s.status = str "pending" then
    { s with status := str "skipped" } else s)

/-- The while-loop of `execute_plan`: take the first ready step, run it, mark
it, on failure with `stop_on_failure` skip the remaining pending steps and
break.  Returns the final steps and the `step_results` list of (step id,
success).  Each iteration turns one pending step non-pending, so the number
of steps is sufficient fuel. -/
def execLoop (exec : Str → Bool) (stop : Bool) :
    Nat → List PStep → List PStep × List (Str × Bool)
  | 0, ss => (ss, [])
  | fuel + 1, ss =>
    match pendingSteps ss with
    | [] => (ss, [])
    | s :: _ =>
      let ok := exec s.step_id
      let ss1 := setStatus ss s.step_id
        (if ok then str "completed" else str "failed")
      if ok then
        let r := execLoop exec stop fuel ss1
        (r.1, (s.step_id, true) :: r.2)
      else if stop then
        (skipPending ss1, [(s.step_id, false)])
      else
        let r := execLoop exec stop fuel ss1
        (r.1, (s.step_id, false) :: r.2)

/-- `execute_plan(plan, ...)` on the plan's steps. -/
def execute_plan (exec : Str → Bool) (stop : Bool) (ss : List PStep) :
    List PStep × List (Str × Bool) :=
  execLoop exec stop ss.length ss

theorem mem_pendingSteps (ss : List PStep) (s : PStep)
    (h : s ∈ pendingSteps ss) :
    s ∈ ss ∧ s.status = str "pending" ∧
    ∀ d ∈ s.depends_on, ∃ t ∈ ss, t.step_id = d ∧ t.status = str "completed" := by
  simp only [pendingSteps, List.mem_filter] at h
  obtain ⟨hmem, hcond⟩ := h
  simp only [decide_eq_true_eq, Bool.and_eq_true, List.all_eq_true] at hcond
  refine ⟨hmem, hcond.1, ?_⟩
  intro d hd
  have hc := List.mem_of_elem_eq_true (hcond.2 d hd)
  simp only [List.mem_map, List.mem_filter, decide_eq_true_eq] at hc
  obtain ⟨t, ⟨htm, hts⟩, hid⟩ := hc
  exact ⟨t, htm, hid, hts⟩

theorem mem_setStatus_pending (ss : List PStep) (id : Str) (st : Str)
    (hst : ¬ st = str "pending") (t : PStep)
    (h : t ∈ setStatus ss id st) (hp : t.status = str "pending") :
    t ∈ ss := by
  simp only [setStatus, List.mem_map] at h
  obtain ⟨t0, ht0, heq⟩ := h
  by_cases hi : t0.step_id = id
  · rw [if_pos hi] at heq
    rw [← heq] at hp
    exact absurd hp hst
  · rw [if_neg hi] at heq
    rw [← heq]
    exact ht0

theorem mem_setStatus_completed (ss : List PStep) (id : Str) (st : Str)
    (t : PStep) (h : t ∈ setStatus ss id st)
    (hc : t.status = str "completed") :
    (t ∈ ss ∧ t.status = str "completed") ∨ (t.step_id = id ∧ st = str "completed") := by
  simp only [setStatus, List.mem_map] at h
  obtain ⟨t0, ht0, heq⟩ := h
  by_cases hi : t0.step_id = id
  · rw [if_pos hi] at heq
    right
    constructor
    · rw [← heq]
      exact hi
    · rw [← heq] at hc
      exact hc
  · rw [if_neg hi] at heq
    left
    rw [← heq]
    exact ⟨ht0, by rw [heq]; exact hc⟩

theorem mem_setStatus_of_mem (ss : List PStep) (id : Str) (st : Str)
    (s : PStep) (h : s ∈ ss) :
    (if s.step_id = id then { s with status := st } else s) ∈ setStatus ss id st := by
  simp only [setStatus, List.mem_map]
  exact ⟨s, h, rfl⟩

theorem skipPending_no_pending (ss : List PStep) (t : PStep)
    (h : t ∈ skipPending ss) : ¬ t.status = str "pending" := by
  simp only [skipPending, List.mem_map] at h
  obtain ⟨t0, ht0, heq⟩ := h
  by_cases hp : t0.status = str "pending"
  · rw [if_pos hp] at heq
    rw [← heq]
    show ¬ str "skipped" = str "pending"
    decide
  · rw [if_neg hp] at heq
    rw [← heq]
    exact hp

theorem execLoop_executed_pending (exec : Str → Bool) (stop : Bool) :
    ∀ fuel ss, ∀ q ∈ (execLoop exec stop fuel ss).2,
      ∃ s ∈ ss, s.step_id = q.1 ∧ s.status = str "pending" := by
  intro fuel
  induction fuel with
  | zero => intro ss q hq; simp [execLoop] at hq
  | succ fuel ih =>
    intro ss q hq
    cases hps : pendingSteps ss with
    | nil => simp [execLoop, hps] at hq
    | cons s rest =>
      have hsel := mem_pendingSteps ss s (by rw [hps]; simp)
      cases hok : exec s.step_id with
      | true =>
        simp only [execLoop, hps, hok, if_true] at hq
        rcases List.mem_cons.mp hq with hq1 | hq2
        · exact ⟨s, hsel.1, by rw [hq1], hsel.2.1⟩
        · obtain ⟨t, ht, hti, hts⟩ := ih _ q hq2
          refine ⟨t, mem_setStatus_pending ss s.step_id
            (str "completed") (by decide) t ?_ hts, hti, hts⟩
          simpa [hok] using ht
      | false =>
        cases hstop : stop with
        | true =>
          simp only [execLoop, hps, hok, hstop, Bool.false_eq_true, if_false,
            if_true, List.mem_singleton] at hq
          exact ⟨s, hsel.1, by rw [hq], hsel.2.1⟩
        | false =>
          rw [hstop] at ih
          simp only [execLoop, hps, hok, hstop, Bool.false_eq_true, if_false] at hq
          rcases List.mem_cons.mp hq with hq1 | hq2
          · exact ⟨s, hsel.1, by rw [hq1], hsel.2.1⟩
          · obtain ⟨t, ht, hti, hts⟩ := ih _ q hq2
            refine ⟨t, mem_setStatus_pending ss s.step_id
              (str "failed") (by decide) t ?_ hts, hti, hts⟩
            simpa [hok] using ht

theorem setStatus_ids (ss : List PStep) (id : Str) (st : Str) :
    (setStatus ss id st).map PStep.step_id = ss.map PStep.step_id := by
  induction ss with
  | nil => rfl
  | cons x rest ih =>
    by_cases hx : x.step_id = id
    · simp [setStatus, hx] at ih ⊢
      exact ih
    · simp [setStatus, hx] at ih ⊢
      exact ih

theorem eq_of_nodup_ids (ss : List PStep)
    (hnd : (ss.map PStep.step_id).Nodup) (a b : PStep)
    (ha : a ∈ ss) (hb : b ∈ ss) (hid : a.step_id = b.step_id) : a = b := by
  induction ss with
  | nil => simp at ha
  | cons x rest ih =>
    simp only [List.map_cons, List.nodup_cons] at hnd
    rcases List.mem_cons.mp ha with ha1 | ha2 <;>
      rcases List.mem_cons.mp hb with hb1 | hb2
    · rw [ha1, hb1]
    · exfalso
      apply hnd.1
      rw [← ha1, hid]
      exact List.mem_map_of_mem _ hb2
    · exfalso
      apply hnd.1
      rw [← hb1, ← hid]
      exact List.mem_map_of_mem _ ha2
    · exact ih hnd.2 ha2 hb2

theorem mem_setStatus_image (ss : List PStep) (id : Str) (st : Str)
    (s0 : PStep) (h : s0 ∈ ss) :
    ∃ s1 ∈ setStatus ss id st, s1.step_id = s0.step_id ∧
      s1.depends_on = s0.depends_on := by
  refine ⟨if s0.step_id = id then { s0 with status := st } else s0,
    mem_setStatus_of_mem ss id st s0 h, ?_⟩
  by_cases hi : s0.step_id = id <;> simp [hi]

theorem execLoop_deps (exec : Str → Bool) (stop : Bool) :
    ∀ fuel ss, (ss.map PStep.step_id).Nodup →
    ∀ pre id ok post,
    (execLoop exec stop fuel ss).2 = pre ++ (id, ok) :: post →
    ∀ s0 ∈ ss, s0.step_id = id →
    ∀ d ∈ s0.depends_on,
      (∃ t ∈ ss, t.step_id = d ∧ t.status = str "completed") ∨
      (d, true) ∈ pre := by
  intro fuel
  induction fuel with
  | zero =>
    intro ss hnd pre id ok post h
    exact absurd h (by simp [execLoop])
  | succ fuel ih =>
    intro ss hnd pre id ok post h s0 hs0 hid d hd
    cases hps : pendingSteps ss with
    | nil =>
      rw [show (execLoop exec stop (fuel + 1) ss).2 = [] by
        simp [execLoop, hps]] at h
      exact absurd h (by simp)
    | cons s rest =>
      have hsel := mem_pendingSteps ss s (by rw [hps]; simp)
      have hnd1 : ∀ st, ((setStatus ss s.step_id st).map PStep.step_id).Nodup := by
        intro st
        rw [setStatus_ids]
        exact hnd
      cases hok : exec s.step_id with
      | true =>
        have hres : (execLoop exec stop (fuel + 1) ss).2 =
            (s.step_id, true) ::
            (execLoop exec stop fuel (setStatus ss s.step_id (str "completed"))).2 := by
          simp [execLoop, hps, hok]
        rw [hres] at h
        cases pre with
        | nil =>
          simp only [List.nil_append, List.cons.injEq] at h
          have hids : s0.step_id = s.step_id := by
            rw [hid, ← (Prod.mk.injEq _ _ _ _).mp h.1 |>.1]
          have hs0s : s0 = s := eq_of_nodup_ids ss hnd s0 s hs0 hsel.1 hids
          left
          rw [hs0s] at hd
          exact hsel.2.2 d hd
        | cons x pre2 =>
          simp only [List.cons_append, List.cons.injEq] at h
          obtain ⟨s1, hs1, hs1id, hs1dep⟩ :=
            mem_setStatus_image ss s.step_id (str "completed") s0 hs0
          have hrec := ih _ (hnd1 _) pre2 id ok post h.2 s1 hs1
            (by rw [hs1id]; exact hid) d (by rw [hs1dep]; exact hd)
          rcases hrec with ⟨t, ht, htid, hts⟩ | hpre
          · rcases mem_setStatus_completed ss s.step_id (str "completed")
              t ht hts with ⟨htss, htc⟩ | ⟨htid2, -⟩
            · exact Or.inl ⟨t, htss, htid, htc⟩
            · right
              rw [← h.1]
              rw [show d = s.step_id by rw [← htid, htid2]]
              exact List.mem_cons_self _ _
          · right
            exact List.mem_cons_of_mem _ hpre
      | false =>
        cases hstop : stop with
        | true =>
          have hres : (execLoop exec true (fuel + 1) ss).2 =
              [(s.step_id, false)] := by
            simp [execLoop, hps, hok]
          rw [hstop] at h
          rw [hres] at h
          cases pre with
          | nil =>
            simp only [List.nil_append, List.cons.injEq] at h
            have hids : s0.step_id = s.step_id := by
              rw [hid, ← (Prod.mk.injEq _ _ _ _).mp h.1 |>.1]
            have hs0s : s0 = s := eq_of_nodup_ids ss hnd s0 s hs0 hsel.1 hids
            left
            rw [hs0s] at hd
            exact hsel.2.2 d hd
          | cons x pre2 =>
            simp only [List.cons_append, List.cons.injEq] at h
            exact absurd h.2 (by simp)
        | false =>
          rw [hstop] at ih h
          have hres : (execLoop exec false (fuel + 1) ss).2 =
              (s.step_id, false) ::
              (execLoop exec false fuel (setStatus ss s.step_id (str "failed"))).2 := by
            simp [execLoop, hps, hok]
          rw [hres] at h
          cases pre with
          | nil =>
            simp only [List.nil_append, List.cons.injEq] at h
            have hids : s0.step_id = s.step_id := by
              rw [hid, ← (Prod.mk.injEq _ _ _ _).mp h.1 |>.1]
            have hs0s : s0 = s := eq_of_nodup_ids ss hnd s0 s hs0 hsel.1 hids
            left
            rw [hs0s] at hd
            exact hsel.2.2 d hd
          | cons x pre2 =>
            simp only [List.cons_append, List.cons.injEq] at h
            obtain ⟨s1, hs1, hs1id, hs1dep⟩ :=
              mem_setStatus_image ss s.step_id (str "failed") s0 hs0
            have hrec := ih _ (hnd1 _) pre2 id ok post h.2 s1 hs1
              (by rw [hs1id]; exact hid) d (by rw [hs1dep]; exact hd)
            rcases hrec with ⟨t, ht, htid, hts⟩ | hpre
            · rcases mem_setStatus_completed ss s.step_id (str "failed")
                t ht hts with ⟨htss, htc⟩ | ⟨-, habs⟩
              · exact Or.inl ⟨t, htss, htid, htc⟩
              · exact absurd habs (by decide)
            · right
              exact List.mem_cons_of_mem _ hpre

theorem execLoop_stop_failure_last (exec : Str → Bool) :
    ∀ fuel ss pre d post,
    (execLoop exec true fuel ss).2 = pre ++ (d, false) :: post → post = [] := by
  intro fuel
  induction fuel with
  | zero =>
    intro ss pre d post h
    exact absurd h (by simp [execLoop])
  | succ fuel ih =>
    intro ss pre d post h
    cases hps : pendingSteps ss with
    | nil =>
      rw [show (execLoop exec true (fuel + 1) ss).2 = [] by
        simp [execLoop, hps]] at h
      exact absurd h (by simp)
    | cons s rest =>
      cases hok : exec s.step_id with
      | true =>
        rw [show (execLoop exec true (fuel + 1) ss).2 = (s.step_id, true) ::
            (execLoop exec true fuel (setStatus ss s.step_id (str "completed"))).2 by
          simp [execLoop, hps, hok]] at h
        cases pre with
        | nil =>
          simp only [List.nil_append, List.cons.injEq, Prod.mk.injEq] at h
          exact absurd h.1.2 (by simp)
        | cons x pre2 =>
          simp only [List.cons_append, List.cons.injEq] at h
          exact ih _ pre2 d post h.2
      | false =>
        rw [show (execLoop exec true (fuel + 1) ss).2 = [(s.step_id, false)] by
          simp [execLoop, hps, hok]] at h
        cases pre with
        | nil =>
          simp only [List.nil_append, List.cons.injEq] at h
          exact h.2.symm
        | cons x pre2 =>
          simp only [List.cons_append, List.cons.injEq] at h
          exact absurd h.2 (by simp)

theorem execLoop_stop_skips (exec : Str → Bool) :
    ∀ fuel ss,
    (∃ q ∈ (execLoop exec true fuel ss).2, q.2 = false) →
    ∀ t ∈ (execLoop exec true fuel ss).1, ¬ t.status = str "pending" := by
  intro fuel
  induction fuel with
  | zero =>
    intro ss hex
    obtain ⟨q, hq, -⟩ := hex
    exact absurd hq (by simp [execLoop])
  | succ fuel ih =>
    intro ss hex t ht
    cases hps : pendingSteps ss with
    | nil =>
      obtain ⟨q, hq, -⟩ := hex
      rw [show (execLoop exec true (fuel + 1) ss).2 = [] by
        simp [execLoop, hps]] at hq
      exact absurd hq (by simp)
    | cons s rest =>
      cases hok : exec s.step_id with
      | true =>
        have hres2 : (execLoop exec true (fuel + 1) ss).2 = (s.step_id, true) ::
            (execLoop exec true fuel (setStatus ss s.step_id (str "completed"))).2 := by
          simp [execLoop, hps, hok]
        have hres1 : (execLoop exec true (fuel + 1) ss).1 =
            (execLoop exec true fuel (setStatus ss s.step_id (str "completed"))).1 := by
          simp [execLoop, hps, hok]
        obtain ⟨q, hq, hqf⟩ := hex
        rw [hres2] at hq
        rcases List.mem_cons.mp hq with hq1 | hq2
        · rw [hq1] at hqf
          exact absurd hqf (by simp)
        · rw [hres1] at ht
          exact ih _ ⟨q, hq2, hqf⟩ t ht
      | false =>
        have hres1 : (execLoop exec true (fuel + 1) ss).1 =
            skipPending (setStatus ss s.step_id (str "failed")) := by
          simp [execLoop, hps, hok]
        rw [hres1] at ht
        exact skipPending_no_pending _ t ht

/-- C9: during `execute_plan`, a step is selected for execution only if its
status is pending — and, when step ids are unique, only when every
dependency either was already completed or was executed successfully earlier
in the run; moreover with `stop_on_failure` a failed step is the last entry
of `step_results` and the final plan retains no pending step (they are all
skipped). -/
theorem C9_executor (exec : Str → Bool) (stop : Bool) (ss : List PStep)
    (hnd : (ss.map PStep.step_id).Nodup) :
    (∀ q ∈ (execute_plan exec stop ss).2,
      ∃ s ∈ ss, s.step_id = q.1 ∧ s.status = str "pending") ∧
    (∀ pre id ok post,
      (execute_plan exec stop ss).2 = pre ++ (id, ok) :: post →
      ∀ s0 ∈ ss, s0.step_id = id →
      ∀ d ∈ s0.depends_on,
        (∃ t ∈ ss, t.step_id = d ∧ t.status = str "completed") ∨
        (d, true) ∈ pre) ∧
    (stop = true → ∀ pre d post,
      (execute_plan exec stop ss).2 = pre ++ (d, false) :: post → post = []) ∧
    (stop = true →
      (∃ q ∈ (execute_plan exec stop ss).2, q.2 = false) →
      ∀ t ∈ (execute_plan exec stop ss).1, ¬ t.status = str "pending") := by
  refine ⟨execLoop_executed_pending exec stop ss.length ss, ?_, ?_, ?_⟩
  · intro pre id ok post h
    exact execLoop_deps exec stop ss.length ss hnd pre id ok post h
  · intro hstop pre d post h
    rw [hstop] at h
    exact execLoop_stop_failure_last exec ss.length ss pre d post h
  · intro hstop hex
    rw [hstop] at hex ⊢
    exact execLoop_stop_skips exec ss.length ss hex

/-- The concrete three-step plan of the C9 instance: `s2` depends on `s1`,
`s3` depends on `s2`. -/
def c9Steps : List PStep :=
  [⟨str "s1", [], str "pending"⟩,
   ⟨str "s2", [str "s1"], str "pending"⟩,
   ⟨str "s3", [str "s2"], str "pending"⟩]

/-- A step executor that fails exactly on `s2`. -/
def c9Exec : Str → Bool := fun id => ¬ id = str "s2"

/-- C9 witness: on the concrete plan, `s1` runs first, `s2` fails, the run
stops, and `s3` is skipped — the failure is last, the final plan has no
pending step, and `s2`'s dependency was executed successfully before it. -/
theorem C9_executor_witness :
    (execute_plan c9Exec true c9Steps).2 =
      [(str "s1", true), (str "s2", false)] ∧
    (∀ t ∈ (execute_plan c9Exec true c9Steps).1, ¬ t.status = str "pending") ∧
    (∃ s ∈ c9Steps, s.step_id = str "s1" ∧ s.status = str "pending") ∧
    ((∃ t ∈ c9Steps, t.step_id = str "s1" ∧ t.status = str "completed") ∨
      (str "s1", true) ∈ [(str "s1", true)]) ∧
    ([] : List (Str × Bool)) = [] := by
  have h := C9_executor c9Exec true c9Steps (by decide)
  have hres : (execute_plan c9Exec true c9Steps).2 =
      [(str "s1", true), (str "s2", false)] := by decide
  refine ⟨hres, ?_, ?_, ?_, ?_⟩
  · exact h.2.2.2 rfl ⟨(str "s2", false), by rw [hres]; simp, rfl⟩
  · exact h.1 (str "s1", true) (by rw [hres]; simp)
  · exact h.2.1 [(str "s1", true)] (str "s2") false []
      (by rw [hres]; rfl) (c9Steps.get ⟨1, by decide⟩) (by decide) (by decide)
      (str "s1") (by decide)
  · exact h.2.2.1 rfl [(str "s1", true)] (str "s2") [] (by rw [hres]; rfl)

/-! ## Thompson selection (`upstream_learner/bandit.py`)

`thompson_select` seeds `random.Random(seed)` and draws one Gaussian sample
per candidate in order.  The Mersenne-Twister stream and the transcendental
float arithmetic of `gauss` are not exactly representable, so the line
`rng.gauss(mu, 1.0 / math.sqrt(max(1, n)))` is abstracted as a deterministic
sampler `G seed i mu n` — a pure function of the seed, the draw index and
the arm statistics (mean 0 and count 0 for unknown arms), with values in
`ℚ`.  Determinism of the selection in the seed is then definitional; the
argmax structure, the draw order and the unknown-arm defaults are proved. -/

/-- `ArmStats`. -/
structure ArmStats where
  arm_key : Str
  n : Int
  mean : ℚ
  variance : ℚ := 1

/-- The dict comprehension `{s.arm_key: s for s in stats}`: the last binding
of a key wins. -/
def statsFor (stats : List ArmStats) (k : Str) : Option ArmStats :=
  stats.reverse.find? (fun s => s.arm_key = k)

/-- The mean used for a candidate (0 for unknown arms). -/
def armMu (stats : List ArmStats) (k : Str) : ℚ :=
  match statsFor stats k with
  | none => 0
  | some s => s.mean

/-- The count used for a candidate (0 for unknown arms). -/
def armN (stats : List ArmStats) (k : Str) : Int :=
  match statsFor stats k with
  | none => 0
  | some s => s.n

/-- The abstracted Gaussian sampler type: seed, draw index, mean, count. -/
abbrev Sampler := Nat → Nat → ℚ → Int → ℚ

/-- The sample drawn for candidate `k` at draw index `i`. -/
def sampleAt (G : Sampler) (stats : List ArmStats) (seed i : Nat) (k : Str) : ℚ :=
  G seed i (armMu stats k) (armN stats k)

/-- The selection loop of `thompson_select`: running best key and best
sample, the latter starting at `-inf` (represented as `none`, smaller than
every sample). -/
def thompsonAux (G : Sampler) (stats : List ArmStats) (seed : Nat) :
    List Str → Nat → Option Str → Option ℚ → Option Str
  | [], _, bestK, _ => bestK
  | k :: ks, i, bestK, bestS =>
    let sample := sampleAt G stats seed i k
    if (match bestS with | none => true | some b => sample > b) then
      thompsonAux G stats seed ks (i + 1) (some k) (some sample)
    else
      thompsonAux G stats seed ks (i + 1) bestK bestS

/-- `thompson_select(candidates, stats, seed=seed)`; `none` models the
`assert best_key is not None` failure on an empty candidate list. -/
def thompson_select (G : Sampler) (candidates : List Str)
    (stats : List ArmStats) (seed : Nat) : Option Str :=
  thompsonAux G stats seed candidates 0 none none

theorem thompsonAux_spec (G : Sampler) (stats : List ArmStats) (seed : Nat) :
    ∀ ks i0 k0 b,
    (thompsonAux G stats seed ks i0 (some k0) (some b) = some k0 ∧
      ∀ i (hi : i < ks.length),
        sampleAt G stats seed (i0 + i) (ks.get ⟨i, hi⟩) ≤ b) ∨
    (∃ j, ∃ hj : j < ks.length,
      thompsonAux G stats seed ks i0 (some k0) (some b) =
        some (ks.get ⟨j, hj⟩) ∧
      b < sampleAt G stats seed (i0 + j) (ks.get ⟨j, hj⟩) ∧
      (∀ i (hi : i < ks.length),
        sampleAt G stats seed (i0 + i) (ks.get ⟨i, hi⟩) ≤
          sampleAt G stats seed (i0 + j) (ks.get ⟨j, hj⟩)) ∧
      (∀ i (hi : i < j),
        sampleAt G stats seed (i0 + i) (ks.get ⟨i, Nat.lt_trans hi hj⟩) <
          sampleAt G stats seed (i0 + j) (ks.get ⟨j, hj⟩))) := by
  intro ks
  induction ks with
  | nil =>
    intro i0 k0 b
    left
    exact ⟨rfl, fun i hi => absurd hi (by simp)⟩
  | cons k ks2 ih =>
    intro i0 k0 b
    have hget0 : (k :: ks2).get ⟨0, Nat.succ_pos _⟩ = k := rfl
    have hgetS : ∀ (i2 : Nat) (h2 : i2 < ks2.length),
        (k :: ks2).get ⟨i2 + 1, Nat.succ_lt_succ h2⟩ = ks2.get ⟨i2, h2⟩ :=
      fun i2 h2 => rfl
    have hidx : ∀ i2 : Nat, i0 + (i2 + 1) = i0 + 1 + i2 := fun i2 => by omega
    by_cases hx : sampleAt G stats seed i0 k > b
    · have hstep : thompsonAux G stats seed (k :: ks2) i0 (some k0) (some b) =
          thompsonAux G stats seed ks2 (i0 + 1) (some k)
            (some (sampleAt G stats seed i0 k)) := by
        simp [thompsonAux, hx]
      rcases ih (i0 + 1) k (sampleAt G stats seed i0 k) with ⟨hres, hbound⟩ |
        ⟨j, hj, hres, hgt, hle, hlt⟩
      · right
        refine ⟨0, Nat.succ_pos _, by rw [hstep, hres]; rfl, ?_, ?_, ?_⟩
        · rw [hget0]
          simpa using hx
        · intro i hi
          rw [hget0]
          simp only [Nat.add_zero]
          cases i with
          | zero => exact le_refl _
          | succ i2 =>
            have h2 : i2 < ks2.length := Nat.lt_of_succ_lt_succ hi
            rw [hgetS i2 h2, hidx i2]
            exact hbound i2 h2
        · intro i hi
          exact absurd hi (Nat.not_lt_zero i)
      · right
        refine ⟨j + 1, Nat.succ_lt_succ hj, ?_, ?_, ?_, ?_⟩
        · rw [hstep, hres, hgetS j hj]
        · rw [hgetS j hj, hidx j]
          exact lt_trans hx hgt
        · intro i hi
          rw [hgetS j hj, hidx j]
          cases i with
          | zero =>
            rw [hget0]
            simp only [Nat.add_zero]
            exact le_of_lt hgt
          | succ i2 =>
            have h2 : i2 < ks2.length := Nat.lt_of_succ_lt_succ hi
            rw [hgetS i2 h2, hidx i2]
            exact hle i2 h2
        · intro i hi
          rw [hgetS j hj, hidx j]
          cases i with
          | zero =>
            rw [show ((k :: ks2).get ⟨0, Nat.lt_trans hi (Nat.succ_lt_succ hj)⟩) = k
              from rfl]
            simp only [Nat.add_zero]
            exact hgt
          | succ i2 =>
            have h2 : i2 < j := Nat.lt_of_succ_lt_succ hi
            rw [show ((k :: ks2).get ⟨i2 + 1, _⟩) = ks2.get
              ⟨i2, Nat.lt_trans h2 hj⟩ from rfl, hidx i2]
            exact hlt i2 h2
    · have hstep : thompsonAux G stats seed (k :: ks2) i0 (some k0) (some b) =
          thompsonAux G stats seed ks2 (i0 + 1) (some k0) (some b) := by
        simp [thompsonAux, hx]
      rcases ih (i0 + 1) k0 b with ⟨hres, hbound⟩ | ⟨j, hj, hres, hgt, hle, hlt⟩
      · left
        refine ⟨by rw [hstep, hres], ?_⟩
        intro i hi
        cases i with
        | zero =>
          rw [hget0]
          simp only [Nat.add_zero]
          exact le_of_not_lt hx
        | succ i2 =>
          have h2 : i2 < ks2.length := Nat.lt_of_succ_lt_succ hi
          rw [hgetS i2 h2, hidx i2]
          exact hbound i2 h2
      · right
        refine ⟨j + 1, Nat.succ_lt_succ hj, ?_, ?_, ?_, ?_⟩
        · rw [hstep, hres, hgetS j hj]
        · rw [hgetS j hj, hidx j]
          exact hgt
        · intro i hi
          rw [hgetS j hj, hidx j]
          cases i with
          | zero =>
            rw [hget0]
            simp only [Nat.add_zero]
            exact le_of_lt (lt_of_le_of_lt (le_of_not_lt hx) hgt)
          | succ i2 =>
            have h2 : i2 < ks2.length := Nat.lt_of_succ_lt_succ hi
            rw [hgetS i2 h2, hidx i2]
            exact hle i2 h2
        · intro i hi
          rw [hgetS j hj, hidx j]
          cases i with
          | zero =>
            rw [show ((k :: ks2).get ⟨0, Nat.lt_trans hi (Nat.succ_lt_succ hj)⟩) = k
              from rfl]
            simp only [Nat.add_zero]
            exact lt_of_le_of_lt (le_of_not_lt hx) hgt
          | succ i2 =>
            have h2 : i2 < j := Nat.lt_of_succ_lt_succ hi
            rw [show ((k :: ks2).get ⟨i2 + 1, _⟩) = ks2.get
              ⟨i2, Nat.lt_trans h2 hj⟩ from rfl, hidx i2]
            exact hlt i2 h2

/-- A concrete sampler whose argmax moves with the seed. -/
def seedSwitchSampler : Sampler := fun seed i _ _ =>
  if seed = 0 then (if i = 0 then 1 else 0) else (if i = 1 then 1 else 0)

/-- C7: `thompson_select` never returns on an empty candidate list (the
assertion fires); on a non-empty list it returns the candidate whose sample
— one draw per candidate in order, with mean 0 and count 0 for candidates
without recorded stats — is maximal (the first such on ties); for fixed
inputs two calls return the same arm, while different seeds may return
different arms. -/
theorem C7_thompson_select (G : Sampler) (cs : List Str)
    (stats : List ArmStats) (seed : Nat) :
    (cs = [] → thompson_select G cs stats seed = none) ∧
    (cs ≠ [] → ∃ j, ∃ hj : j < cs.length,
      thompson_select G cs stats seed = some (cs.get ⟨j, hj⟩) ∧
      (∀ i (hi : i < cs.length),
        sampleAt G stats seed i (cs.get ⟨i, hi⟩) ≤
          sampleAt G stats seed j (cs.get ⟨j, hj⟩)) ∧
      (∀ i (hi : i < j),
        sampleAt G stats seed i (cs.get ⟨i, Nat.lt_trans hi hj⟩) <
          sampleAt G stats seed j (cs.get ⟨j, hj⟩))) ∧
    (∀ k, statsFor stats k = none → armMu stats k = 0 ∧ armN stats k = 0) ∧
    (∀ seed2, seed = seed2 →
      thompson_select G cs stats seed = thompson_select G cs stats seed2) ∧
    (∃ s1 s2 : Nat, s1 ≠ s2 ∧
      thompson_select seedSwitchSampler [str "a", str "b"] [] s1 ≠
      thompson_select seedSwitchSampler [str "a", str "b"] [] s2) := by
  refine ⟨?_, ?_, ?_, ?_, ?_⟩
  · intro h
    rw [h]
    rfl
  · intro h
    cases cs with
    | nil => exact absurd rfl h
    | cons k ks2 =>
      have hget0 : (k :: ks2).get ⟨0, Nat.succ_pos _⟩ = k := rfl
      have hgetS : ∀ (i2 : Nat) (h2 : i2 < ks2.length),
          (k :: ks2).get ⟨i2 + 1, Nat.succ_lt_succ h2⟩ = ks2.get ⟨i2, h2⟩ :=
        fun i2 h2 => rfl
      have hstep : thompson_select G (k :: ks2) stats seed =
          thompsonAux G stats seed ks2 1 (some k)
            (some (sampleAt G stats seed 0 k)) := by
        simp [thompson_select, thompsonAux]
      rcases thompsonAux_spec G stats seed ks2 1 k (sampleAt G stats seed 0 k)
        with ⟨hres, hbound⟩ | ⟨j, hj, hres, hgt, hle, hlt⟩
      · refine ⟨0, Nat.succ_pos _, by rw [hstep, hres]; rfl, ?_, ?_⟩
        · intro i hi
          rw [hget0]
          cases i with
          | zero => exact le_refl _
          | succ i2 =>
            have h2 : i2 < ks2.length := Nat.lt_of_succ_lt_succ hi
            rw [hgetS i2 h2, show i2 + 1 = 1 + i2 by omega]
            exact hbound i2 h2
        · intro i hi
          exact absurd hi (Nat.not_lt_zero i)
      · refine ⟨j + 1, Nat.succ_lt_succ hj, ?_, ?_, ?_⟩
        · rw [hstep, hres, hgetS j hj]
        · intro i hi
          rw [hgetS j hj, show j + 1 = 1 + j by omega]
          cases i with
          | zero =>
            rw [hget0]
            exact le_of_lt hgt
          | succ i2 =>
            have h2 : i2 < ks2.length := Nat.lt_of_succ_lt_succ hi
            rw [hgetS i2 h2, show i2 + 1 = 1 + i2 by omega]
            exact hle i2 h2
        · intro i hi
          have hR : sampleAt G stats seed (j + 1) (ks2.get ⟨j, hj⟩) =
              sampleAt G stats seed (1 + j) (ks2.get ⟨j, hj⟩) := by
            rw [Nat.add_comm]
          rw [hgetS j hj, hR]
          cases i with
          | zero =>
            rw [show ((k :: ks2).get ⟨0, Nat.lt_trans hi
              (Nat.succ_lt_succ hj)⟩) = k from rfl]
            exact hgt
          | succ i2 =>
            have h2 : i2 < j := Nat.lt_of_succ_lt_succ hi
            rw [show ((k :: ks2).get ⟨i2 + 1, _⟩) = ks2.get
              ⟨i2, Nat.lt_trans h2 hj⟩ from rfl]
            have hL : sampleAt G stats seed (i2 + 1)
                (ks2.get ⟨i2, Nat.lt_trans h2 hj⟩) =
                sampleAt G stats seed (1 + i2)
                (ks2.get ⟨i2, Nat.lt_trans h2 hj⟩) := by
              rw [Nat.add_comm]
            rw [hL]
            exact hlt i2 h2
  · intro k hk
    constructor
    · simp [armMu, hk]
    · simp [armN, hk]
  · intro seed2 h
    rw [h]
  · exact ⟨0, 1, by decide, by decide⟩

/-- C7 witness: on candidates `[a, b, c]` with empty stats and a constant
sampler, the selection returns the first candidate (first maximum on ties),
and the two concrete seeds of `seedSwitchSampler` produce different arms. -/
theorem C7_thompson_select_witness :
    thompson_select (fun _ _ mu _ => mu) [str "a", str "b", str "c"] [] 42 =
      some (str "a") ∧
    thompson_select seedSwitchSampler [str "a", str "b"] [] 0 = some (str "a") ∧
    thompson_select seedSwitchSampler [str "a", str "b"] [] 1 = some (str "b") ∧
    ([str "a", str "b", str "c"] ≠ ([] : List Str)) := by
  have h := C7_thompson_select (fun _ _ mu _ => mu) [str "a", str "b", str "c"]
    [] 42
  obtain ⟨j, hj, hres, hle, hlt⟩ := h.2.1 (by decide)
  have hj0 : j = 0 := by
    by_contra hne
    have hj1 : 0 < j := Nat.pos_of_ne_zero hne
    have := hlt 0 hj1
    simp [sampleAt, armMu, armN, statsFor] at this
  subst hj0
  exact ⟨by rw [hres]; rfl, by decide, by decide, by decide⟩


/-! ## Canonical JSON round trip (C6)

`canonical_json` claims `canonical(v) == canonical(deserialize(canonical(v)))`.
The serializer above is translated from `rfsn/crypto.py`; the deserializer
below models `json.loads`. -/

/-- JSON whitespace accepted between tokens (space, tab, newline, carriage
return). -/
def isWs (c : Char) : Bool :=
  c = ' ' || c = Char.ofNat 9 || c = Char.ofNat 10 || c = Char.ofNat 13

/-- Drop leading JSON whitespace. -/
def skipWs : Str → Str
  | [] => []
  | c :: r => if isWs c then skipWs r else c :: r

/-- ASCII decimal digit test. -/
def isDigitC (c : Char) : Bool := 48 ≤ c.toNat && c.toNat ≤ 57

/-- Split a string into its leading run of decimal digits and the remainder. -/
def spanDigits (s : Str) : Str × Str := (s.takeWhile isDigitC, s.dropWhile isDigitC)

/-- Value of a digit string, most significant first. -/
def digitsVal (ds : Str) : Nat := ds.foldl (fun a c => a * 10 + (c.toNat - 48)) 0

/-- Value of one hexadecimal digit, upper or lower case. -/
def hexVal (c : Char) : Option Nat :=
  let n := c.toNat
  if 48 ≤ n && n ≤ 57 then some (n - 48)
  else if 97 ≤ n && n ≤ 102 then some (n - 87)
  else if 65 ≤ n && n ≤ 70 then some (n - 55)
  else none

/-- Decode a one-character JSON string escape. -/
def escDecode (e : Char) : Option Char :=
  if e = Char.ofNat 34 then some (Char.ofNat 34)
  else if e = '\\' then some '\\'
  else if e = '/' then some '/'
  else if e = 'b' then some (Char.ofNat 8)
  else if e = 'f' then some (Char.ofNat 12)
  else if e = 'n' then some (Char.ofNat 10)
  else if e = 'r' then some (Char.ofNat 13)
  else if e = 't' then some (Char.ofNat 9)
  else none

/-- Parse the body of a JSON string literal after the opening quote, decoding
escapes, up to the closing quote; returns the decoded string and the rest. -/
def parseStrBody : Str → Option (Str × Str)
  | [] => none
  | c :: r =>
    if c = Char.ofNat 34 then some ([], r)
    else if c = '\\' then
      match r with
      | [] => none
      | e :: r2 =>
        if e = 'u' then
          match r2 with
          | h1 :: h2 :: h3 :: h4 :: r3 =>
            match hexVal h1, hexVal h2, hexVal h3, hexVal h4 with
            | some a, some b, some c2, some d2 =>
              (parseStrBody r3).map (fun p =>
                (Char.ofNat (((a * 16 + b) * 16 + c2) * 16 + d2) :: p.1, p.2))
            | _, _, _, _ => none
          | _ => none
        else
          match escDecode e with
          | some d => (parseStrBody r2).map (fun p => (d :: p.1, p.2))
          | none => none
    else if 32 ≤ c.toNat then (parseStrBody r).map (fun p => (c :: p.1, p.2))
    else none
termination_by structural s => s

mutual
/-- Modelled from the spec: the spec requires
`canonical(v) == canonical(deserialize(canonical(v)))` but no deserializer
exists under `src/` (`replay.py` and `ledger.py` call the standard
`json.loads`); this is a recursive-descent JSON value parser following the
JSON grammar as `json.loads` implements it, returning the parsed value and
the unconsumed rest.  The fuel bounds recursion depth; `loads` supplies
enough for any input. -/
def parseVal : Nat → Str → Option (J × Str)
  | 0, _ => none
  | fuel + 1, s =>
    match skipWs s with
    | [] => none
    | c :: r =>
      if c = 'n' then
        match r with
        | 'u' :: 'l' :: 'l' :: r2 => some (J.jnull, r2)
        | _ => none
      else if c = 't' then
        match r with
        | 'r' :: 'u' :: 'e' :: r2 => some (J.jbool true, r2)
        | _ => none
      else if c = 'f' then
        match r with
        | 'a' :: 'l' :: 's' :: 'e' :: r2 => some (J.jbool false, r2)
        | _ => none
      else if c = Char.ofNat 34 then
        match parseStrBody r with
        | some (cs, r2) => some (J.jstr cs, r2)
        | none => none
      else if c = '[' then
        match skipWs r with
        | [] => none
        | d :: r2 =>
          if d = ']' then some (J.jarr [], r2)
          else
            match parseElems fuel r with
            | some (vs, r3) => some (J.jarr vs, r3)
            | none => none
      else if c = Char.ofNat 123 then
        match skipWs r with
        | [] => none
        | d :: r2 =>
          if d = Char.ofNat 125 then some (J.jobj [], r2)
          else
            match parseMembers fuel r with
            | some (kvs, r3) => some (J.jobj kvs, r3)
            | none => none
      else if c = '-' then
        match spanDigits r with
        | ([], _) => none
        | (d :: ds, r2) => some (J.jint (-(Int.ofNat (digitsVal (d :: ds)))), r2)
      else if isDigitC c then
        some (J.jint (Int.ofNat (digitsVal (c :: (spanDigits r).1))), (spanDigits r).2)
      else none
termination_by structural fuel _ => fuel

/-- Parse the comma-separated elements of a nonempty JSON array up to and
including the closing bracket. -/
def parseElems : Nat → Str → Option (List J × Str)
  | 0, _ => none
  | fuel + 1, s =>
    match parseVal fuel s with
    | none => none
    | some (v, r) =>
      match skipWs r with
      | [] => none
      | d :: r2 =>
        if d = ',' then
          match parseElems fuel r2 with
          | some (vs, r3) => some (v :: vs, r3)
          | none => none
        else if d = ']' then some ([v], r2)
        else none
termination_by structural fuel _ => fuel

/-- Parse the comma-separated members of a nonempty JSON object up to and
including the closing brace. -/
def parseMembers : Nat → Str → Option (List (Str × J) × Str)
  | 0, _ => none
  | fuel + 1, s =>
    match skipWs s with
    | [] => none
    | c :: r =>
      if c = Char.ofNat 34 then
        match parseStrBody r with
        | none => none
        | some (k, r1) =>
          match skipWs r1 with
          | [] => none
          | d :: r2 =>
            if d = ':' then
              match parseVal fuel r2 with
              | none => none
              | some (v, r3) =>
                match skipWs r3 with
                | [] => none
                | e2 :: r4 =>
                  if e2 = ',' then
                    match parseMembers fuel r4 with
                    | some (kvs, r5) => some ((k, v) :: kvs, r5)
                    | none => none
                  else if e2 = Char.ofNat 125 then some ([(k, v)], r4)
                  else none
            else none
      else none
termination_by structural fuel _ => fuel
end

mutual
/-- The Python value `json.loads` builds from a parsed JSON value: arrays
become lists, objects become dicts. -/
def jToPy : J → PyVal
  | J.jnull => PyVal.pnone
  | J.jbool b => PyVal.pbool b
  | J.jint n => PyVal.pint n
  | J.jstr s => PyVal.pstr s
  | J.jarr xs => PyVal.plist (jListToPy xs)
  | J.jobj kvs => PyVal.pdict (jKvsToPy kvs)
termination_by structural j => j

/-- Elementwise `jToPy` on array elements. -/
def jListToPy : List J → List PyVal
  | [] => []
  | x :: xs => jToPy x :: jListToPy xs
termination_by structural l => l

/-- Entrywise `jToPy` on object members. -/
def jKvsToPy : List (Str × J) → List (Str × PyVal)
  | [] => []
  | (k, v) :: kvs => (k, jToPy v) :: jKvsToPy kvs
termination_by structural l => l
end

/-- Modelled from the spec: `deserialize` — `json.loads` on a whole document,
requiring nothing but whitespace after the value. -/
def loads (s : Str) : Option PyVal :=
  match parseVal (s.length + 1) s with
  | some (j, r) => if skipWs r = [] then some (jToPy j) else none
  | none => none

/-- Map a function over the second components of keyed entries. -/
def mapSnd {α β γ : Type} (f : β → γ) : List (α × β) → List (α × γ) :=
  List.map (fun p => (p.1, f p.2))

mutual
/-- Key-order normal form of a JSON value: object members sorted by key at
every level.  Parsing a canonically serialized value yields exactly this
normal form. -/
def normJ : J → J
  | J.jnull => J.jnull
  | J.jbool b => J.jbool b
  | J.jint n => J.jint n
  | J.jstr s => J.jstr s
  | J.jarr xs => J.jarr (normL xs)
  | J.jobj kvs => J.jobj (sortKvs (normKVs kvs))
termination_by structural j => j

/-- Elementwise normalization. -/
def normL : List J → List J
  | [] => []
  | x :: xs => normJ x :: normL xs
termination_by structural l => l

/-- Entrywise normalization of object members (before sorting). -/
def normKVs : List (Str × J) → List (Str × J)
  | [] => []
  | (k, v) :: kvs => (k, normJ v) :: normKVs kvs
termination_by structural l => l
end

mutual
/-- Recursion depth measure of a JSON value, used to bound parser fuel. -/
def sizeJ : J → Nat
  | J.jnull => 1
  | J.jbool _ => 1
  | J.jint _ => 1
  | J.jstr _ => 1
  | J.jarr xs => 1 + sizeL xs
  | J.jobj kvs => 1 + sizeKV kvs
termination_by structural j => j

/-- Measure of an element list. -/
def sizeL : List J → Nat
  | [] => 0
  | x :: xs => 1 + sizeJ x + sizeL xs
termination_by structural l => l

/-- Measure of a member list. -/
def sizeKV : List (Str × J) → Nat
  | [] => 0
  | (_, v) :: kvs => 1 + sizeJ v + sizeKV kvs
termination_by structural l => l
end

/-- String membership in a list of strings. -/
def memStr (k : Str) : List Str → Bool
  | [] => false
  | t :: ts => if k = t then true else memStr k ts

/-- No string occurs twice. -/
def nodupKeys : List Str → Bool
  | [] => true
  | k :: ks => !(memStr k ks) && nodupKeys ks

mutual
/-- Well-formedness of a Python value as `canonical_json` receives it: every
dict has distinct keys (guaranteed by Python's `dict`). -/
def pyWF : PyVal → Bool
  | PyVal.pnone => true
  | PyVal.pbool _ => true
  | PyVal.pint _ => true
  | PyVal.pstr _ => true
  | PyVal.plist xs => pyWFL xs
  | PyVal.ptuple xs => pyWFL xs
  | PyVal.pdict kvs => nodupKeys (kvs.map Prod.fst) && pyWFKvs kvs
  | PyVal.pset _ => true
  | PyVal.pfrozenset _ => true
termination_by structural v => v

/-- Elementwise well-formedness. -/
def pyWFL : List PyVal → Bool
  | [] => true
  | x :: xs => pyWF x && pyWFL xs
termination_by structural l => l

/-- Entrywise well-formedness of dict values. -/
def pyWFKvs : List (Str × PyVal) → Bool
  | [] => true
  | (_, v) :: kvs => pyWF v && pyWFKvs kvs
termination_by structural l => l
end

mutual
/-- Well-formedness of a JSON value: every object has distinct keys. -/
def jWF : J → Bool
  | J.jnull => true
  | J.jbool _ => true
  | J.jint _ => true
  | J.jstr _ => true
  | J.jarr xs => jWFL xs
  | J.jobj kvs => nodupKeys (kvs.map Prod.fst) && jWFKvs kvs
termination_by structural j => j

/-- Elementwise well-formedness. -/
def jWFL : List J → Bool
  | [] => true
  | x :: xs => jWF x && jWFL xs
termination_by structural l => l

/-- Entrywise well-formedness of object values. -/
def jWFKvs : List (Str × J) → Bool
  | [] => true
  | (_, v) :: kvs => jWF v && jWFKvs kvs
termination_by structural l => l
end

/-- Keyed entries are in weakly increasing key order. -/
def pairsSorted {α : Type} : List (Str × α) → Bool
  | [] => true
  | [_] => true
  | p :: q :: l => !(lexLt q.1 p.1) && pairsSorted (q :: l)

/-- Strings are in weakly increasing order. -/
def strsSorted : List Str → Bool
  | [] => true
  | [_] => true
  | s :: t :: l => !(lexLt t s) && strsSorted (t :: l)

/-- Strict lexicographic order is asymmetric. -/
theorem lexLt_asymm : ∀ a b : Str, lexLt a b = true → lexLt b a = false
  | [], [] => by simp [lexLt]
  | [], _ :: _ => by simp [lexLt]
  | _ :: _, [] => by simp [lexLt]
  | a :: as', b :: bs' => by
    simp only [lexLt]
    intro h
    by_cases hab : a.toNat < b.toNat
    · simp [hab, Nat.lt_asymm hab, Nat.ne_of_gt hab]
    · by_cases hba : b.toNat < a.toNat
      · simp [hab, hba] at h
      · simp only [hab, if_false, hba, if_true, if_neg] at h ⊢
        exact lexLt_asymm as' bs' h

/-- Two strings neither of which precedes the other are equal. -/
theorem lexLt_conn : ∀ a b : Str, lexLt a b = false → lexLt b a = false → a = b
  | [], [] => by simp
  | [], _ :: _ => by simp [lexLt]
  | a :: as', [] => by simp [lexLt]
  | a :: as', b :: bs' => by
    simp only [lexLt]
    intro h1 h2
    by_cases hab : a.toNat < b.toNat
    · simp [hab] at h1
    · by_cases hba : b.toNat < a.toNat
      · simp [hba, Nat.lt_asymm hba] at h2
      · simp only [hab, hba, if_false, if_neg] at h1 h2
        have hn : a.toNat = b.toNat := by omega
        have ha : a = b := by
          have := Char.ofNat_toNat a
          rw [hn, Char.ofNat_toNat] at this
          exact this.symm
        rw [ha, lexLt_conn as' bs' h1 h2]

/-- Inserting into a keyed list yields a permutation of consing. -/
theorem insortKey_perm {α : Type} (p : Str × α) :
    ∀ l : List (Str × α), List.Perm (insortKey p l) (p :: l)
  | [] => List.Perm.refl _
  | q :: qs => by
    by_cases h : lexLt p.1 q.1
    · simp [insortKey, h]
    · simp only [insortKey, h, if_false, Bool.false_eq_true]
      exact ((insortKey_perm p qs).cons q).trans (List.Perm.swap p q qs)

/-- Sorting keyed entries permutes them. -/
theorem sortKvs_perm {α : Type} :
    ∀ l : List (Str × α), List.Perm (sortKvs l) l
  | [] => List.Perm.refl _
  | p :: ps => (insortKey_perm p (sortKvs ps)).trans ((sortKvs_perm ps).cons p)

/-- Membership is preserved by keyed insertion. -/
theorem mem_insortKey {α : Type} {p q : Str × α} {l : List (Str × α)} :
    q ∈ insortKey p l ↔ q = p ∨ q ∈ l := by
  rw [(insortKey_perm p l).mem_iff]; simp

/-- Membership is preserved by keyed sorting. -/
theorem mem_sortKvs {α : Type} {q : Str × α} {l : List (Str × α)} :
    q ∈ sortKvs l ↔ q ∈ l := (sortKvs_perm l).mem_iff

/-- Inserting a string yields a permutation of consing. -/
theorem insortStr_perm (s : Str) :
    ∀ l : List Str, List.Perm (insortStr s l) (s :: l)
  | [] => List.Perm.refl _
  | t :: ts => by
    by_cases h : lexLt s t
    · simp [insortStr, h]
    · simp only [insortStr, h, if_false, Bool.false_eq_true]
      exact ((insortStr_perm s ts).cons t).trans (List.Perm.swap s t ts)

/-- Sorting strings permutes them. -/
theorem sortStrs_perm : ∀ l : List Str, List.Perm (sortStrs l) l
  | [] => List.Perm.refl _
  | s :: ss => (insortStr_perm s (sortStrs ss)).trans ((sortStrs_perm ss).cons s)

/-- Membership is preserved by string sorting. -/
theorem mem_sortStrs {s : Str} {l : List Str} :
    s ∈ sortStrs l ↔ s ∈ l := (sortStrs_perm l).mem_iff

/-- Keyed insertion preserves sortedness, also below a smaller head. -/
theorem pairsSorted_insort {α : Type} (p : Str × α) :
    ∀ l : List (Str × α), pairsSorted l = true →
      pairsSorted (insortKey p l) = true ∧
      (∀ q : Str × α, lexLt p.1 q.1 = false → pairsSorted (q :: l) = true →
        pairsSorted (q :: insortKey p l) = true)
  | [], _ => by
    refine ⟨by simp [insortKey, pairsSorted], fun q hq _ => ?_⟩
    simp [insortKey, pairsSorted, hq]
  | r :: l2, h => by
    have hl2 : pairsSorted l2 = true := by
      cases l2 with
      | nil => rfl
      | cons r2 l3 => simp only [pairsSorted, Bool.and_eq_true] at h; exact h.2
    have ih := pairsSorted_insort p l2 hl2
    constructor
    · by_cases hpr : lexLt p.1 r.1
      · simp only [insortKey, hpr, if_true, pairsSorted, Bool.and_eq_true]
        exact ⟨by simp [lexLt_asymm _ _ hpr], h⟩
      · simp only [insortKey, hpr, if_false, Bool.false_eq_true]
        exact ih.2 r (by simpa using hpr) h
    · intro q hq hsq
      by_cases hpr : lexLt p.1 r.1
      · simp only [insortKey, hpr, if_true, pairsSorted, Bool.and_eq_true]
        refine ⟨by simp [hq], by simp [lexLt_asymm _ _ hpr], h⟩
      · simp only [insortKey, hpr, if_false, Bool.false_eq_true]
        have hrq : lexLt r.1 q.1 = false := by
          simp only [pairsSorted, Bool.and_eq_true] at hsq
          simpa using hsq.1
        simp only [pairsSorted, Bool.and_eq_true]
        exact ⟨by simp [hrq], ih.2 r (by simpa using hpr) h⟩

/-- Sorted output of keyed sorting. -/
theorem pairsSorted_sortKvs {α : Type} :
    ∀ l : List (Str × α), pairsSorted (sortKvs l) = true
  | [] => rfl
  | p :: ps => (pairsSorted_insort p (sortKvs ps) (pairsSorted_sortKvs ps)).1

/-- String insertion preserves sortedness, also below a smaller head. -/
theorem strsSorted_insort (p : Str) :
    ∀ l : List Str, strsSorted l = true →
      strsSorted (insortStr p l) = true ∧
      (∀ q : Str, lexLt p q = false → strsSorted (q :: l) = true →
        strsSorted (q :: insortStr p l) = true)
  | [], _ => by
    refine ⟨by simp [insortStr, strsSorted], fun q hq _ => ?_⟩
    simp [insortStr, strsSorted, hq]
  | r :: l2, h => by
    have hl2 : strsSorted l2 = true := by
      cases l2 with
      | nil => rfl
      | cons r2 l3 => simp only [strsSorted, Bool.and_eq_true] at h; exact h.2
    have ih := strsSorted_insort p l2 hl2
    constructor
    · by_cases hpr : lexLt p r
      · simp only [insortStr, hpr, if_true, strsSorted, Bool.and_eq_true]
        exact ⟨by simp [lexLt_asymm _ _ hpr], h⟩
      · simp only [insortStr, hpr, if_false, Bool.false_eq_true]
        exact ih.2 r (by simpa using hpr) h
    · intro q hq hsq
      by_cases hpr : lexLt p r
      · simp only [insortStr, hpr, if_true, strsSorted, Bool.and_eq_true]
        refine ⟨by simp [hq], by simp [lexLt_asymm _ _ hpr], h⟩
      · simp only [insortStr, hpr, if_false, Bool.false_eq_true]
        have hrq : lexLt r q = false := by
          simp only [strsSorted, Bool.and_eq_true] at hsq
          simpa using hsq.1
        simp only [strsSorted, Bool.and_eq_true]
        exact ⟨by simp [hrq], ih.2 r (by simpa using hpr) h⟩

/-- Sorted output of string sorting. -/
theorem strsSorted_sortStrs : ∀ l : List Str, strsSorted (sortStrs l) = true
  | [] => rfl
  | s :: ss => (strsSorted_insort s (sortStrs ss) (strsSorted_sortStrs ss)).1

/-- Boolean string membership agrees with list membership. -/
theorem memStr_iff : ∀ (k : Str) (l : List Str), memStr k l = true ↔ k ∈ l
  | _, [] => by simp [memStr]
  | k, t :: ts => by
    by_cases h : k = t
    · simp [memStr, h]
    · simp [memStr, h, memStr_iff k ts]

/-- Boolean key distinctness agrees with `List.Nodup`. -/
theorem nodupKeys_iff : ∀ l : List Str, nodupKeys l = true ↔ l.Nodup
  | [] => by simp [nodupKeys]
  | k :: ks => by
    simp only [nodupKeys, Bool.and_eq_true, Bool.not_eq_true', List.nodup_cons,
      nodupKeys_iff ks]
    constructor
    · rintro ⟨h1, h2⟩
      refine ⟨fun hm => ?_, h2⟩
      rw [(memStr_iff k ks).2 hm] at h1
      cases h1
    · rintro ⟨h1, h2⟩
      refine ⟨?_, h2⟩
      cases hm : memStr k ks
      · rfl
      · exact absurd ((memStr_iff k ks).1 hm) h1

/-- Sorting a sorted list of entries with distinct keys changes nothing. -/
theorem sortKvs_eq_self {α : Type} :
    ∀ l : List (Str × α), pairsSorted l = true →
      (l.map Prod.fst).Nodup → sortKvs l = l
  | [], _, _ => rfl
  | p :: l, h, hnd => by
    have hl : pairsSorted l = true := by
      cases l with
      | nil => rfl
      | cons q l2 => simp only [pairsSorted, Bool.and_eq_true] at h; exact h.2
    have hndl : (l.map Prod.fst).Nodup := by
      simp only [List.map_cons, List.nodup_cons] at hnd; exact hnd.2
    have hrec : sortKvs l = l := sortKvs_eq_self l hl hndl
    show insortKey p (sortKvs l) = p :: l
    rw [hrec]
    cases l with
    | nil => rfl
    | cons q l2 =>
      simp only [pairsSorted, Bool.and_eq_true] at h
      have hqp : lexLt q.1 p.1 = false := by simpa using h.1
      by_cases hpq : lexLt p.1 q.1
      · simp [insortKey, hpq]
      · exfalso
        have : p.1 = q.1 := lexLt_conn _ _ (by simpa using hpq) hqp
        simp only [List.map_cons, List.nodup_cons] at hnd
        exact hnd.1 (by rw [this]; exact List.mem_cons_self _ _)

/-- Sorting keyed entries is idempotent when keys are distinct. -/
theorem sortKvs_idem {α : Type} (l : List (Str × α))
    (hnd : (l.map Prod.fst).Nodup) : sortKvs (sortKvs l) = sortKvs l := by
  refine sortKvs_eq_self _ (pairsSorted_sortKvs l) ?_
  exact (((sortKvs_perm l).map Prod.fst).nodup_iff).2 hnd

/-- Keyed insertion commutes with mapping over values. -/
theorem insortKey_mapSnd {α β : Type} (f : α → β) (p : Str × α) :
    ∀ l : List (Str × α),
      mapSnd f (insortKey p l) = insortKey (p.1, f p.2) (mapSnd f l)
  | [] => rfl
  | q :: qs => by
    by_cases h : lexLt p.1 q.1
    · simp [insortKey, mapSnd, h]
    · simp only [insortKey, mapSnd, List.map_cons, h, if_false, Bool.false_eq_true]
      have := insortKey_mapSnd f p qs
      simp only [mapSnd] at this
      simp [this]

/-- Keyed sorting commutes with mapping over values. -/
theorem sortKvs_mapSnd {α β : Type} (f : α → β) :
    ∀ l : List (Str × α), mapSnd f (sortKvs l) = sortKvs (mapSnd f l)
  | [] => rfl
  | p :: ps => by
    show mapSnd f (insortKey p (sortKvs ps)) = sortKvs ((p.1, f p.2) :: mapSnd f ps)
    rw [insortKey_mapSnd, sortKvs_mapSnd f ps]
    rfl

/-- Serializing member values is mapping over values. -/
theorem serPairs_eq_mapSnd : ∀ l : List (Str × J), serPairs l = mapSnd serJ l
  | [] => rfl
  | (k, v) :: kvs => by simp [serPairs, mapSnd, serPairs_eq_mapSnd kvs]

/-- Normalizing member values is mapping over values. -/
theorem normKVs_eq_mapSnd : ∀ l : List (Str × J), normKVs l = mapSnd normJ l
  | [] => rfl
  | (k, v) :: kvs => by simp [normKVs, mapSnd, normKVs_eq_mapSnd kvs]

/-- Every JSON value has positive measure. -/
theorem sizeJ_pos : ∀ j : J, 1 ≤ sizeJ j
  | J.jnull => le_refl 1
  | J.jbool _ => le_refl 1
  | J.jint _ => le_refl 1
  | J.jstr _ => le_refl 1
  | J.jarr _ => by simp [sizeJ]
  | J.jobj _ => by simp [sizeJ]

/-- An element's measure is bounded by the list measure. -/
theorem sizeJ_le_sizeL : ∀ {x : J} {xs : List J}, x ∈ xs → sizeJ x ≤ sizeL xs := by
  intro x xs
  induction xs with
  | nil => simp
  | cons y ys ih =>
    intro h
    rcases List.mem_cons.1 h with h | h
    · subst h; simp [sizeL]; omega
    · have := ih h; simp [sizeL]; omega

/-- A member value's measure is bounded by the member-list measure. -/
theorem sizeJ_le_sizeKV : ∀ {k : Str} {v : J} {kvs : List (Str × J)},
    (k, v) ∈ kvs → sizeJ v ≤ sizeKV kvs := by
  intro k v kvs
  induction kvs with
  | nil => simp
  | cons p ps ih =>
    intro h
    rcases List.mem_cons.1 h with h | h
    · rw [← h]; simp [sizeKV]; omega
    · have := ih h
      rcases p with ⟨k2, v2⟩
      simp [sizeKV]; omega

/-- Keyed insertion adds the inserted entry's measure. -/
theorem sizeKV_insortKey (p : Str × J) :
    ∀ l : List (Str × J), sizeKV (insortKey p l) = 1 + sizeJ p.2 + sizeKV l
  | [] => by rcases p with ⟨k, v⟩; simp [insortKey, sizeKV]
  | q :: qs => by
    rcases p with ⟨k, v⟩
    rcases q with ⟨k2, v2⟩
    by_cases h : lexLt k k2
    · simp [insortKey, h, sizeKV]
    · simp only [insortKey, h, if_false, Bool.false_eq_true, sizeKV]
      rw [sizeKV_insortKey ⟨k, v⟩ qs]
      simp [sizeKV]
      omega

/-- Keyed sorting preserves the member-list measure. -/
theorem sizeKV_sortKvs : ∀ l : List (Str × J), sizeKV (sortKvs l) = sizeKV l
  | [] => rfl
  | p :: ps => by
    show sizeKV (insortKey p (sortKvs ps)) = sizeKV (p :: ps)
    rw [sizeKV_insortKey, sizeKV_sortKvs ps]
    rcases p with ⟨k, v⟩
    simp [sizeKV]

/-- Skipping whitespace leaves a string with a non-whitespace head alone. -/
theorem skipWs_cons {c : Char} (h : isWs c = false) (r : Str) :
    skipWs (c :: r) = c :: r := by
  simp [skipWs, h]

/-- Decimal digits of a natural are decimal digit characters. -/
theorem natToCharsAux_digits :
    ∀ (fuel n : Nat), ∀ c ∈ natToCharsAux fuel n, isDigitC c = true := by
  intro fuel
  induction fuel with
  | zero => intro n c hc; simp [natToCharsAux] at hc
  | succ fuel ih =>
    intro n c hc
    by_cases h : n < 10
    · simp only [natToCharsAux, h, if_true, List.mem_singleton] at hc
      subst hc
      have h10 : n < 10 := h
      interval_cases n <;> decide
    · simp only [natToCharsAux, h, if_false, List.mem_append,
        List.mem_singleton] at hc
      rcases hc with hc | hc
      · exact ih (n / 10) c hc
      · subst hc
        have hm : n % 10 < 10 := Nat.mod_lt _ (by omega)
        set m := n % 10 with hmm
        interval_cases m <;> decide

/-- The decimal rendering of a natural is nonempty. -/
theorem natToCharsAux_ne_nil :
    ∀ (fuel n : Nat), n < fuel → natToCharsAux fuel n ≠ [] := by
  intro fuel
  induction fuel with
  | zero => intro n h; omega
  | succ fuel ih =>
    intro n h
    by_cases h10 : n < 10
    · simp [natToCharsAux, h10]
    · simp only [natToCharsAux, h10, if_false]
      simp

/-- Folding decimal digits back recovers the rendered natural. -/
theorem digitsVal_aux :
    ∀ (fuel n a : Nat), n < fuel →
      List.foldl (fun a c => a * 10 + (c.toNat - 48)) a (natToCharsAux fuel n) =
        a * 10 ^ (natToCharsAux fuel n).length + n := by
  intro fuel
  induction fuel with
  | zero => intro n a h; omega
  | succ fuel ih =>
    intro n a h
    by_cases h10 : n < 10
    · simp only [natToCharsAux, h10, if_true, List.foldl_cons, List.foldl_nil,
        List.length_singleton, pow_one]
      have hd : (decDigit n).toNat = 48 + n := by
        interval_cases n <;> decide
      rw [hd]
      omega
    · have hdiv : n / 10 < fuel := by omega
      simp only [natToCharsAux, h10, if_false, List.foldl_append,
        List.foldl_cons, List.foldl_nil, List.length_append,
        List.length_singleton]
      rw [ih (n / 10) a hdiv]
      have hm : n % 10 < 10 := Nat.mod_lt _ (by omega)
      have hd : (decDigit (n % 10)).toNat = 48 + n % 10 := by
        set m := n % 10 with hmm
        interval_cases m <;> decide
      rw [hd]
      have : (a * 10 ^ (natToCharsAux fuel (n / 10)).length + n / 10) * 10 +
          (48 + n % 10 - 48) =
          a * (10 ^ (natToCharsAux fuel (n / 10)).length * 10) +
          (n / 10 * 10 + n % 10) := by ring_nf; omega
      rw [this, ← pow_succ]
      omega

/-- Parsing back the decimal rendering of a natural. -/
theorem digitsVal_natToChars (n : Nat) : digitsVal (natToChars n) = n := by
  have := digitsVal_aux (n + 1) n 0 (by omega)
  simpa [digitsVal, natToChars] using this

/-- A digit character is not whitespace, a bracket, a brace, a comma, a
colon, a quote, a sign, or a letter the parser dispatches on. -/
theorem digit_facts {c : Char} (h : isDigitC c = true) :
    isWs c = false ∧ c ≠ ']' ∧ c ≠ Char.ofNat 125 ∧ c ≠ ',' ∧ c ≠ 'n' ∧
      c ≠ 't' ∧ c ≠ 'f' ∧ c ≠ Char.ofNat 34 ∧ c ≠ '[' ∧
      c ≠ Char.ofNat 123 ∧ c ≠ '-' := by
  simp only [isDigitC, Bool.and_eq_true, decide_eq_true_eq] at h
  have hw : isWs c = false := by
    cases hcw : isWs c
    · rfl
    · exfalso
      simp only [isWs, Bool.or_eq_true, decide_eq_true_eq] at hcw
      rcases hcw with ((rfl | rfl) | rfl) | rfl <;> exact absurd h (by decide)
  refine ⟨hw, ?_, ?_, ?_, ?_, ?_, ?_, ?_, ?_, ?_, ?_⟩ <;>
    (rintro rfl; exact absurd h (by decide))

/-- The digit span of a digit string followed by a delimited rest. -/
theorem spanDigits_append {ds rest : Str}
    (hds : ∀ c ∈ ds, isDigitC c = true)
    (hrest : rest = [] ∨ ∃ c r, rest = c :: r ∧ isDigitC c = false) :
    spanDigits (ds ++ rest) = (ds, rest) := by
  induction ds with
  | nil =>
    simp only [List.nil_append, spanDigits]
    rcases hrest with h | ⟨c, r, h, hc⟩
    · subst h; simp
    · subst h; simp [List.takeWhile, List.dropWhile, hc]
  | cons d ds2 ih =>
    have hd : isDigitC d = true := hds d (List.mem_cons_self _ _)
    have ih2 := ih (fun c hc => hds c (List.mem_cons_of_mem _ hc))
    simp only [spanDigits, Prod.mk.injEq] at ih2
    simp only [List.cons_append, spanDigits, List.takeWhile_cons, hd, if_true,
      List.dropWhile_cons, Prod.mk.injEq]
    exact ⟨by rw [ih2.1], ih2.2⟩

/-- Hex digit characters decode to their value. -/
theorem hexVal_hexDigit {m : Nat} (h : m < 16) : hexVal (hexDigit m) = some m := by
  interval_cases m <;> decide

/-- Parsing back an escaped JSON string body recovers the original string. -/
theorem parseStrBody_spec : ∀ (s rest : Str),
    parseStrBody (s.flatMap escChar ++ Char.ofNat 34 :: rest) = some (s, rest) := by
  intro s
  induction s with
  | nil =>
    intro rest
    simp only [List.flatMap_nil, List.nil_append]
    conv_lhs => rw [parseStrBody.eq_def]
    simp
  | cons c s ih =>
    intro rest
    have IH := ih rest
    simp only [List.flatMap_cons, List.append_assoc]
    by_cases h34 : c = Char.ofNat 34
    · subst h34
      simp only [escChar, if_pos rfl, List.cons_append, List.nil_append]
      conv_lhs => rw [parseStrBody.eq_def]
      simp [escDecode, IH]
    · by_cases hbs : c = '\\'
      · subst hbs
        simp only [escChar, if_neg (by decide : ¬(('\\' : Char) = Char.ofNat 34)),
          if_pos rfl, List.cons_append, List.nil_append]
        conv_lhs => rw [parseStrBody.eq_def]
        simp [escDecode, IH]
      · by_cases h8 : c = Char.ofNat 8
        · subst h8
          simp only [escChar, if_neg (by decide : ¬(Char.ofNat 8 = Char.ofNat 34)),
            if_neg (by decide : ¬(Char.ofNat 8 = '\\')), if_pos rfl,
            List.cons_append, List.nil_append]
          conv_lhs => rw [parseStrBody.eq_def]
          simp [escDecode, IH]
        · by_cases h9 : c = Char.ofNat 9
          · subst h9
            simp only [escChar, if_neg (by decide : ¬(Char.ofNat 9 = Char.ofNat 34)),
              if_neg (by decide : ¬(Char.ofNat 9 = '\\')),
              if_neg (by decide : ¬(Char.ofNat 9 = Char.ofNat 8)), if_pos rfl,
              List.cons_append, List.nil_append]
            conv_lhs => rw [parseStrBody.eq_def]
            simp [escDecode, IH]
          · by_cases h10 : c = Char.ofNat 10
            · subst h10
              simp only [escChar,
                if_neg (by decide : ¬(Char.ofNat 10 = Char.ofNat 34)),
                if_neg (by decide : ¬(Char.ofNat 10 = '\\')),
                if_neg (by decide : ¬(Char.ofNat 10 = Char.ofNat 8)),
                if_neg (by decide : ¬(Char.ofNat 10 = Char.ofNat 9)), if_pos rfl,
                List.cons_append, List.nil_append]
              conv_lhs => rw [parseStrBody.eq_def]
              simp [escDecode, IH]
            · by_cases h12 : c = Char.ofNat 12
              · subst h12
                simp only [escChar,
                  if_neg (by decide : ¬(Char.ofNat 12 = Char.ofNat 34)),
                  if_neg (by decide : ¬(Char.ofNat 12 = '\\')),
                  if_neg (by decide : ¬(Char.ofNat 12 = Char.ofNat 8)),
                  if_neg (by decide : ¬(Char.ofNat 12 = Char.ofNat 9)),
                  if_neg (by decide : ¬(Char.ofNat 12 = Char.ofNat 10)), if_pos rfl,
                  List.cons_append, List.nil_append]
                conv_lhs => rw [parseStrBody.eq_def]
                simp [escDecode, IH]
              · by_cases h13 : c = Char.ofNat 13
                · subst h13
                  simp only [escChar,
                    if_neg (by decide : ¬(Char.ofNat 13 = Char.ofNat 34)),
                    if_neg (by decide : ¬(Char.ofNat 13 = '\\')),
                    if_neg (by decide : ¬(Char.ofNat 13 = Char.ofNat 8)),
                    if_neg (by decide : ¬(Char.ofNat 13 = Char.ofNat 9)),
                    if_neg (by decide : ¬(Char.ofNat 13 = Char.ofNat 10)),
                    if_neg (by decide : ¬(Char.ofNat 13 = Char.ofNat 12)),
                    if_pos rfl, List.cons_append, List.nil_append]
                  conv_lhs => rw [parseStrBody.eq_def]
                  simp [escDecode, IH]
                · by_cases hct : c.toNat < 32
                  · have hd1 : c.toNat / 16 < 16 := by omega
                    have hd2 : c.toNat % 16 < 16 := by omega
                    simp only [escChar, if_neg h34, if_neg hbs, if_neg h8,
                      if_neg h9, if_neg h10, if_neg h12, if_neg h13, if_pos hct,
                      List.cons_append, List.nil_append]
                    conv_lhs => rw [parseStrBody.eq_def]
                    simp [IH, hexVal_hexDigit hd1, hexVal_hexDigit hd2,
                      show hexVal '0' = some 0 from by decide]
                    conv_rhs => rw [← Char.ofNat_toNat c]
                    congr 1
                    omega
                  · have hge : 32 ≤ c.toNat := by omega
                    simp only [escChar, if_neg h34, if_neg hbs, if_neg h8,
                      if_neg h9, if_neg h10, if_neg h12, if_neg h13, if_neg hct,
                      List.cons_append, List.nil_append]
                    conv_lhs => rw [parseStrBody.eq_def]
                    simp [h34, hbs, hge, IH]

/-- Admissible continuations after a serialized value: end of input or a
separator or closing token of the enclosing array or object. -/
def delimOk (s : Str) : Prop :=
  s = [] ∨ ∃ r, s = ',' :: r ∨ s = ']' :: r ∨ s = Char.ofNat 125 :: r

/-- A delimited rest never starts with a digit. -/
theorem delimOk_not_digit {rest : Str} (h : delimOk rest) :
    rest = [] ∨ ∃ c r, rest = c :: r ∧ isDigitC c = false := by
  rcases h with h | ⟨r, h | h | h⟩
  · exact Or.inl h
  · exact Or.inr ⟨',', r, h, by decide⟩
  · exact Or.inr ⟨']', r, h, by decide⟩
  · exact Or.inr ⟨Char.ofNat 125, r, h, by decide⟩

/-- The decimal rendering of a natural starts with a digit character. -/
theorem natToChars_cons (n : Nat) :
    ∃ d ds, natToChars n = d :: ds ∧ isDigitC d = true := by
  have hne : natToCharsAux (n + 1) n ≠ [] := natToCharsAux_ne_nil _ _ (by omega)
  rcases hl : natToCharsAux (n + 1) n with _ | ⟨d, ds⟩
  · exact absurd hl hne
  · refine ⟨d, ds, hl, ?_⟩
    exact natToCharsAux_digits (n + 1) n d (by rw [hl]; exact List.mem_cons_self _ _)

/-- Every digit of the decimal rendering of a natural is a digit character. -/
theorem natToChars_digits (n : Nat) : ∀ c ∈ natToChars n, isDigitC c = true :=
  fun c hc => natToCharsAux_digits (n + 1) n c hc

/-- Every serialized JSON value starts with a character that is not
whitespace and closes no array or object. -/
theorem serJ_head (j : J) :
    ∃ c r, serJ j = c :: r ∧ isWs c = false ∧ c ≠ ']' ∧ c ≠ Char.ofNat 125 := by
  cases j with
  | jnull => exact ⟨'n', ['u', 'l', 'l'], by decide, by decide, by decide, by decide⟩
  | jbool b =>
    cases b with
    | true => exact ⟨'t', ['r', 'u', 'e'], by decide, by decide, by decide, by decide⟩
    | false =>
      exact ⟨'f', ['a', 'l', 's', 'e'], by decide, by decide, by decide, by decide⟩
  | jint n =>
    cases n with
    | ofNat m =>
      obtain ⟨d, ds, hnc, hd⟩ := natToChars_cons m
      obtain ⟨hw, h1, h2, _⟩ := digit_facts hd
      exact ⟨d, ds, by simp [serJ, intToChars, hnc], hw, h1, h2⟩
    | negSucc m =>
      exact ⟨'-', natToChars (m + 1), by simp [serJ, intToChars], by decide,
        by decide, by decide⟩
  | jstr s =>
    exact ⟨Char.ofNat 34, s.flatMap escChar ++ [Char.ofNat 34],
      by simp [serJ, serStr], by decide, by decide, by decide⟩
  | jarr xs =>
    exact ⟨'[', serArr xs ++ [']'], by simp [serJ], by decide, by decide, by decide⟩
  | jobj kvs =>
    exact ⟨Char.ofNat 123, joinObj (sortKvs (serPairs kvs)) ++ [Char.ofNat 125],
      by simp [serJ], by decide, by decide, by decide⟩

/-- Sorting members commutes with serializing their values. -/
theorem sortKvs_serPairs (kvs : List (Str × J)) :
    sortKvs (serPairs kvs) = serPairs (sortKvs kvs) := by
  rw [serPairs_eq_mapSnd, serPairs_eq_mapSnd, sortKvs_mapSnd]

/-- Sorting members commutes with normalizing their values. -/
theorem sortKvs_normKVs (kvs : List (Str × J)) :
    sortKvs (normKVs kvs) = normKVs (sortKvs kvs) := by
  rw [normKVs_eq_mapSnd, normKVs_eq_mapSnd, sortKvs_mapSnd]

/-- Sorting a nonempty list of entries yields a nonempty list. -/
theorem sortKvs_ne_nil {α : Type} {l : List (Str × α)} (h : l ≠ []) :
    sortKvs l ≠ [] := by
  intro h0
  have := (sortKvs_perm l).length_eq
  rw [h0] at this
  cases l with
  | nil => exact h rfl
  | cons p ps => simp at this

/-- Negating the rendered successor recovers the negative integer. -/
theorem negOfNat_succ (m : Nat) : -(Int.ofNat (m + 1)) = Int.negSucc m := by
  rfl

/-- A rendered object member list starts with the opening quote of its first
key. -/
theorem joinObj_head (k sv : Str) (l : List (Str × Str)) :
    ∃ z, joinObj ((k, sv) :: l) = Char.ofNat 34 :: z := by
  cases l with
  | nil =>
    exact ⟨k.flatMap escChar ++ [Char.ofNat 34] ++ ':' :: sv,
      by simp [joinObj, serStr]⟩
  | cons q l2 =>
    exact ⟨k.flatMap escChar ++ [Char.ofNat 34] ++ ':' :: sv ++
      ',' :: joinObj (q :: l2), by simp [joinObj, serStr]⟩

/-- Parsing a canonically serialized value consumes exactly the serialized
text and yields the key-normal form of the value; lists and members handle
the element and member loops. -/
theorem parse_ser : ∀ n : Nat,
    (∀ j : J, sizeJ j ≤ n → ∀ fuel rest, sizeJ j ≤ fuel → delimOk rest →
      parseVal fuel (serJ j ++ rest) = some (normJ j, rest)) ∧
    (∀ xs : List J, xs ≠ [] → sizeL xs ≤ n → ∀ fuel rest, sizeL xs ≤ fuel →
      delimOk rest →
      parseElems fuel (serArr xs ++ ']' :: rest) = some (normL xs, rest)) ∧
    (∀ kvs : List (Str × J), kvs ≠ [] → sizeKV kvs ≤ n → ∀ fuel rest,
      sizeKV kvs ≤ fuel → delimOk rest →
      parseMembers fuel (joinObj (serPairs kvs) ++ Char.ofNat 125 :: rest) =
        some (normKVs kvs, rest)) := by
  intro n
  induction n using Nat.strong_induction_on with
  | _ n ih =>
    refine ⟨?_, ?_, ?_⟩
    · intro j hjn fuel rest hjf hrest
      cases fuel with
      | zero => exact absurd hjf (by have := sizeJ_pos j; omega)
      | succ f =>
        cases j with
        | jnull =>
          have hser : serJ J.jnull ++ rest = 'n' :: 'u' :: 'l' :: 'l' :: rest := by
            rfl
          rw [hser]
          conv_lhs => rw [parseVal.eq_def]
          simp [skipWs, isWs, normJ]
        | jbool b =>
          cases b with
          | true =>
            have hser : serJ (J.jbool true) ++ rest =
                't' :: 'r' :: 'u' :: 'e' :: rest := by rfl
            rw [hser]
            conv_lhs => rw [parseVal.eq_def]
            simp [skipWs, isWs, normJ]
          | false =>
            have hser : serJ (J.jbool false) ++ rest =
                'f' :: 'a' :: 'l' :: 's' :: 'e' :: rest := by rfl
            rw [hser]
            conv_lhs => rw [parseVal.eq_def]
            simp [skipWs, isWs, normJ]
        | jint i =>
          cases i with
          | ofNat m =>
            obtain ⟨d, ds, hnc, hd⟩ := natToChars_cons m
            obtain ⟨hw, _, _, _, hn, ht, hf2, h34, hlb, h123, hm⟩ := digit_facts hd
            have hser : serJ (J.jint (Int.ofNat m)) ++ rest = d :: (ds ++ rest) := by
              simp [serJ, intToChars, hnc]
            rw [hser]
            conv_lhs => rw [parseVal.eq_def]
            have hspan : spanDigits (ds ++ rest) = (ds, rest) := by
              refine spanDigits_append (fun c hc => ?_) (delimOk_not_digit hrest)
              exact natToChars_digits m c (by rw [hnc]; exact List.mem_cons_of_mem _ hc)
            have hdv : digitsVal (d :: ds) = m := by
              rw [← hnc]; exact digitsVal_natToChars m
            simp [skipWs_cons hw, hn, ht, hf2, h34, hlb, h123, hm, hd, hspan, hdv, normJ]
          | negSucc m =>
            obtain ⟨d, ds, hnc, hd⟩ := natToChars_cons (m + 1)
            have hser : serJ (J.jint (Int.negSucc m)) ++ rest =
                '-' :: d :: (ds ++ rest) := by
              simp [serJ, intToChars, hnc]
            rw [hser]
            conv_lhs => rw [parseVal.eq_def]
            have hspan2 : spanDigits (d :: (ds ++ rest)) = (d :: ds, rest) := by
              have h0 : spanDigits ((d :: ds) ++ rest) = (d :: ds, rest) := by
                refine spanDigits_append (fun c hc => ?_) (delimOk_not_digit hrest)
                exact natToChars_digits (m + 1) c (by rw [hnc]; exact hc)
              simpa using h0
            have hdds : digitsVal (d :: ds) = m + 1 := by
              rw [← hnc]; exact digitsVal_natToChars (m + 1)
            have hwm : isWs '-' = false := by decide
            simp [skipWs_cons hwm, hspan2, hdds, normJ, negOfNat_succ]
            rw [Int.negSucc_eq]
            ring
        | jstr s =>
          have hser : serJ (J.jstr s) ++ rest =
              Char.ofNat 34 :: (s.flatMap escChar ++ Char.ofNat 34 :: rest) := by
            simp [serJ, serStr]
          rw [hser]
          conv_lhs => rw [parseVal.eq_def]
          simp [skipWs, isWs, parseStrBody_spec, normJ]
        | jarr xs =>
          have hser : serJ (J.jarr xs) ++ rest =
              '[' :: (serArr xs ++ ']' :: rest) := by simp [serJ]
          rw [hser]
          conv_lhs => rw [parseVal.eq_def]
          cases xs with
          | nil => simp [serArr, skipWs, isWs, normJ, normL]
          | cons x t =>
            obtain ⟨c2, r2, hx, hw2, hne2, _⟩ := serJ_head x
            have harr : ∃ z, serArr (x :: t) ++ ']' :: rest = c2 :: z := by
              cases t with
              | nil => exact ⟨r2 ++ ']' :: rest, by simp [serArr, hx]⟩
              | cons y t2 =>
                exact ⟨r2 ++ ',' :: serArr (y :: t2) ++ ']' :: rest,
                  by simp [serArr, hx]⟩
            obtain ⟨z, hz⟩ := harr
            have hsx : sizeL (x :: t) < n := by
              simp only [sizeJ] at hjn; omega
            have hPE := (ih (sizeL (x :: t)) hsx).2.1 (x :: t) (by simp)
              (le_refl _) f rest (by simp only [sizeJ] at hjf; omega) hrest
            rw [hz] at hPE
            have hwl : isWs '[' = false := by decide
            simp [skipWs_cons hwl, skipWs_cons hw2, hz, hne2, hPE, normJ]
        | jobj kvs =>
          cases kvs with
          | nil =>
            have hser : serJ (J.jobj []) ++ rest =
                Char.ofNat 123 :: Char.ofNat 125 :: rest := by
              simp [serJ, serPairs, sortKvs, joinObj]
            rw [hser]
            conv_lhs => rw [parseVal.eq_def]
            simp [skipWs, isWs, normJ, normKVs, sortKvs]
          | cons p t =>
            have hkne : (p :: t : List (Str × J)) ≠ [] := by simp
            have hps : sortKvs (p :: t) ≠ [] := sortKvs_ne_nil hkne
            obtain ⟨p0, ps2, hps0⟩ : ∃ p0 ps2, sortKvs (p :: t) = p0 :: ps2 := by
              cases hsk : sortKvs (p :: t) with
              | nil => exact absurd hsk hps
              | cons a b => exact ⟨a, b, rfl⟩
            rcases p0 with ⟨k0, v0⟩
            have hser : serJ (J.jobj (p :: t)) ++ rest =
                Char.ofNat 123 :: (joinObj (serPairs (sortKvs (p :: t))) ++
                  Char.ofNat 125 :: rest) := by
              simp [serJ, sortKvs_serPairs]
            rw [hser]
            conv_lhs => rw [parseVal.eq_def]
            have hkv : sizeKV (p :: t) < n := by
              simp only [sizeJ] at hjn; omega
            have hPM := (ih (sizeKV (p :: t)) hkv).2.2 (sortKvs (p :: t)) hps
              (le_of_eq (sizeKV_sortKvs _)) f rest
              (by rw [sizeKV_sortKvs]; simp only [sizeJ] at hjf; omega) hrest
            obtain ⟨z0, hz0⟩ := joinObj_head k0 (serJ v0) (serPairs ps2)
            have hjz : joinObj (serPairs (sortKvs (p :: t))) ++
                Char.ofNat 125 :: rest = Char.ofNat 34 :: (z0 ++
                  Char.ofNat 125 :: rest) := by
              rw [hps0]
              simp only [serPairs]
              rw [hz0]
              simp
            rw [hjz] at hPM
            have hwo : isWs (Char.ofNat 123) = false := by decide
            have hw34 : isWs (Char.ofNat 34) = false := by decide
            simp [skipWs_cons hwo, skipWs_cons hw34, hjz, hPM, normJ,
              sortKvs_normKVs]
    · intro xs hne hxn fuel rest hxf hrest
      cases xs with
      | nil => exact absurd rfl hne
      | cons x t =>
        cases fuel with
        | zero =>
          exfalso
          have := sizeJ_pos x
          simp only [sizeL] at hxf
          omega
        | succ f =>
          conv_lhs => rw [parseElems.eq_def]
          cases t with
          | nil =>
            have harr : serArr [x] ++ ']' :: rest = serJ x ++ ']' :: rest := by
              simp [serArr]
            rw [harr]
            have hx : sizeJ x < n := by simp only [sizeL] at hxn; omega
            have hPV := (ih (sizeJ x) hx).1 x (le_refl _) f (']' :: rest)
              (by simp only [sizeL] at hxf; omega)
              (Or.inr ⟨rest, Or.inr (Or.inl rfl)⟩)
            have hwr : isWs ']' = false := by decide
            simp [hPV, skipWs_cons hwr, normL]
          | cons y t2 =>
            have harr : serArr (x :: y :: t2) ++ ']' :: rest =
                serJ x ++ (',' :: (serArr (y :: t2) ++ ']' :: rest)) := by
              simp [serArr]
            rw [harr]
            have hx : sizeJ x < n := by simp only [sizeL] at hxn; omega
            have hPV := (ih (sizeJ x) hx).1 x (le_refl _) f
              (',' :: (serArr (y :: t2) ++ ']' :: rest))
              (by simp only [sizeL] at hxf; omega)
              (Or.inr ⟨serArr (y :: t2) ++ ']' :: rest, Or.inl rfl⟩)
            have hy : sizeL (y :: t2) < n := by
              have := sizeJ_pos x
              simp only [sizeL] at hxn ⊢
              omega
            have hPE2 := (ih (sizeL (y :: t2)) hy).2.1 (y :: t2) (by simp)
              (le_refl _) f rest
              (by have := sizeJ_pos x; simp only [sizeL] at hxf ⊢; omega) hrest
            have hwc : isWs ',' = false := by decide
            simp [hPV, skipWs_cons hwc, hPE2, normL]
    · intro kvs hne hkn fuel rest hkf hrest
      cases kvs with
      | nil => exact absurd rfl hne
      | cons p t =>
        rcases p with ⟨k, v⟩
        cases fuel with
        | zero =>
          exfalso
          have := sizeJ_pos v
          simp only [sizeKV] at hkf
          omega
        | succ f =>
          conv_lhs => rw [parseMembers.eq_def]
          cases t with
          | nil =>
            have hjo : joinObj (serPairs [(k, v)]) ++ Char.ofNat 125 :: rest =
                Char.ofNat 34 :: (k.flatMap escChar ++ Char.ofNat 34 ::
                  (':' :: (serJ v ++ Char.ofNat 125 :: rest))) := by
              simp [serPairs, joinObj, serStr]
            rw [hjo]
            have hv : sizeJ v < n := by simp only [sizeKV] at hkn; omega
            have hPV := (ih (sizeJ v) hv).1 v (le_refl _) f
              (Char.ofNat 125 :: rest)
              (by simp only [sizeKV] at hkf; omega)
              (Or.inr ⟨rest, Or.inr (Or.inr rfl)⟩)
            have hwco : isWs ':' = false := by decide
            have hw125 : isWs (Char.ofNat 125) = false := by decide
            have hw34 : isWs (Char.ofNat 34) = false := by decide
            simp [parseStrBody_spec, skipWs_cons hwco, skipWs_cons hw125,
              skipWs_cons hw34, hPV, normKVs]
          | cons q t2 =>
            rcases q with ⟨k2, v2⟩
            have hjo : joinObj (serPairs ((k, v) :: (k2, v2) :: t2)) ++
                Char.ofNat 125 :: rest =
                Char.ofNat 34 :: (k.flatMap escChar ++ Char.ofNat 34 ::
                  (':' :: (serJ v ++ ',' ::
                    (joinObj (serPairs ((k2, v2) :: t2)) ++
                      Char.ofNat 125 :: rest)))) := by
              simp [serPairs, joinObj, serStr]
            rw [hjo]
            have hv : sizeJ v < n := by simp only [sizeKV] at hkn; omega
            have hPV := (ih (sizeJ v) hv).1 v (le_refl _) f
              (',' :: (joinObj (serPairs ((k2, v2) :: t2)) ++
                Char.ofNat 125 :: rest))
              (by simp only [sizeKV] at hkf; omega)
              (Or.inr ⟨joinObj (serPairs ((k2, v2) :: t2)) ++
                Char.ofNat 125 :: rest, Or.inl rfl⟩)
            have ht2 : sizeKV ((k2, v2) :: t2) < n := by
              have := sizeJ_pos v
              simp only [sizeKV] at hkn ⊢
              omega
            have hPM2 := (ih (sizeKV ((k2, v2) :: t2)) ht2).2.2
              ((k2, v2) :: t2) (by simp) (le_refl _) f rest
              (by have := sizeJ_pos v; simp only [sizeKV] at hkf ⊢; omega) hrest
            have hwco : isWs ':' = false := by decide
            have hwc : isWs ',' = false := by decide
            have hw34 : isWs (Char.ofNat 34) = false := by decide
            simp [parseStrBody_spec, skipWs_cons hwco, skipWs_cons hwc,
              skipWs_cons hw34, hPV, hPM2, normKVs]

/-- The fuel measure of a value is bounded by its serialized length. -/
theorem size_le_len : ∀ n : Nat,
    (∀ j : J, sizeJ j ≤ n → sizeJ j ≤ (serJ j).length) ∧
    (∀ xs : List J, sizeL xs ≤ n → sizeL xs ≤ 1 + (serArr xs).length) ∧
    (∀ kvs : List (Str × J), sizeKV kvs ≤ n →
      sizeKV kvs ≤ 1 + (joinObj (serPairs kvs)).length) := by
  intro n
  induction n using Nat.strong_induction_on with
  | _ n ih =>
    refine ⟨?_, ?_, ?_⟩
    · intro j hj
      cases j with
      | jnull => simp [serJ, sizeJ, str]
      | jbool b => cases b <;> simp [serJ, sizeJ, str]
      | jint i =>
        cases i with
        | ofNat m =>
          obtain ⟨d, ds, hnc, _⟩ := natToChars_cons m
          simp [serJ, intToChars, hnc, sizeJ]
        | negSucc m => simp [serJ, intToChars, sizeJ]
      | jstr s => simp [serJ, serStr, sizeJ]
      | jarr xs =>
        have hL := (ih (sizeL xs) ?hlt).2.1 xs (le_refl _)
        case hlt => simp only [sizeJ] at hj; have := sizeJ_pos (J.jarr xs); simp only [sizeJ] at this; omega
        simp only [serJ, sizeJ, List.length_cons, List.length_append,
          List.length_singleton]
        omega
      | jobj kvs =>
        have hsz : sizeKV (sortKvs kvs) = sizeKV kvs := sizeKV_sortKvs kvs
        have hKV := (ih (sizeKV kvs) ?hlt2).2.2 (sortKvs kvs) (le_of_eq hsz)
        case hlt2 => simp only [sizeJ] at hj; omega
        rw [hsz] at hKV
        simp only [serJ, sizeJ, List.length_cons, List.length_append,
          List.length_singleton, sortKvs_serPairs]
        omega
    · intro xs hxs
      cases xs with
      | nil => simp [serArr, sizeL]
      | cons x t =>
        have hx := (ih (sizeJ x) (by simp only [sizeL] at hxs; omega)).1 x (le_refl _)
        cases t with
        | nil =>
          simp only [serArr, sizeL]
          omega
        | cons y t2 =>
          have ht := (ih (sizeL (y :: t2))
            (by have := sizeJ_pos x; simp only [sizeL] at hxs ⊢; omega)).2.1
            (y :: t2) (le_refl _)
          simp only [serArr, sizeL, List.length_append, List.length_cons] at ht ⊢
          omega
    · intro kvs hkv
      cases kvs with
      | nil => simp [serPairs, joinObj, sizeKV]
      | cons p t =>
        rcases p with ⟨k, v⟩
        have hv := (ih (sizeJ v) (by simp only [sizeKV] at hkv; omega)).1 v (le_refl _)
        cases t with
        | nil =>
          simp only [serPairs, joinObj, sizeKV, List.length_append,
            List.length_cons]
          omega
        | cons q t2 =>
          rcases q with ⟨k2, v2⟩
          have ht := (ih (sizeKV ((k2, v2) :: t2))
            (by have := sizeJ_pos v; simp only [sizeKV] at hkv ⊢; omega)).2.2
            ((k2, v2) :: t2) (le_refl _)
          simp only [serPairs, joinObj, sizeKV, List.length_append,
            List.length_cons] at ht ⊢
          omega

/-- Elementwise inverse on lists. -/
theorem pyListToJ_jListToPy (l : List J) (h : ∀ x ∈ l, pyToJ (jToPy x) = x) :
    pyListToJ (jListToPy l) = l := by
  induction l with
  | nil => rfl
  | cons x t iht =>
    simp only [jListToPy, pyListToJ]
    rw [h x (List.mem_cons_self _ _),
      iht (fun y hy => h y (List.mem_cons_of_mem _ hy))]

/-- Entrywise inverse on member lists. -/
theorem pyKvsToJ_jKvsToPy (l : List (Str × J))
    (h : ∀ p ∈ l, pyToJ (jToPy p.2) = p.2) :
    pyKvsToJ (jKvsToPy l) = l := by
  induction l with
  | nil => rfl
  | cons p t iht =>
    rcases p with ⟨k, v⟩
    simp only [jKvsToPy, pyKvsToJ]
    rw [h (k, v) (List.mem_cons_self _ _),
      iht (fun q hq => h q (List.mem_cons_of_mem _ hq))]

/-- Serializing the Python value read back from a JSON value reproduces the
JSON value: `json.loads` output hits the same encoder branches. -/
theorem pyToJ_jToPy : ∀ (n : Nat) (j : J), sizeJ j ≤ n → pyToJ (jToPy j) = j := by
  intro n
  induction n using Nat.strong_induction_on with
  | _ n ih =>
    intro j hj
    cases j with
    | jnull => rfl
    | jbool b => rfl
    | jint i => rfl
    | jstr s => rfl
    | jarr xs =>
      have hel : ∀ x ∈ xs, pyToJ (jToPy x) = x := by
        intro x hx
        have hlt : sizeJ x < n := by
          have := sizeJ_le_sizeL hx
          simp only [sizeJ] at hj
          omega
        exact ih (sizeJ x) hlt x (le_refl _)
      simp only [jToPy, pyToJ, pyListToJ_jListToPy xs hel]
    | jobj kvs =>
      have hel : ∀ p ∈ kvs, pyToJ (jToPy p.2) = p.2 := by
        intro p hp
        rcases p with ⟨k, v⟩
        have hlt : sizeJ v < n := by
          have := sizeJ_le_sizeKV hp
          simp only [sizeJ] at hj
          omega
        exact ih (sizeJ v) hlt v (le_refl _)
      simp only [jToPy, pyToJ, pyKvsToJ_jKvsToPy kvs hel]

/-- Mapping over values keeps the keys. -/
theorem mapSnd_keys {α β : Type} (f : α → β) :
    ∀ l : List (Str × α), (mapSnd f l).map Prod.fst = l.map Prod.fst
  | [] => rfl
  | p :: ps => by simp [mapSnd, mapSnd_keys f ps]

/-- Element well-formedness from list well-formedness. -/
theorem jWFL_mem : ∀ {xs : List J}, jWFL xs = true → ∀ {x}, x ∈ xs → jWF x = true := by
  intro xs
  induction xs with
  | nil => intro _ x hx; simp at hx
  | cons y t iht =>
    intro h x hx
    simp only [jWFL, Bool.and_eq_true] at h
    rcases List.mem_cons.1 hx with rfl | hx
    · exact h.1
    · exact iht h.2 hx

/-- Member-value well-formedness from object well-formedness. -/
theorem jWFKvs_mem : ∀ {kvs : List (Str × J)}, jWFKvs kvs = true →
    ∀ {k v}, (k, v) ∈ kvs → jWF v = true := by
  intro kvs
  induction kvs with
  | nil => intro _ k v hx; simp at hx
  | cons p t iht =>
    intro h k v hx
    rcases p with ⟨k2, v2⟩
    simp only [jWFKvs, Bool.and_eq_true] at h
    rcases List.mem_cons.1 hx with heq | hx
    · cases heq; exact h.1
    · exact iht h.2 hx

/-- Normalizing elements does not change their serialization, pointwise. -/
theorem serArr_normL : ∀ (xs : List J),
    (∀ x ∈ xs, serJ (normJ x) = serJ x) → serArr (normL xs) = serArr xs := by
  intro xs
  induction xs with
  | nil => intro _; rfl
  | cons x t iht =>
    intro h
    cases t with
    | nil =>
      simp only [normL, serArr]
      exact h x (List.mem_cons_self _ _)
    | cons y t2 =>
      simp only [normL, serArr]
      rw [h x (List.mem_cons_self _ _)]
      have := iht (fun z hz => h z (List.mem_cons_of_mem _ hz))
      simp only [normL] at this
      rw [this]

/-- Normalizing member values does not change their serialization,
pointwise. -/
theorem serPairs_normKVs : ∀ (kvs : List (Str × J)),
    (∀ p ∈ kvs, serJ (normJ p.2) = serJ p.2) →
    serPairs (normKVs kvs) = serPairs kvs := by
  intro kvs
  induction kvs with
  | nil => intro _; rfl
  | cons p t iht =>
    intro h
    rcases p with ⟨k, v⟩
    simp only [normKVs, serPairs]
    rw [h (k, v) (List.mem_cons_self _ _),
      iht (fun q hq => h q (List.mem_cons_of_mem _ hq))]

/-- Serialization is invariant under key normalization on well-formed
values: the serializer sorts members itself, and sorting twice is sorting
once when keys are distinct. -/
theorem serJ_normJ : ∀ (n : Nat) (j : J), sizeJ j ≤ n → jWF j = true →
    serJ (normJ j) = serJ j := by
  intro n
  induction n using Nat.strong_induction_on with
  | _ n ih =>
    intro j hj hwf
    cases j with
    | jnull => rfl
    | jbool b => rfl
    | jint i => rfl
    | jstr s => rfl
    | jarr xs =>
      have hel : ∀ x ∈ xs, serJ (normJ x) = serJ x := by
        intro x hx
        have hlt : sizeJ x < n := by
          have := sizeJ_le_sizeL hx
          simp only [sizeJ] at hj
          omega
        exact ih (sizeJ x) hlt x (le_refl _) (jWFL_mem hwf hx)
      simp only [normJ, serJ, serArr_normL xs hel]
    | jobj kvs =>
      simp only [jWF, Bool.and_eq_true] at hwf
      have hel : ∀ p ∈ kvs, serJ (normJ p.2) = serJ p.2 := by
        intro p hp
        rcases p with ⟨k, v⟩
        have hlt : sizeJ v < n := by
          have := sizeJ_le_sizeKV hp
          simp only [sizeJ] at hj
          omega
        exact ih (sizeJ v) hlt v (le_refl _) (jWFKvs_mem hwf.2 hp)
      have hnd : ((serPairs kvs).map Prod.fst).Nodup := by
        rw [serPairs_eq_mapSnd, mapSnd_keys]
        exact (nodupKeys_iff _).1 hwf.1
      have key : sortKvs (serPairs (sortKvs (normKVs kvs))) =
          sortKvs (serPairs kvs) := by
        rw [← sortKvs_serPairs (normKVs kvs), serPairs_normKVs kvs hel]
        exact sortKvs_idem _ hnd
      simp only [normJ, serJ, key]

/-- Conversion of a list is a map. -/
theorem pyListToJ_eq_map : ∀ l : List PyVal, pyListToJ l = l.map pyToJ
  | [] => rfl
  | x :: xs => by simp [pyListToJ, pyListToJ_eq_map xs]

/-- Conversion of a dict is a map over values. -/
theorem pyKvsToJ_eq_mapSnd : ∀ l : List (Str × PyVal),
    pyKvsToJ l = mapSnd pyToJ l
  | [] => rfl
  | (k, v) :: kvs => by simp [pyKvsToJ, mapSnd, pyKvsToJ_eq_mapSnd kvs]

/-- Element well-formedness from Python list well-formedness. -/
theorem pyWFL_mem : ∀ {xs : List PyVal}, pyWFL xs = true →
    ∀ {x}, x ∈ xs → pyWF x = true := by
  intro xs
  induction xs with
  | nil => intro _ x hx; simp at hx
  | cons y t iht =>
    intro h x hx
    simp only [pyWFL, Bool.and_eq_true] at h
    rcases List.mem_cons.1 hx with rfl | hx
    · exact h.1
    · exact iht h.2 hx

/-- Value well-formedness from Python dict well-formedness. -/
theorem pyWFKvs_mem : ∀ {kvs : List (Str × PyVal)}, pyWFKvs kvs = true →
    ∀ {k v}, (k, v) ∈ kvs → pyWF v = true := by
  intro kvs
  induction kvs with
  | nil => intro _ k v hx; simp at hx
  | cons p t iht =>
    intro h k v hx
    rcases p with ⟨k2, v2⟩
    simp only [pyWFKvs, Bool.and_eq_true] at h
    rcases List.mem_cons.1 hx with heq | hx
    · cases heq; exact h.1
    · exact iht h.2 hx

/-- A list of JSON strings is well-formed. -/
theorem jWFL_map_jstr : ∀ l : List Str, jWFL (l.map J.jstr) = true
  | [] => rfl
  | s :: ss => by simp [jWFL, jWF, jWFL_map_jstr ss]

/-- Pointwise well-formed converted elements give a well-formed list. -/
theorem jWFL_of (xs : List PyVal) (h : ∀ x ∈ xs, jWF (pyToJ x) = true) :
    jWFL (pyListToJ xs) = true := by
  induction xs with
  | nil => rfl
  | cons x t iht =>
    simp only [pyListToJ, jWFL, Bool.and_eq_true]
    exact ⟨h x (List.mem_cons_self _ _),
      iht (fun y hy => h y (List.mem_cons_of_mem _ hy))⟩

/-- Pointwise well-formed converted values give well-formed members. -/
theorem jWFKvs_of (kvs : List (Str × PyVal))
    (h : ∀ p ∈ kvs, jWF (pyToJ p.2) = true) :
    jWFKvs (pyKvsToJ kvs) = true := by
  induction kvs with
  | nil => rfl
  | cons p t iht =>
    rcases p with ⟨k, v⟩
    simp only [pyKvsToJ, jWFKvs, Bool.and_eq_true]
    exact ⟨h (k, v) (List.mem_cons_self _ _),
      iht (fun q hq => h q (List.mem_cons_of_mem _ hq))⟩

/-- The encoder image of a well-formed Python value is well-formed: dict
keys stay distinct. -/
theorem pyToJ_wf : ∀ (n : Nat) (v : PyVal), sizeJ (pyToJ v) ≤ n →
    pyWF v = true → jWF (pyToJ v) = true := by
  intro n
  induction n using Nat.strong_induction_on with
  | _ n ih =>
    intro v hn hwf
    cases v with
    | pnone => rfl
    | pbool b => rfl
    | pint i => rfl
    | pstr s => rfl
    | plist xs =>
      simp only [pyWF] at hwf
      simp only [pyToJ, jWF]
      refine jWFL_of xs (fun x hx => ?_)
      have hlt : sizeJ (pyToJ x) < n := by
        have hm : pyToJ x ∈ pyListToJ xs := by
          rw [pyListToJ_eq_map]
          exact List.mem_map_of_mem _ hx
        have := sizeJ_le_sizeL hm
        simp only [pyToJ, sizeJ] at hn
        omega
      exact ih _ hlt x (le_refl _) (pyWFL_mem hwf hx)
    | ptuple xs =>
      simp only [pyWF] at hwf
      simp only [pyToJ, jWF]
      refine jWFL_of xs (fun x hx => ?_)
      have hlt : sizeJ (pyToJ x) < n := by
        have hm : pyToJ x ∈ pyListToJ xs := by
          rw [pyListToJ_eq_map]
          exact List.mem_map_of_mem _ hx
        have := sizeJ_le_sizeL hm
        simp only [pyToJ, sizeJ] at hn
        omega
      exact ih _ hlt x (le_refl _) (pyWFL_mem hwf hx)
    | pdict kvs =>
      simp only [pyWF, Bool.and_eq_true] at hwf
      simp only [pyToJ, jWF, Bool.and_eq_true]
      constructor
      · rw [pyKvsToJ_eq_mapSnd, mapSnd_keys]
        exact hwf.1
      · refine jWFKvs_of kvs (fun p hp => ?_)
        rcases p with ⟨k, v2⟩
        have hlt : sizeJ (pyToJ v2) < n := by
          have hm : (k, pyToJ v2) ∈ pyKvsToJ kvs := by
            rw [pyKvsToJ_eq_mapSnd]
            exact List.mem_map_of_mem _ hp
          have := sizeJ_le_sizeKV hm
          simp only [pyToJ, sizeJ] at hn
          omega
        exact ih _ hlt v2 (le_refl _) (pyWFKvs_mem hwf.2 hp)
    | pset es =>
      simp only [pyToJ, jWF]
      exact jWFL_map_jstr (sortStrs es)
    | pfrozenset es =>
      simp only [pyToJ, jWF]
      exact jWFL_map_jstr (sortStrs es)

/-- Deserializing the canonical encoding succeeds and yields the read-back
value. -/
theorem loads_canonical (v : PyVal) :
    loads (canonicalChars v) = some (jToPy (normJ (pyToJ v))) := by
  have hsz : sizeJ (pyToJ v) ≤ (serJ (pyToJ v)).length :=
    (size_le_len (sizeJ (pyToJ v))).1 (pyToJ v) (le_refl _)
  have hp := (parse_ser (sizeJ (pyToJ v))).1 (pyToJ v) (le_refl _)
    ((serJ (pyToJ v)).length + 1) [] (by omega) (Or.inl rfl)
  rw [List.append_nil] at hp
  show loads (serJ (pyToJ v)) = _
  simp [loads, hp, skipWs]

/-- No space character occurs in the string. -/
def noSp (s : Str) : Bool := s.all (fun c => c != ' ')

mutual
/-- No space character occurs in any string or key of the JSON value. -/
def jNoSp : J → Bool
  | J.jnull => true
  | J.jbool _ => true
  | J.jint _ => true
  | J.jstr s => noSp s
  | J.jarr xs => jNoSpL xs
  | J.jobj kvs => jNoSpKvs kvs
termination_by structural j => j

/-- Elementwise space freedom. -/
def jNoSpL : List J → Bool
  | [] => true
  | x :: xs => jNoSp x && jNoSpL xs
termination_by structural l => l

/-- Space freedom of keys and member values. -/
def jNoSpKvs : List (Str × J) → Bool
  | [] => true
  | (k, v) :: kvs => noSp k && jNoSp v && jNoSpKvs kvs
termination_by structural l => l
end

mutual
/-- No space character occurs in any string, key, or set element of the
Python value. -/
def pyNoSp : PyVal → Bool
  | PyVal.pnone => true
  | PyVal.pbool _ => true
  | PyVal.pint _ => true
  | PyVal.pstr s => noSp s
  | PyVal.plist xs => pyNoSpL xs
  | PyVal.ptuple xs => pyNoSpL xs
  | PyVal.pdict kvs => pyNoSpKvs kvs
  | PyVal.pset es => es.all noSp
  | PyVal.pfrozenset es => es.all noSp
termination_by structural v => v

/-- Elementwise space freedom. -/
def pyNoSpL : List PyVal → Bool
  | [] => true
  | x :: xs => pyNoSp x && pyNoSpL xs
termination_by structural l => l

/-- Space freedom of keys and dict values. -/
def pyNoSpKvs : List (Str × PyVal) → Bool
  | [] => true
  | (k, v) :: kvs => noSp k && pyNoSp v && pyNoSpKvs kvs
termination_by structural l => l
end

/-- Hexadecimal digit characters are not whitespace. -/
theorem hexDigit_not_ws {m : Nat} (h : m < 16) : isWs (hexDigit m) = false := by
  interval_cases m <;> decide

/-- Escaping a non-space character yields no whitespace. -/
theorem escChar_noWs {c : Char} (h : (c != ' ') = true) :
    ∀ c2 ∈ escChar c, isWs c2 = false := by
  intro c2 hc2
  by_cases h34 : c = Char.ofNat 34
  · subst h34; simp [escChar] at hc2; rcases hc2 with rfl | rfl <;> decide
  · by_cases hbs : c = '\\'
    · subst hbs; simp [escChar] at hc2; rcases hc2 with rfl | rfl <;> decide
    · by_cases h8 : c = Char.ofNat 8
      · subst h8; simp [escChar] at hc2; rcases hc2 with rfl | rfl <;> decide
      · by_cases h9 : c = Char.ofNat 9
        · subst h9; simp [escChar] at hc2; rcases hc2 with rfl | rfl <;> decide
        · by_cases h10 : c = Char.ofNat 10
          · subst h10; simp [escChar] at hc2; rcases hc2 with rfl | rfl <;> decide
          · by_cases h12 : c = Char.ofNat 12
            · subst h12; simp [escChar] at hc2
              rcases hc2 with rfl | rfl <;> decide
            · by_cases h13 : c = Char.ofNat 13
              · subst h13; simp [escChar] at hc2
                rcases hc2 with rfl | rfl <;> decide
              · by_cases hct : c.toNat < 32
                · simp only [escChar, if_neg h34, if_neg hbs, if_neg h8,
                    if_neg h9, if_neg h10, if_neg h12, if_neg h13, if_pos hct]
                    at hc2
                  simp at hc2
                  rcases hc2 with rfl | rfl | rfl | rfl | rfl <;>
                    first
                    | decide
                    | exact hexDigit_not_ws (by omega)
                · simp only [escChar, if_neg h34, if_neg hbs, if_neg h8,
                    if_neg h9, if_neg h10, if_neg h12, if_neg h13, if_neg hct]
                    at hc2
                  simp at hc2
                  subst hc2
                  cases hw : isWs c2
                  · rfl
                  · exfalso
                    simp only [isWs, Bool.or_eq_true, decide_eq_true_eq] at hw
                    rcases hw with ((rfl | rfl) | rfl) | rfl
                    · simp at h
                    · exact hct (by decide)
                    · exact hct (by decide)
                    · exact hct (by decide)

/-- A serialized string literal of a space-free string has no whitespace. -/
theorem serStr_noWs {s : Str} (h : noSp s = true) :
    ∀ c ∈ serStr s, isWs c = false := by
  intro c hc
  rcases List.mem_cons.1 hc with rfl | h2
  · decide
  · rcases List.mem_append.1 h2 with h3 | h3
    · rw [List.mem_flatMap] at h3
      obtain ⟨c0, hc0, hce⟩ := h3
      have : (c0 != ' ') = true := by
        simp only [noSp, List.all_eq_true] at h
        exact h c0 hc0
      exact escChar_noWs this c hce
    · rw [List.mem_singleton] at h3
      subst h3
      decide

/-- A rendered integer has no whitespace. -/
theorem intToChars_noWs (i : Int) : ∀ c ∈ intToChars i, isWs c = false := by
  intro c hc
  cases i with
  | ofNat m =>
    simp only [intToChars] at hc
    exact (digit_facts (natToChars_digits m c hc)).1
  | negSucc m =>
    simp only [intToChars, List.mem_cons] at hc
    rcases hc with rfl | hc
    · decide
    · exact (digit_facts (natToChars_digits (m + 1) c hc)).1

/-- Joined members of space-free keys and whitespace-free rendered values
have no whitespace. -/
theorem joinObj_noWs : ∀ (ps : List (Str × Str)),
    (∀ p ∈ ps, noSp p.1 = true ∧ ∀ c ∈ p.2, isWs c = false) →
    ∀ c ∈ joinObj ps, isWs c = false := by
  intro ps
  induction ps with
  | nil => intro _ c hc; simp [joinObj] at hc
  | cons p t iht =>
    intro h c hc
    rcases p with ⟨k, sv⟩
    have hp := h (k, sv) (List.mem_cons_self _ _)
    cases t with
    | nil =>
      rw [show joinObj [(k, sv)] = serStr k ++ ':' :: sv from rfl] at hc
      rcases List.mem_append.1 hc with h3 | h3
      · exact serStr_noWs hp.1 c h3
      · rcases List.mem_cons.1 h3 with rfl | h4
        · decide
        · exact hp.2 c h4
    | cons q t2 =>
      rw [show joinObj ((k, sv) :: q :: t2) =
        serStr k ++ ':' :: sv ++ ',' :: joinObj (q :: t2) from rfl] at hc
      rcases List.mem_append.1 hc with h3 | h3
      · rcases List.mem_append.1 h3 with h4 | h4
        · exact serStr_noWs hp.1 c h4
        · rcases List.mem_cons.1 h4 with rfl | h5
          · decide
          · exact hp.2 c h5
      · rcases List.mem_cons.1 h3 with rfl | h6
        · decide
        · exact iht (fun r hr => h r (List.mem_cons_of_mem _ hr)) c h6

/-- Serialized elements of pointwise whitespace-free values have no
whitespace. -/
theorem serArr_noWs : ∀ (xs : List J),
    (∀ x ∈ xs, ∀ c ∈ serJ x, isWs c = false) →
    ∀ c ∈ serArr xs, isWs c = false := by
  intro xs
  induction xs with
  | nil => intro _ c hc; simp [serArr] at hc
  | cons x t iht =>
    intro h c hc
    cases t with
    | nil => exact h x (List.mem_cons_self _ _) c hc
    | cons y t2 =>
      rw [show serArr (x :: y :: t2) = serJ x ++ ',' :: serArr (y :: t2)
        from rfl] at hc
      rcases List.mem_append.1 hc with h3 | h3
      · exact h x (List.mem_cons_self _ _) c h3
      · rcases List.mem_cons.1 h3 with rfl | h4
        · decide
        · exact iht (fun z hz => h z (List.mem_cons_of_mem _ hz)) c h4

/-- Keys and values of space-free members. -/
theorem jNoSpKvs_mem : ∀ {kvs : List (Str × J)}, jNoSpKvs kvs = true →
    ∀ {k v}, (k, v) ∈ kvs → noSp k = true ∧ jNoSp v = true := by
  intro kvs
  induction kvs with
  | nil => intro _ k v hx; simp at hx
  | cons p t iht =>
    intro h k v hx
    rcases p with ⟨k2, v2⟩
    simp only [jNoSpKvs, Bool.and_eq_true] at h
    rcases List.mem_cons.1 hx with heq | hx
    · cases heq; exact ⟨h.1.1, h.1.2⟩
    · exact iht h.2 hx

/-- Elements of space-free lists. -/
theorem jNoSpL_mem : ∀ {xs : List J}, jNoSpL xs = true →
    ∀ {x}, x ∈ xs → jNoSp x = true := by
  intro xs
  induction xs with
  | nil => intro _ x hx; simp at hx
  | cons y t iht =>
    intro h x hx
    simp only [jNoSpL, Bool.and_eq_true] at h
    rcases List.mem_cons.1 hx with rfl | hx
    · exact h.1
    · exact iht h.2 hx

/-- The canonical serialization of a space-free JSON value contains no
whitespace character at all: the separators introduce none. -/
theorem serJ_noWs : ∀ (n : Nat) (j : J), sizeJ j ≤ n → jNoSp j = true →
    ∀ c ∈ serJ j, isWs c = false := by
  intro n
  induction n using Nat.strong_induction_on with
  | _ n ih =>
    intro j hj hns c hc
    cases j with
    | jnull =>
      simp only [serJ, str] at hc
      simp at hc
      rcases hc with rfl | rfl | rfl <;> decide
    | jbool b =>
      cases b with
      | true =>
        simp only [serJ, str] at hc
        simp at hc
        rcases hc with rfl | rfl | rfl | rfl <;> decide
      | false =>
        simp only [serJ, str] at hc
        simp at hc
        rcases hc with rfl | rfl | rfl | rfl | rfl <;> decide
    | jint i => exact intToChars_noWs i c hc
    | jstr s => exact serStr_noWs hns c hc
    | jarr xs =>
      rw [show serJ (J.jarr xs) = '[' :: serArr xs ++ [']'] from rfl] at hc
      rcases List.mem_cons.1 hc with rfl | h2
      · decide
      · rcases List.mem_append.1 h2 with h3 | h3
        · refine serArr_noWs xs (fun x hx c2 hc2 => ?_) c h3
          have hlt : sizeJ x < n := by
            have := sizeJ_le_sizeL hx
            simp only [sizeJ] at hj
            omega
          exact ih (sizeJ x) hlt x (le_refl _) (jNoSpL_mem hns hx) c2 hc2
        · rw [List.mem_singleton] at h3
          subst h3
          decide
    | jobj kvs =>
      rw [show serJ (J.jobj kvs) = Char.ofNat 123 ::
        joinObj (sortKvs (serPairs kvs)) ++ [Char.ofNat 125] from rfl] at hc
      rcases List.mem_cons.1 hc with rfl | h2
      · decide
      · rcases List.mem_append.1 h2 with hc | h3
        swap
        · rw [List.mem_singleton] at h3
          subst h3
          decide
        refine joinObj_noWs (sortKvs (serPairs kvs)) (fun p hp => ?_) c hc
        have hp2 : p ∈ serPairs kvs := mem_sortKvs.1 hp
        rw [serPairs_eq_mapSnd] at hp2
        simp only [mapSnd, List.mem_map] at hp2
        obtain ⟨⟨k, v⟩, hkv, hpe⟩ := hp2
        obtain ⟨hk, hv⟩ := jNoSpKvs_mem hns hkv
        subst hpe
        refine ⟨hk, fun c2 hc2 => ?_⟩
        have hlt : sizeJ v < n := by
          have := sizeJ_le_sizeKV hkv
          simp only [sizeJ] at hj
          omega
        exact ih (sizeJ v) hlt v (le_refl _) hv c2 hc2

/-- Elements of space-free Python lists. -/
theorem pyNoSpL_mem : ∀ {xs : List PyVal}, pyNoSpL xs = true →
    ∀ {x}, x ∈ xs → pyNoSp x = true := by
  intro xs
  induction xs with
  | nil => intro _ x hx; simp at hx
  | cons y t iht =>
    intro h x hx
    simp only [pyNoSpL, Bool.and_eq_true] at h
    rcases List.mem_cons.1 hx with rfl | hx
    · exact h.1
    · exact iht h.2 hx

/-- Keys and values of space-free Python dicts. -/
theorem pyNoSpKvs_mem : ∀ {kvs : List (Str × PyVal)}, pyNoSpKvs kvs = true →
    ∀ {k v}, (k, v) ∈ kvs → noSp k = true ∧ pyNoSp v = true := by
  intro kvs
  induction kvs with
  | nil => intro _ k v hx; simp at hx
  | cons p t iht =>
    intro h k v hx
    rcases p with ⟨k2, v2⟩
    simp only [pyNoSpKvs, Bool.and_eq_true] at h
    rcases List.mem_cons.1 hx with heq | hx
    · cases heq; exact ⟨h.1.1, h.1.2⟩
    · exact iht h.2 hx

/-- A list of space-free JSON strings is space-free. -/
theorem jNoSpL_map_jstr (l : List Str) (h : ∀ s ∈ l, noSp s = true) :
    jNoSpL (l.map J.jstr) = true := by
  induction l with
  | nil => rfl
  | cons s ss iht =>
    simp only [List.map_cons, jNoSpL, jNoSp, Bool.and_eq_true]
    exact ⟨h s (List.mem_cons_self _ _),
      iht (fun t ht => h t (List.mem_cons_of_mem _ ht))⟩

/-- Pointwise space-free converted elements give a space-free list. -/
theorem jNoSpL_of (xs : List PyVal) (h : ∀ x ∈ xs, jNoSp (pyToJ x) = true) :
    jNoSpL (pyListToJ xs) = true := by
  induction xs with
  | nil => rfl
  | cons x t iht =>
    simp only [pyListToJ, jNoSpL, Bool.and_eq_true]
    exact ⟨h x (List.mem_cons_self _ _),
      iht (fun y hy => h y (List.mem_cons_of_mem _ hy))⟩

/-- Pointwise space-free converted members give space-free members. -/
theorem jNoSpKvs_of (kvs : List (Str × PyVal))
    (h : ∀ p ∈ kvs, noSp p.1 = true ∧ jNoSp (pyToJ p.2) = true) :
    jNoSpKvs (pyKvsToJ kvs) = true := by
  induction kvs with
  | nil => rfl
  | cons p t iht =>
    rcases p with ⟨k, v⟩
    simp only [pyKvsToJ, jNoSpKvs, Bool.and_eq_true]
    have hp := h (k, v) (List.mem_cons_self _ _)
    exact ⟨⟨hp.1, hp.2⟩, iht (fun q hq => h q (List.mem_cons_of_mem _ hq))⟩

/-- The encoder image of a space-free Python value is space-free. -/
theorem pyNoSp_to_j : ∀ (n : Nat) (v : PyVal), sizeJ (pyToJ v) ≤ n →
    pyNoSp v = true → jNoSp (pyToJ v) = true := by
  intro n
  induction n using Nat.strong_induction_on with
  | _ n ih =>
    intro v hn hns
    cases v with
    | pnone => rfl
    | pbool b => rfl
    | pint i => rfl
    | pstr s => exact hns
    | plist xs =>
      simp only [pyNoSp] at hns
      simp only [pyToJ, jNoSp]
      refine jNoSpL_of xs (fun x hx => ?_)
      have hlt : sizeJ (pyToJ x) < n := by
        have hm : pyToJ x ∈ pyListToJ xs := by
          rw [pyListToJ_eq_map]; exact List.mem_map_of_mem _ hx
        have := sizeJ_le_sizeL hm
        simp only [pyToJ, sizeJ] at hn
        omega
      exact ih _ hlt x (le_refl _) (pyNoSpL_mem hns hx)
    | ptuple xs =>
      simp only [pyNoSp] at hns
      simp only [pyToJ, jNoSp]
      refine jNoSpL_of xs (fun x hx => ?_)
      have hlt : sizeJ (pyToJ x) < n := by
        have hm : pyToJ x ∈ pyListToJ xs := by
          rw [pyListToJ_eq_map]; exact List.mem_map_of_mem _ hx
        have := sizeJ_le_sizeL hm
        simp only [pyToJ, sizeJ] at hn
        omega
      exact ih _ hlt x (le_refl _) (pyNoSpL_mem hns hx)
    | pdict kvs =>
      simp only [pyNoSp] at hns
      simp only [pyToJ, jNoSp]
      refine jNoSpKvs_of kvs (fun p hp => ?_)
      rcases p with ⟨k, v2⟩
      have hkv := pyNoSpKvs_mem hns hp
      refine ⟨hkv.1, ?_⟩
      have hlt : sizeJ (pyToJ v2) < n := by
        have hm : (k, pyToJ v2) ∈ pyKvsToJ kvs := by
          rw [pyKvsToJ_eq_mapSnd]; exact List.mem_map_of_mem _ hp
        have := sizeJ_le_sizeKV hm
        simp only [pyToJ, sizeJ] at hn
        omega
      exact ih _ hlt v2 (le_refl _) hkv.2
    | pset es =>
      simp only [pyNoSp, List.all_eq_true] at hns
      simp only [pyToJ, jNoSp]
      exact jNoSpL_map_jstr (sortStrs es) (fun s hs => hns s (mem_sortStrs.1 hs))
    | pfrozenset es =>
      simp only [pyNoSp, List.all_eq_true] at hns
      simp only [pyToJ, jNoSp]
      exact jNoSpL_map_jstr (sortStrs es) (fun s hs => hns s (mem_sortStrs.1 hs))

/-- Rendering set elements as strings commutes with conversion. -/
theorem pyListToJ_map_pstr : ∀ l : List Str,
    pyListToJ (l.map PyVal.pstr) = l.map J.jstr
  | [] => rfl
  | s :: ss => by simp [pyListToJ, pyToJ, pyListToJ_map_pstr ss]

/-- C6: for every structured value `v` (with the distinct dict keys Python
guarantees), `canonical_json v` equals `canonical_json` of the value parsed
back from it; object keys are printed in sorted order; sets and frozensets
are rendered exactly as the sorted list of their elements, which is sorted;
and the encoding of a space-free value contains no whitespace at all, so the
separators carry none. -/
theorem C6_canonical_roundtrip (v : PyVal) (h : pyWF v = true) :
    (∃ w, loads (canonicalChars v) = some w ∧
      canonical_json w = canonical_json v) ∧
    (∀ kvs : List (Str × J), ∃ ps, serJ (J.jobj kvs) =
      Char.ofNat 123 :: joinObj ps ++ [Char.ofNat 125] ∧
      pairsSorted ps = true) ∧
    (∀ es : List Str,
      serJ (pyToJ (PyVal.pset es)) =
        serJ (pyToJ (PyVal.plist ((sortStrs es).map PyVal.pstr))) ∧
      serJ (pyToJ (PyVal.pfrozenset es)) =
        serJ (pyToJ (PyVal.plist ((sortStrs es).map PyVal.pstr))) ∧
      strsSorted (sortStrs es) = true) ∧
    (pyNoSp v = true → (canonicalChars v).all (fun c => !(isWs c)) = true) := by
  refine ⟨⟨jToPy (normJ (pyToJ v)), loads_canonical v, ?_⟩, ?_, ?_, ?_⟩
  · have h1 : pyToJ (jToPy (normJ (pyToJ v))) = normJ (pyToJ v) :=
      pyToJ_jToPy (sizeJ (normJ (pyToJ v))) _ (le_refl _)
    have h2 : serJ (normJ (pyToJ v)) = serJ (pyToJ v) :=
      serJ_normJ (sizeJ (pyToJ v)) _ (le_refl _)
        (pyToJ_wf (sizeJ (pyToJ v)) v (le_refl _) h)
    show utf8 (serJ (pyToJ (jToPy (normJ (pyToJ v))))) = utf8 (serJ (pyToJ v))
    rw [h1, h2]
  · intro kvs
    exact ⟨sortKvs (serPairs kvs), by simp [serJ], pairsSorted_sortKvs _⟩
  · intro es
    refine ⟨?_, ?_, strsSorted_sortStrs es⟩
    · simp [pyToJ, pyListToJ_map_pstr]
    · simp [pyToJ, pyListToJ_map_pstr]
  · intro hns
    rw [List.all_eq_true]
    intro c hc
    have hw := serJ_noWs (sizeJ (pyToJ v)) (pyToJ v) (le_refl _)
      (pyNoSp_to_j (sizeJ (pyToJ v)) v (le_refl _) hns) c hc
    simp [hw]

/-- A concrete structured value exercising dict key sorting, nesting, sets,
and escaped strings. -/
def c6V : PyVal :=
  PyVal.pdict
    [(str "b", PyVal.plist [PyVal.pint 10, PyVal.pbool true, PyVal.pnone]),
     (str "a", PyVal.pstr (str "x\ny")),
     (str "c", PyVal.pfrozenset [str "q", str "p"])]

theorem C6_canonical_roundtrip_witness :
    pyWF c6V = true ∧
    ((∃ w, loads (canonicalChars c6V) = some w ∧
      canonical_json w = canonical_json c6V) ∧
    (∀ kvs : List (Str × J), ∃ ps, serJ (J.jobj kvs) =
      Char.ofNat 123 :: joinObj ps ++ [Char.ofNat 125] ∧
      pairsSorted ps = true) ∧
    (∀ es : List Str,
      serJ (pyToJ (PyVal.pset es)) =
        serJ (pyToJ (PyVal.plist ((sortStrs es).map PyVal.pstr))) ∧
      serJ (pyToJ (PyVal.pfrozenset es)) =
        serJ (pyToJ (PyVal.plist ((sortStrs es).map PyVal.pstr))) ∧
      strsSorted (sortStrs es) = true) ∧
    (pyNoSp c6V = true → (canonicalChars c6V).all (fun c => !(isWs c)) = true)) :=
  ⟨by decide, C6_canonical_roundtrip c6V (by decide)⟩

end RFSN
